import Mathlib

/-!
Verification model of the AGPM version-maintenance scripts
(`.github/scripts/bump-version.py` and `.github/scripts/bootstrap-versions.py`).

The Python code is shallowly embedded as executable Lean functions over
`List Char` (with `String` wrappers at the interfaces).  The fixed regular
expressions used by the scripts are hand-compiled to scanning functions that
realise Python `re` semantics for those concrete patterns: leftmost match,
greedy `\s*`, `.*` and `[0-9]+`, lazy `(.*?)` and `(?:.*\n)*?`, with the
backtracking priorities these operators induce.  External collaborators
(the git tag-existence query, the filesystem, `json.loads`/`json.dumps`)
are passed in as function parameters, matching the spec's treatment of them
as external oracles.  Machine-level caveats of the embedding: Python's `\s`
and `str.strip` are modelled on the six ASCII whitespace characters
(exotic Unicode spaces are out of scope), `int()` is modelled on plain
digit strings (the only shape the scripts ever feed it), JSON numbers are
modelled as integers, and error-message texts are representative.
-/

namespace AGPM

/-! ### Basic character and list utilities -/

/-- The double-quote character. -/
def dq : Char := Char.ofNat 34

/-- The single-quote character. -/
def sq : Char := Char.ofNat 39

/-- Python `\s` on ASCII: space, tab, newline, carriage return,
vertical tab, form feed. -/
def pyWS (c : Char) : Bool :=
  c == ' ' || c == '\t' || c == '\n' || c == '\r' ||
  c == Char.ofNat 11 || c == Char.ofNat 12

/-- Python substring containment (`pat in l`). -/
def hasSub (pat : List Char) : List Char → Bool
  | [] => pat.isEmpty
  | c :: t => ((c :: t).take pat.length == pat) || hasSub pat t

/-- Split a character list on a separator character (Python `str.split(sep)`). -/
def splitOnChar (sep : Char) : List Char → List (List Char)
  | [] => [[]]
  | c :: t =>
    if c == sep then [] :: splitOnChar sep t
    else
      match splitOnChar sep t with
      | h :: r => (c :: h) :: r
      | [] => [[c]]

/-- Drop the leading whitespace of a character list. -/
def dropLeadWS : List Char → List Char
  | [] => []
  | c :: t => if pyWS c then dropLeadWS t else c :: t

/-- Python `str.strip()`. -/
def stripWS (l : List Char) : List Char :=
  dropLeadWS ((dropLeadWS l.reverse).reverse)

/-- Length of the maximal leading whitespace run (what a greedy `\s*` first
consumes). -/
def wsRunLen : List Char → Nat
  | [] => 0
  | c :: t => if pyWS c then wsRunLen t + 1 else 0

/-- Index of the first newline inside the leading whitespace run, if any.
`\s*\n` matches a prefix of `l` exactly when this is `some`. -/
def firstNl : List Char → Option Nat
  | [] => none
  | c :: t =>
    if c == '\n' then some 0
    else if pyWS c then (firstNl t).map (· + 1)
    else none

/-- Index of the last newline inside the leading whitespace run, if any.
This is the newline a greedy `\s*` followed by a literal `\n` settles on
first. -/
def lastNl : List Char → Option Nat
  | [] => none
  | c :: t =>
    if pyWS c then
      match lastNl t with
      | some j => some (j + 1)
      | none => if c == '\n' then some 0 else none
    else none

/-- Length of the maximal leading run of ASCII digits (greedy `[0-9]+`
without the nonemptiness requirement). -/
def digitRun : List Char → Nat
  | [] => 0
  | c :: t => if c.isDigit then digitRun t + 1 else 0

/-- Python `str.endswith`. -/
def endsWithL (l suf : List Char) : Bool :=
  l.reverse.take suf.length == suf.reverse

/-- Worker for `replaceAllL`; the fuel argument (instantiated with the
length of the list, an upper bound on the number of steps) makes the
recursion structural. -/
def replaceAllGo (pat repl : List Char) : Nat → List Char → List Char
  | _, [] => []
  | 0, l => l
  | fuel + 1, c :: t =>
    if pat != [] && ((c :: t).take pat.length == pat) then
      repl ++ replaceAllGo pat repl fuel (t.drop (pat.length - 1))
    else
      c :: replaceAllGo pat repl fuel t

/-- Python `str.replace(pat, repl)`: replace every non-overlapping
occurrence, scanning left to right.  (The scripts only call it with a
nonempty `pat`; for an empty `pat` this model replaces nothing.) -/
def replaceAllL (pat repl l : List Char) : List Char :=
  replaceAllGo pat repl l.length l

/-- Index of the last occurrence of a character (Python `str.rfind`). -/
def lastIdxOf (c : Char) : List Char → Option Nat
  | [] => none
  | x :: t =>
    match lastIdxOf c t with
    | some j => some (j + 1)
    | none => if x == c then some 0 else none

/-! ### `bump_version` -/

/-- Digit-string to number (the value `int()` computes on the plain digit
strings the scripts feed it). -/
def natOfDigits (l : List Char) : Nat :=
  l.foldl (fun n c => n * 10 + (c.toNat - 48)) 0

/-- Python `int(s)` restricted to the shapes that occur here: a nonempty
string of ASCII digits parses, anything else raises `ValueError`. -/
def pyInt? (l : List Char) : Option Nat :=
  if l != [] && l.all Char.isDigit then some (natOfDigits l) else none

/-- The core of `bump_version` (`bump-version.py` lines 97-107): the
`if`/`elif` chain on the bump kind applied to the parsed
`(major, minor, patch)` triple. -/
def bumpTriple (t : Nat × Nat × Nat) (bumpType : String) : Except String (Nat × Nat × Nat) :=
  if bumpType == "major" then .ok (t.1 + 1, 0, 0)
  else if bumpType == "minor" then .ok (t.1, t.2.1 + 1, 0)
  else if bumpType == "patch" then .ok (t.1, t.2.1, t.2.2 + 1)
  else .error ("Invalid bump type: " ++ bumpType)

/-- Render a version triple as `f"{major}.{minor}.{patch}"`. -/
def renderTriple (t : Nat × Nat × Nat) : String :=
  toString t.1 ++ "." ++ toString t.2.1 ++ "." ++ toString t.2.2

/-- `bump_version` (`bump-version.py` lines 83-109).  `version.split('.')`
is indexed at 0, 1, 2 (extra components are ignored; fewer raise
`IndexError`; non-numeric components raise `ValueError`). -/
def bump_version (version : String) (bumpType : String) : Except String String :=
  match splitOnChar '.' version.data with
  | p0 :: p1 :: p2 :: _ =>
    match pyInt? p0, pyInt? p1, pyInt? p2 with
    | some a, some b, some c => (bumpTriple (a, b, c) bumpType).map renderTriple
    | _, _, _ => .error "ValueError: invalid literal for int() with base 10"
  | _ => .error "IndexError: list index out of range"

/-! ### `parse_artifact_path` and `generate_tag_name` -/

/-- `pathlib` path components for the relative POSIX paths the scripts see:
split on `/`, dropping empty and `.` segments. -/
def pathPartsL (filepath : List Char) : List (List Char) :=
  (splitOnChar '/' filepath).filter (fun l => l != ([] : List Char) && l != ['.'])

/-- `pathlib`'s `stem`/`suffix` of a file name: split at the last `.`
provided it is neither the first nor past the last character. -/
def stemSuffix (name : List Char) : List Char × List Char :=
  match lastIdxOf '.' name with
  | some i =>
    if 0 < i && i + 1 < name.length then (name.take i, name.drop i)
    else (name, [])
  | none => (name, [])

/-- The name (last component) of a path. -/
def pathName (filepath : List Char) : List Char :=
  (pathPartsL filepath).getLastD []

/-- The suffix-stripping step of `parse_artifact_path` (`bump-version.py`
lines 231-235): for the `best-practices` and `styleguides` categories,
when the artifact name ends with the category's suffix, apply
`str.replace(suffix, '')`. -/
def stripSuffixName (category stem : List Char) : List Char :=
  if category == "best-practices".data && endsWithL stem ("-best-practices".data) then
    replaceAllL ("-best-practices".data) [] stem
  else if category == "styleguides".data && endsWithL stem ("-styleguide".data) then
    replaceAllL ("-styleguide".data) [] stem
  else stem

/-- `parse_artifact_path` (`bump-version.py` lines 172-237; the identical
function in `bootstrap-versions.py` lines 140-193): classify a path into
`(tool, category, artifact_name)` or raise. -/
def parse_artifact_path_core (filepath : List Char) :
    Except (List Char) (List Char × List Char × List Char) :=
  let parts := pathPartsL filepath
  match parts with
  | [] => .error ("IndexError: tuple index out of range".data)
  | p0 :: rest =>
    let tool? : Option (List Char) :=
      if p0 == "snippets".data then some ("snippet".data)
      else if p0 == "claude-code".data then some p0
      else if p0 == "opencode".data then some p0
      else none
    match tool? with
    | none => .error ("Unknown tool in path: ".data ++ filepath)
    | some tool =>
      match rest with
      | [] => .error ("Invalid artifact path structure: ".data ++ filepath)
      | p1 :: rest2 =>
        let name := pathName filepath
        let stem := (stemSuffix name).1
        let suffix := (stemSuffix name).2
        let category? : Except (List Char) (List Char) :=
          if suffix == ".json".data then
            if p1 == "hooks".data then .ok ("hook".data)
            else if p1 == "mcp-servers".data then .ok ("mcp-server".data)
            else .error ("Unknown JSON file category in path: ".data ++ filepath)
          else
            match rest2 with
            | [] => .error ("Invalid artifact path structure: ".data ++ filepath)
            | _ :: _ =>
              if p1 == "agents".data then .ok ("agent".data)
              else if p1 == "commands".data then .ok ("command".data)
              else .ok p1
        match category? with
        | .error e => .error e
        | .ok category => .ok (tool, category, stripSuffixName category stem)

/-- String-level wrapper for `parse_artifact_path`. -/
def parse_artifact_path (filepath : String) : Except String (String × String × String) :=
  match parse_artifact_path_core filepath.data with
  | .error e => .error ⟨e⟩
  | .ok (t, c, n) => .ok (⟨t⟩, ⟨c⟩, ⟨n⟩)

/-- `generate_tag_name` (`bump-version.py` lines 240-254):
`{tool}-{category}-{name}-v{semver}`. -/
def generate_tag_name (filepath : String) (version : String) : Except String String :=
  match parse_artifact_path filepath with
  | .error e => .error e
  | .ok (tool, category, name) =>
    .ok (tool ++ "-" ++ category ++ "-" ++ name ++ "-v" ++ version)

/-! ### The version-value pattern

All three regexes dealing with version values share the tail pattern
`\s*["\']?[0-9]+\.[0-9]+\.[0-9]+["\']?`.  For this concrete pattern the
backtracking search is deterministic: a greedy `\s*` must consume the whole
whitespace run (any shorter choice leaves a whitespace character where a
quote or digit is required), each `[0-9]+` must consume a maximal digit run
(any shorter choice leaves a digit where a `.` is required), and each
optional quote takes a quote character exactly when one is present. -/

/-- The literal `version:` token. -/
def versionTok : List Char := ['v', 'e', 'r', 's', 'i', 'o', 'n', ':']

/-- The literal `agpm:` token. -/
def agpmTok : List Char := ['a', 'g', 'p', 'm', ':']

/-- Length matched by an optional quote `["\']?` at the head of `l`. -/
def quoteLen : List Char → Nat
  | [] => 0
  | c :: _ => if c == dq || c == sq then 1 else 0

/-- One `[0-9]+\.` step of the triple pattern: a maximal nonempty digit
run followed by a literal dot.  Returns the run length and the remaining
text. -/
def runDot (l : List Char) : Option (Nat × List Char) :=
  let r := digitRun l
  if r == 0 then none
  else
    match l.drop r with
    | c :: t => if c == '.' then some (r, t) else none
    | [] => none

/-- The final `[0-9]+` of the triple pattern: a maximal nonempty digit
run. -/
def runEnd (l : List Char) : Option Nat :=
  let r := digitRun l
  if r == 0 then none else some r

/-- Length matched by `[0-9]+\.[0-9]+\.[0-9]+` at the head of `l`
(with the maximal-run determinism explained above), if it matches. -/
def digitsTripleLen (l : List Char) : Option Nat :=
  match runDot l with
  | none => none
  | some (r1, t) =>
    match runDot t with
    | none => none
    | some (r2, t2) =>
      match runEnd t2 with
      | none => none
      | some r3 => some (r1 + 1 + r2 + 1 + r3)

/-- Length matched by `["\']?[0-9]+\.[0-9]+\.[0-9]+["\']?` at the head of
`l`, if it matches. -/
def valueCore (l : List Char) : Option Nat :=
  match l with
  | [] => none
  | c :: t =>
    if c == dq || c == sq then
      (digitsTripleLen t).map (fun n => 1 + n + quoteLen (t.drop n))
    else
      (digitsTripleLen l).map (fun n => n + quoteLen (l.drop n))

/-- Match of `\s*["\']?[0-9]+\.[0-9]+\.[0-9]+["\']?` at the head of `l`:
returns (whitespace-run length, value length). -/
def valueMatch (l : List Char) : Option (Nat × Nat) :=
  (valueCore (l.drop (wsRunLen l))).map (fun vl => (wsRunLen l, vl))

/-- The capture group of `version:\s*["\']?([0-9]+\.[0-9]+\.[0-9]+)["\']?`
given the text following the `version:` token: the digit triple itself. -/
def groupAfterTok (l : List Char) : Option (List Char) :=
  match l.drop (wsRunLen l) with
  | [] => none
  | c :: t =>
    if c == dq || c == sq then (digitsTripleLen t).map (fun n => t.take n)
    else
      (digitsTripleLen (c :: t)).map (fun n => (c :: t).take n)

/-- `re.search(r'version:\s*["\']?([0-9]+\.[0-9]+\.[0-9]+)["\']?', s)`:
scan for the leftmost position where the whole pattern matches and return
the captured digit triple. -/
def versionSearch : List Char → Option (List Char)
  | [] => none
  | c :: t =>
    if (c :: t).take 8 == versionTok then
      match groupAfterTok ((c :: t).drop 8) with
      | some g => some g
      | none => versionSearch t
    else versionSearch t

/-! ### `parse_frontmatter` -/

/-- Split on newlines (Python `str.split('\n')`). -/
def splitNl : List Char → List (List Char)
  | [] => [[]]
  | c :: t =>
    if c == '\n' then [] :: splitNl t
    else
      match splitNl t with
      | h :: r => (c :: h) :: r
      | [] => [[c]]

/-- Does the raw line start with a space or tab (`line.startswith(' ') or
line.startswith('\t')` in the section scan)? -/
def startsIndented : List Char → Bool
  | [] => false
  | c :: _ => c == ' ' || c == '\t'

/-- The line scan of `parse_frontmatter` (`bump-version.py` lines 42-60):
walk the frontmatter lines tracking whether the scan is inside the `agpm:`
section; inside it, a line whose stripped text contains `version:` is fed
to the version regex and a successful search overwrites the accumulator. -/
def scanVersion : List (List Char) → Bool → Option (List Char) → Option (List Char)
  | [], _, acc => acc
  | line :: ls, inAgpm, acc =>
    let s := stripWS line
    if s == agpmTok then scanVersion ls true acc
    else if inAgpm then
      if s != ([] : List Char) && !startsIndented line then
        scanVersion ls false acc
      else if hasSub versionTok s then
        match versionSearch s with
        | some g => scanVersion ls true (some g)
        | none => scanVersion ls true acc
      else scanVersion ls true acc
    else scanVersion ls false acc

/-- Check for the closing delimiter of the frontmatter regex at the head of
`l`: a newline, the literal `---`, then `\s*\n` (whose greedy backtracking
settles on the last newline of the whitespace run).  Returns the offset of
the body text. -/
def closingHere (l : List Char) : Option Nat :=
  if l.take 4 == ['\n', '-', '-', '-'] then
    (lastNl (l.drop 4)).map (fun j2 => 4 + j2 + 1)
  else none

/-- Earliest position at or after the head of `r` where the closing
delimiter matches: the lazy `(.*?)` grows until the first viable closing.
Returns (closing position, body offset relative to that position). -/
def closingScan : List Char → Option (Nat × Nat)
  | [] => none
  | c :: t =>
    match closingHere (c :: t) with
    | some boff => some (0, boff)
    | none => (closingScan t).map (fun pb => (pb.1 + 1, pb.2))

/-- Newline positions inside the leading whitespace run, in ascending
order: the candidate split points for the opening `---\s*\n`. -/
def nlsInRun : List Char → List Nat
  | [] => []
  | c :: t =>
    if pyWS c then
      (if c == '\n' then [0] else []) ++ (nlsInRun t).map (· + 1)
    else []

/-- Try the opening `\s*\n` split points in the engine's order (greedy:
last newline of the run first); for each, find the earliest viable closing
delimiter after it.  Returns (opening newline, closing position, body
start), all relative to `r`. -/
def fmTry (r : List Char) : List Nat → Option (Nat × Nat × Nat)
  | [] => none
  | j :: js =>
    match closingScan (r.drop (j + 1)) with
    | some (p, boff) => some (j, (j + 1) + p, (j + 1) + p + boff)
    | none => fmTry r js

/-- The frontmatter regex `^---\s*\n(.*?)\n---\s*\n(.*)$` (DOTALL), as a
function returning the two capture groups (frontmatter text, body). -/
def fmMatch (content : List Char) : Option (List Char × List Char) :=
  if content.take 3 == ['-', '-', '-'] then
    let r := content.drop 3
    match fmTry r ((nlsInRun r).reverse) with
    | some (j, p, bs) => some ((r.drop (j + 1)).take (p - (j + 1)), r.drop bs)
    | none => none
  else none

/-- `parse_frontmatter` (`bump-version.py` lines 21-62), returning
(the `version` entry of the frontmatter dict, frontmatter text, body). -/
def parse_frontmatter_core (content : List Char) :
    Option (List Char) × List Char × List Char :=
  match fmMatch content with
  | none => (none, [], content)
  | some (ft, body) => (scanVersion (splitNl ft) false none, ft, body)

/-- String-level wrapper for `parse_frontmatter`. -/
def parse_frontmatter (content : String) : Option String × String × String :=
  match parse_frontmatter_core content.data with
  | (v, ft, body) => (v.map (⟨·⟩), ⟨ft⟩, ⟨body⟩)

/-! ### `update_frontmatter_version`

The three regex operations of `update_frontmatter_version`
(`bump-version.py` lines 135-169), hand-compiled:

* `re.search(r'agpm:\s*\n.*?version:', text, re.DOTALL)` — `searchR1`;
* `re.sub(r'(agpm:\s*\n(?:.*\n)*?.*version:\s*)["\']?[0-9]+\.[0-9]+\.[0-9]+["\']?',
  r'\1"NEW"', text, count=1)` — `subR2`;
* `re.sub(r'(agpm:)\s*\n', '\\1\n  version: "NEW"\n', text, count=1)` —
  `subR3`.

For `subR2` the engine's choices resolve as follows.  At a candidate start
(an occurrence of `agpm:`), the greedy `\s*` followed by `\n` first settles
on the last newline of the whitespace run; backtracking to an earlier
newline only inserts whitespace-only lines in front of the line scan, which
cannot contain a `version:` token, so the first choice already decides the
match and its extent.  The lazy `(?:.*\n)*?` then tries line counts in
increasing order — so the earliest line containing a viable token wins —
and inside that line the greedy `.*` picks the last `version:` token whose
value tail matches.  Since `.` does not match newlines, each `(?:.*\n)`
iteration consumes exactly one full line. -/

/-- Does `agpm:\s*\n.*?version:` (DOTALL) match at the head of `l`?
With DOTALL the lazy `.*?` reaches any later position, so after `agpm:`
and a whitespace run up to its first newline the only requirement is a
later occurrence of `version:`. -/
def r1At (l : List Char) : Bool :=
  l.take 5 == agpmTok &&
    (match firstNl (l.drop 5) with
     | some j => hasSub versionTok ((l.drop 5).drop (j + 1))
     | none => false)

/-- `re.search` for `agpm:\s*\n.*?version:` (DOTALL): does it match
anywhere? -/
def searchR1 : List Char → Bool
  | [] => false
  | c :: t => r1At (c :: t) || searchR1 t

/-- Number of characters in the current line (up to the next newline or the
end of the text). -/
def lineLen : List Char → Nat
  | [] => 0
  | c :: t => if c == '\n' then 0 else lineLen t + 1

/-- Last position `p < b` in `r` carrying a `version:` token whose value
tail `\s*["\']?[0-9]+\.[0-9]+\.[0-9]+["\']?` matches (the greedy `.*`
scanning a line of length `b`).  Returns (position, whitespace length,
value length). -/
def findLastTok (r : List Char) : Nat → Option (Nat × Nat × Nat)
  | 0 => none
  | b + 1 =>
    if (r.drop b).take 8 == versionTok then
      match valueMatch (r.drop (b + 8)) with
      | some sv => some (b, sv.1, sv.2)
      | none => findLastTok r b
    else findLastTok r b

/-- Worker for `scanLines`: examine the current line for its last viable
`version:` token; failing that, move past the newline to the next line.
The fuel argument (instantiated with the length of the text) makes the
recursion structural. -/
def scanLinesGo : Nat → List Char → Option (Nat × Nat × Nat)
  | _, [] => none
  | 0, _ => none
  | fuel + 1, r =>
    match findLastTok r (lineLen r) with
    | some x => some x
    | none =>
      if lineLen r < r.length then
        (scanLinesGo fuel (r.drop (lineLen r + 1))).map
          (fun x => (lineLen r + 1 + x.1, x.2.1, x.2.2))
      else none

/-- The lazy line scan `(?:.*\n)*?.*version:\s*["\']?...["\']?` applied to
the text after the opening newline: the earliest line containing a viable
token, and the last viable token within it. -/
def scanLines (r : List Char) : Option (Nat × Nat × Nat) :=
  scanLinesGo r.length r

/-- Match of the full `subR2` pattern at the head of `l`: returns
(group length, value length), the group being everything from `agpm:`
through `version:\s*`. -/
def matchAt (l : List Char) : Option (Nat × Nat) :=
  if l.take 5 == agpmTok then
    match lastNl (l.drop 5) with
    | some j =>
      (scanLines ((l.drop 5).drop (j + 1))).map
        (fun x => (5 + (j + 1) + x.1 + 8 + x.2.1, x.2.2))
    | none => none
  else none

/-- Leftmost match of the `subR2` pattern: (start, group length, value
length). -/
def findR2 : List Char → Option (Nat × Nat × Nat)
  | [] => none
  | c :: t =>
    match matchAt (c :: t) with
    | some gv => some (0, gv.1, gv.2)
    | none => (findR2 t).map (fun x => (x.1 + 1, x.2.1, x.2.2))

/-- `re.sub(..., r'\1"NEW"', text, count=1)` for the `subR2` pattern:
splice `"v"` in place of the matched value. -/
def subR2 (l v : List Char) : List Char :=
  match findR2 l with
  | none => l
  | some (i, g, vl) => l.take (i + g) ++ dq :: (v ++ [dq]) ++ l.drop (i + g + vl)

/-- Leftmost match of `(agpm:)\s*\n`: (start, index of the newline the
greedy `\s*` settles on). -/
def findR3 : List Char → Option (Nat × Nat)
  | [] => none
  | c :: t =>
    if (c :: t).take 5 == agpmTok then
      match lastNl ((c :: t).drop 5) with
      | some j => some (0, j)
      | none => (findR3 t).map (fun x => (x.1 + 1, x.2))
    else (findR3 t).map (fun x => (x.1 + 1, x.2))

/-- The text `\n  version: "v"\n` inserted after an `agpm:` header. -/
def insText (v : List Char) : List Char :=
  '\n' :: ' ' :: ' ' :: versionTok ++ (' ' :: dq :: (v ++ [dq, '\n']))

/-- `re.sub(r'(agpm:)\s*\n', '\\1\n  version: "NEW"\n', text, count=1)`. -/
def subR3 (l v : List Char) : List Char :=
  match findR3 l with
  | none => l
  | some (i, j) => l.take (i + 5) ++ insText v ++ l.drop (i + 5 + j + 1)

/-- The text `\nagpm:\n  version: "v"` appended when no `agpm:` section
exists. -/
def appText (v : List Char) : List Char :=
  '\n' :: agpmTok ++ ('\n' :: ' ' :: ' ' :: versionTok ++ (' ' :: dq :: (v ++ [dq])))

/-- `update_frontmatter_version` (`bump-version.py` lines 135-169). -/
def update_frontmatter_version_core (l v : List Char) : List Char :=
  if searchR1 l then subR2 l v
  else if hasSub agpmTok l then subR3 l v
  else l ++ appText v

/-- String-level wrapper for `update_frontmatter_version`. -/
def update_frontmatter_version (text newVersion : String) : String :=
  ⟨update_frontmatter_version_core text.data newVersion.data⟩

/-! ### The JSON document model

JSON documents are modelled by the inductive `JVal`; the external
deserializer `json.loads` is passed in as a function
`loads : String → Option JVal` (`none` models `json.JSONDecodeError`), and
the external serializer `json.dumps(·, indent=2)` as
`dumps : JVal → String`.  JSON objects are association lists in key order
(Python dicts preserve insertion order).  JSON numbers are modelled as
integers, which covers every document the scripts' claims exercise. -/

inductive JVal where
  | null : JVal
  | bool (b : Bool) : JVal
  | num (n : Int) : JVal
  | str (s : String) : JVal
  | arr (elems : List JVal) : JVal
  | obj (fields : List (String × JVal)) : JVal

/-- Python truthiness of a JSON value (`if existing_version:`). -/
def jTruthy : JVal → Bool
  | .null => false
  | .bool b => b
  | .num n => n != 0
  | .str s => s.length != 0
  | .arr [] => false
  | .arr (_ :: _) => true
  | .obj [] => false
  | .obj (_ :: _) => true

/-- Python `f"{v}"` of a JSON value (placeholders for the composite cases,
which the scripts never format in practice). -/
def jFormat : JVal → String
  | .null => "None"
  | .bool b => if b then "True" else "False"
  | .num n => toString n
  | .str s => s
  | .arr _ => "<list>"
  | .obj _ => "<dict>"

/-- Dict lookup. -/
def lookupField : List (String × JVal) → String → Option JVal
  | [], _ => none
  | (k, v) :: t, key => if k == key then some v else lookupField t key

/-- Dict assignment: update in place, or append a new key at the end. -/
def setField : List (String × JVal) → String → JVal → List (String × JVal)
  | [], key, v => [(key, v)]
  | (k, w) :: t, key, v =>
    if k == key then (k, v) :: t else (k, w) :: setField t key v

/-- `parse_json_agpm_version` (`bump-version.py` lines 65-80):
(version value, is-valid-JSON). -/
def parse_json_agpm_version (loads : String → Option JVal) (content : String) :
    Option JVal × Bool :=
  match loads content with
  | none => (none, false)
  | some d =>
    match d with
    | .obj fields =>
      match lookupField fields "agpm" with
      | some (.obj afields) =>
        match lookupField afields "version" with
        | some v => (some v, true)
        | none => (none, true)
      | _ => (none, true)
    | _ => (none, true)

/-- The update step of the JSON branch (`bump-version.py` lines 318-321):
`if 'agpm' not in data: data['agpm'] = {}` then
`data['agpm']['version'] = new_version`.  On a non-object document the
membership test or the item assignment raises `TypeError`, which the
surrounding `try` (catching only `json.JSONDecodeError`) does not stop.
Error texts are representative. -/
def jsonUpdateVersion (d : JVal) (nv : String) : Except String JVal :=
  match d with
  | .obj fields =>
    let fields1 :=
      if (lookupField fields "agpm").isSome then fields
      else fields ++ [("agpm", .obj [])]
    match lookupField fields1 "agpm" with
    | some (.obj af) =>
      .ok (.obj (setField fields1 "agpm" (.obj (setField af "version" (.str nv)))))
    | _ => .error "TypeError: value under agpm key does not support item assignment"
  | .arr _ => .error "TypeError: list indices must be integers or slices, not str"
  | .str _ => .error "TypeError: str document does not support string item access"
  | _ => .error "TypeError: argument of type is not iterable"

/-- `bump_version(current_version, ...)` where `current_version` is the
raw JSON value read from the document: `.split('.')` on a non-string
raises `AttributeError`. -/
def jBump (v : JVal) (bumpType : String) : Except String String :=
  match v with
  | .str s => bump_version s bumpType
  | _ => .error "AttributeError: object has no attribute split"

/-! ### `process_artifact` and the batch loop -/

/-- Outcome of processing one artifact: the returned tag (if any), the
content written back to the file (if any), and whether a warning was
printed to stderr. -/
structure ProcResult where
  tag : Option String
  written : Option String
  warned : Bool
deriving DecidableEq

/-- Trailing steps of the markdown branch (`bump-version.py` lines
364-377): rewrite the frontmatter, reassemble the file, write it back
unless dry-run or clean, and return the tag for the final version. -/
def mdFinish (filepath ft body nv : String) (shouldWrite dryRun : Bool) :
    Except String ProcResult :=
  let updatedFm := update_frontmatter_version ft nv
  let updatedContent := "---\n" ++ updatedFm ++ "\n---\n" ++ body
  let written := if !dryRun && shouldWrite then some updatedContent else none
  match generate_tag_name filepath nv with
  | .error e => .error e
  | .ok tag => .ok ⟨some tag, written, false⟩

/-- Trailing steps of the JSON branch (`bump-version.py` lines 317-329 and
375): re-parse, set the version field (a `TypeError` here propagates),
write back unless dry-run or clean, and return the tag. -/
def jsonFinish (loads : String → Option JVal) (dumps : JVal → String)
    (filepath content nv : String) (shouldWrite dryRun : Bool) :
    Except String ProcResult :=
  match loads content with
  | none => .ok ⟨none, none, true⟩
  | some d =>
    match jsonUpdateVersion d nv with
    | .error e => .error e
    | .ok d2 =>
      let written := if !dryRun && shouldWrite then some (dumps d2 ++ "\n") else none
      match generate_tag_name filepath nv with
      | .error e => .error e
      | .ok tag => .ok ⟨some tag, written, false⟩

/-- The `.suffix` of a path (of its last component). -/
def pathSuffixOf (filepath : String) : String :=
  ⟨(stemSuffix (pathName filepath.data)).2⟩

/-- `process_artifact` (`bump-version.py` lines 257-377).  External
collaborators are parameters: `loads`/`dumps` for the JSON codec,
`tagExists` for `check_tag_exists`, `fs` for the filesystem (`none` models
a missing file).  A raised exception is an `Except.error`. -/
def process_artifact (loads : String → Option JVal) (dumps : JVal → String)
    (tagExists : String → Bool) (fs : String → Option String)
    (filepath : String) (bumpType : String) (dryRun : Bool) :
    Except String ProcResult :=
  match fs filepath with
  | none => .ok ⟨none, none, true⟩
  | some content =>
    if pathSuffixOf filepath == ".json" then
      match parse_json_agpm_version loads content with
      | (_, false) => .ok ⟨none, none, true⟩
      | (existingVersion, true) =>
        match existingVersion with
        | some ev =>
          if jTruthy ev then
            match generate_tag_name filepath (jFormat ev) with
            | .error e => .error e
            | .ok currentTag =>
              if tagExists currentTag then
                match jBump ev bumpType with
                | .error e => .error e
                | .ok nv => jsonFinish loads dumps filepath content nv true dryRun
              else jsonFinish loads dumps filepath content (jFormat ev) false dryRun
          else
            match bump_version "0.1.0" bumpType with
            | .error e => .error e
            | .ok nv => jsonFinish loads dumps filepath content nv true dryRun
        | none =>
          match bump_version "0.1.0" bumpType with
          | .error e => .error e
          | .ok nv => jsonFinish loads dumps filepath content nv true dryRun
    else
      match parse_frontmatter content with
      | (fmVersion, ft, body) =>
        if ft == "" then .ok ⟨none, none, true⟩
        else
          match fmVersion with
          | some v =>
            match generate_tag_name filepath v with
            | .error e => .error e
            | .ok currentTag =>
              if tagExists currentTag then
                match bump_version v bumpType with
                | .error e => .error e
                | .ok nv => mdFinish filepath ft body nv true dryRun
              else mdFinish filepath ft body v false dryRun
          | none =>
            match bump_version "0.1.0" bumpType with
            | .error e => .error e
            | .ok nv => mdFinish filepath ft body nv true dryRun

/-- The batch loop of `main` (`bump-version.py` lines 430-439): process
each path in order, appending truthy tags; there is no handler around
`process_artifact`, so a raised exception aborts the whole run (the output
list is only written after the loop). -/
def processBatch (loads : String → Option JVal) (dumps : JVal → String)
    (tagExists : String → Bool) (fs : String → Option String)
    (bumpType : String) (dryRun : Bool) : List String → Except String (List String)
  | [] => .ok []
  | p :: ps =>
    match process_artifact loads dumps tagExists fs p bumpType dryRun with
    | .error e => .error e
    | .ok r =>
      match processBatch loads dumps tagExists fs bumpType dryRun ps with
      | .error e => .error e
      | .ok rest =>
        .ok (match r.tag with
             | some t => if t == "" then rest else t :: rest
             | none => rest)

/-! ### Concrete collaborators for closed evaluations -/

/-- A deserializer for the concrete documents used in closed statements:
the literal `[]` parses to an empty JSON array. -/
def loadsArr : String → Option JVal := fun s =>
  if s = "[]" then some (.arr []) else none

/-- A deserializer that always fails. -/
def loadsNone : String → Option JVal := fun _ => none

/-- A serializer placeholder (never consulted by the closed statements). -/
def dumpsEmpty : JVal → String := fun _ => ""

/-- A tag-existence oracle answering `false` for every tag. -/
def oracleFalse : String → Bool := fun _ => false

/-- A tag-existence oracle answering `true` for every tag. -/
def oracleTrue : String → Bool := fun _ => true

/-- An empty filesystem. -/
def fsEmpty : String → Option String := fun _ => none

/-- A one-file filesystem. -/
def fsSingle (p c : String) : String → Option String := fun q =>
  if q = p then some c else none

/-- A two-file filesystem. -/
def fsPair (p1 c1 p2 c2 : String) : String → Option String := fun q =>
  if q = p1 then some c1 else if q = p2 then some c2 else none

/-- The stem of a path's last component, as a string. -/
def pathStem (filepath : String) : String :=
  ⟨(stemSuffix (pathName filepath.data)).1⟩

/-- A concrete markdown artifact with an `agpm` version, used by closed
statements. -/
def mdDoc : String := "---\nagpm:\n  version: 1.0.0\n---\nbody"

/-- A concrete JSON hook artifact with an `agpm.version`, used by closed
statements. -/
def hookDoc : String := "\x7b\"agpm\": \x7b\"version\": \"1.0.0\"\x7d\x7d"

/-- A deserializer for the concrete hook document: it parses `hookDoc` to
its JSON value and fails on everything else. -/
def loadsHook : String → Option JVal := fun s =>
  if s = hookDoc then some (.obj [("agpm", .obj [("version", .str "1.0.0")])])
  else none

/-! ### Predicates for the update-absorption analysis -/

/-- A canonical semantic-version string: three nonempty digit runs joined
by dots — the exact shape of every version the scripts pass to
`update_frontmatter_version` (each is either a regex capture of
`[0-9]+\.[0-9]+\.[0-9]+` or the output of `bump_version`). -/
def IsVer (v : List Char) : Prop :=
  ∃ d1 d2 d3 : List Char,
    d1 ≠ [] ∧ (∀ x ∈ d1, x.isDigit = true) ∧
    d2 ≠ [] ∧ (∀ x ∈ d2, x.isDigit = true) ∧
    d3 ≠ [] ∧ (∀ x ∈ d3, x.isDigit = true) ∧
    v = d1 ++ '.' :: d2 ++ '.' :: d3

/-- A character on which every scanner of the value pattern
`\s*["\']?[0-9]+\.[0-9]+\.[0-9]+["\']?` must stop: not whitespace, not a
digit, not a dot, not a quote.  If such a character occurs in `C`, the
value match on `C ++ Y` never inspects `Y`. -/
def blockChar (c : Char) : Prop :=
  pyWS c = false ∧ c.isDigit = false ∧ c ≠ '.' ∧ c ≠ dq ∧ c ≠ sq

/-- A character the value pattern can consume: digit, dot or quote. -/
def valChar (c : Char) : Prop :=
  c.isDigit = true ∨ c = '.' ∨ c = dq ∨ c = sq

/-- Token viability used by the line scan: a `version:` token at `p`
followed by a matching value tail. -/
def viab (r : List Char) (p : Nat) : Prop :=
  (r.drop p).take 8 = versionTok ∧ (valueMatch (r.drop (p + 8))).isSome = true

/-- The line index of position `p` in `r`: the number of newlines before
it. -/
def nlIdx (r : List Char) (p : Nat) : Nat :=
  (r.take p).count '\n'

/-- Comparison definition for the corrected reading of the section scan:
the list of all values yielded by `version:` regex hits while the scan is
inside the `agpm:` section, in scan order.  The corrected claim is that
the scan's result is the last of these. -/
def sectionYields : List (List Char) → Bool → List (List Char)
  | [], _ => []
  | line :: ls, inAgpm =>
    let s := stripWS line
    if s == agpmTok then sectionYields ls true
    else if inAgpm then
      if s != ([] : List Char) && !startsIndented line then sectionYields ls false
      else if hasSub versionTok s then
        match versionSearch s with
        | some g => g :: sectionYields ls true
        | none => sectionYields ls true
      else sectionYields ls true
    else sectionYields ls false

/-! ## Helper lemmas -/

theorem processBatch_cons_skip (loads : String → Option JVal) (dumps : JVal → String)
    (te : String → Bool) (fs : String → Option String) (bt : String) (dr : Bool)
    (p : String) (ps : List String) (w : Option String) (b : Bool)
    (h : process_artifact loads dumps te fs p bt dr = .ok ⟨none, w, b⟩) :
    processBatch loads dumps te fs bt dr (p :: ps) =
      processBatch loads dumps te fs bt dr ps := by
  simp only [processBatch, h]
  cases processBatch loads dumps te fs bt dr ps <;> rfl

theorem gen_tag_of_classify (fp tool cat name ver : String)
    (h : parse_artifact_path fp = .ok (tool, cat, name)) :
    generate_tag_name fp ver = .ok (tool ++ "-" ++ cat ++ "-" ++ name ++ "-v" ++ ver) := by
  simp [generate_tag_name, h]

theorem parse_frontmatter_some_ne_empty {content v ft body : String}
    (h : parse_frontmatter content = (some v, ft, body)) : ft ≠ "" := by
  intro hft
  subst hft
  unfold parse_frontmatter parse_frontmatter_core at h
  cases hm : fmMatch content.data with
  | none => rw [hm] at h; exact Option.noConfusion (congrArg Prod.fst h)
  | some ftb =>
    obtain ⟨ft', body'⟩ := ftb
    rw [hm] at h
    have h1 : (⟨ft'⟩ : String) = "" := (congrArg (fun x => x.2.1) h)
    have h2 : ft' = "".data := congrArg String.data h1
    have h3 : (scanVersion (splitNl ft') false none).map (fun l => (⟨l⟩ : String)) = some v :=
      congrArg Prod.fst h
    rw [h2] at h3
    exact Option.noConfusion h3

/-! ## Claim theorems (first batch) -/

/-- Claim C4: for every version triple, bumping with kind patch increments
only the patch component, minor increments minor and resets patch to zero,
major increments major and resets minor and patch to zero, and any other
kind fails with the invalid-bump-kind error. -/
theorem bump_triple_kinds (M m p : Nat) :
    bumpTriple (M, m, p) "patch" = .ok (M, m, p + 1) ∧
    bumpTriple (M, m, p) "minor" = .ok (M, m + 1, 0) ∧
    bumpTriple (M, m, p) "major" = .ok (M + 1, 0, 0) ∧
    ∀ k : String, k ≠ "major" → k ≠ "minor" → k ≠ "patch" →
      bumpTriple (M, m, p) k = .error ("Invalid bump type: " ++ k) := by
  refine ⟨rfl, rfl, rfl, fun k h1 h2 h3 => ?_⟩
  simp [bumpTriple, h1, h2, h3]

/-- Witness for C4 at a concrete triple and a concrete invalid kind. -/
theorem bump_triple_kinds_witness :
    bumpTriple (1, 2, 3) "patch" = .ok (1, 2, 4) ∧
    bumpTriple (1, 2, 3) "minor" = .ok (1, 3, 0) ∧
    bumpTriple (1, 2, 3) "major" = .ok (2, 0, 0) ∧
    bumpTriple (1, 2, 3) "release" = .error "Invalid bump type: release" := by
  obtain ⟨h1, h2, h3, h4⟩ := bump_triple_kinds 1 2 3
  exact ⟨h1, h2, h3, h4 "release" (by decide) (by decide) (by decide)⟩

/-- Claim C8 counterexample: when the artifact name ends with the
category suffix, the code's global replace also deletes the interior
occurrence, so the classified name is not the one the claim predicts. -/
theorem classify_interior_occurrence_cx :
    parse_artifact_path "snippets/best-practices/a-best-practices-b-best-practices.md" =
      .ok ("snippet", "best-practices", "a-b") ∧
    ("a-b" : String) ≠ "a-best-practices-b" := ⟨rfl, by decide⟩

/-- Claim C8 (corrected): the suffix is stripped only when the name ends
with it, but then every non-overlapping occurrence is removed by a global
replace; the spec's own example still classifies as stated. -/
theorem classify_suffix_strip (category stem : List Char) :
    (endsWithL stem ("-best-practices".data) = false →
     endsWithL stem ("-styleguide".data) = false →
     stripSuffixName category stem = stem) ∧
    (endsWithL stem ("-best-practices".data) = true →
     stripSuffixName ("best-practices".data) stem =
       replaceAllL ("-best-practices".data) [] stem) ∧
    (endsWithL stem ("-styleguide".data) = true →
     stripSuffixName ("styleguides".data) stem =
       replaceAllL ("-styleguide".data) [] stem) ∧
    parse_artifact_path "snippets/best-practices/python-best-practices.md" =
      .ok ("snippet", "best-practices", "python") := by
  refine ⟨fun h1 h2 => ?_, fun h => ?_, fun h => ?_, rfl⟩
  · simp [stripSuffixName, h1, h2]
  · simp [stripSuffixName, h]
  · simp [stripSuffixName, h]

/-- Witness for C8 (corrected) at concrete names. -/
theorem classify_suffix_strip_witness :
    stripSuffixName ("best-practices".data) ("x-best-practices-y".data) =
      "x-best-practices-y".data ∧
    stripSuffixName ("best-practices".data) ("a-best-practices-b-best-practices".data) =
      replaceAllL ("-best-practices".data) [] ("a-best-practices-b-best-practices".data) := by
  refine ⟨?_, ?_⟩
  · exact (classify_suffix_strip ("best-practices".data) ("x-best-practices-y".data)).1
      (by rfl) (by rfl)
  · exact (classify_suffix_strip ("best-practices".data)
      ("a-best-practices-b-best-practices".data)).2.1 (by rfl)

/-- Claim C3 counterexample: a path-taxonomy classification failure raises
out of the batch loop, so the whole run fails and the well-formed second
artifact is never processed, although on its own it would succeed. -/
theorem batch_aborts_on_classification_error :
    processBatch loadsNone dumpsEmpty oracleFalse
        (fsPair "unknown/agents/foo.md" mdDoc "snippets/agents/bar.md" mdDoc)
        "patch" false ["unknown/agents/foo.md", "snippets/agents/bar.md"] =
      .error "Unknown tool in path: unknown/agents/foo.md" ∧
    processBatch loadsNone dumpsEmpty oracleFalse
        (fsPair "unknown/agents/foo.md" mdDoc "snippets/agents/bar.md" mdDoc)
        "patch" false ["snippets/agents/bar.md"] =
      .ok ["snippet-agent-bar-v1.0.0"] := ⟨rfl, rfl⟩

/-- Claim C3 (corrected): failures that `process_artifact` reports by
returning no tag (missing file, invalid JSON document, absent frontmatter)
do not abort the batch and contribute nothing to the output, but a raised
exception (such as a classification failure) aborts the whole run. -/
theorem batch_continues_only_on_reported_failures
    (loads : String → Option JVal) (dumps : JVal → String)
    (te : String → Bool) (fs : String → Option String) (bt : String) (dr : Bool)
    (p : String) (ps : List String) :
    (∀ w b, process_artifact loads dumps te fs p bt dr = .ok ⟨none, w, b⟩ →
      processBatch loads dumps te fs bt dr (p :: ps) =
        processBatch loads dumps te fs bt dr ps) ∧
    (∀ e, process_artifact loads dumps te fs p bt dr = .error e →
      processBatch loads dumps te fs bt dr (p :: ps) = .error e) := by
  refine ⟨fun w b h => processBatch_cons_skip _ _ _ _ _ _ _ _ _ _ h, fun e h => ?_⟩
  simp only [processBatch, h]

/-- Witness for C3 (corrected): a missing file is skipped, a bad path
aborts. -/
theorem batch_continues_only_on_reported_failures_witness :
    processBatch loadsNone dumpsEmpty oracleFalse fsEmpty "patch" false
        ["missing.md", "also.md"] =
      processBatch loadsNone dumpsEmpty oracleFalse fsEmpty "patch" false ["also.md"] ∧
    processBatch loadsNone dumpsEmpty oracleFalse
        (fsSingle "unknown/agents/foo.md" mdDoc) "patch" false ["unknown/agents/foo.md"] =
      .error "Unknown tool in path: unknown/agents/foo.md" := by
  constructor
  · exact (batch_continues_only_on_reported_failures loadsNone dumpsEmpty oracleFalse fsEmpty
      "patch" false "missing.md" ["also.md"]).1 none true rfl
  · exact (batch_continues_only_on_reported_failures loadsNone dumpsEmpty oracleFalse
      (fsSingle "unknown/agents/foo.md" mdDoc) "patch" false "unknown/agents/foo.md" []).2
      "Unknown tool in path: unknown/agents/foo.md" rfl

/-- Claim C10: a syntactically valid JSON artifact whose top-level value is
an array parses as valid with no version, but the update step raises an
uncaught TypeError while setting the version field, so processing of that
artifact and of the remaining batch fails. -/
theorem json_array_document_aborts_processing :
    parse_json_agpm_version loadsArr "[]" = (none, true) ∧
    process_artifact loadsArr dumpsEmpty oracleFalse
        (fsPair "claude-code/hooks/h.json" "[]" "snippets/agents/bar.md" mdDoc)
        "claude-code/hooks/h.json" "patch" false =
      .error "TypeError: list indices must be integers or slices, not str" ∧
    processBatch loadsArr dumpsEmpty oracleFalse
        (fsPair "claude-code/hooks/h.json" "[]" "snippets/agents/bar.md" mdDoc)
        "patch" false ["claude-code/hooks/h.json", "snippets/agents/bar.md"] =
      .error "TypeError: list indices must be integers or slices, not str" :=
  ⟨rfl, rfl, rfl⟩

/-- Claim C6: on a frontmatter whose `agpm:` section has no version line
but a later section does, the update rewrites the later section's version
line (and inserts nothing into the `agpm:` section), even though the
parser itself reports no `agpm` version for this block. -/
theorem update_rewrites_other_section :
    update_frontmatter_version "agpm:\n  foo: bar\nother:\n  version: 1.2.3" "2.0.0" =
      "agpm:\n  foo: bar\nother:\n  version: \"2.0.0\"" ∧
    (parse_frontmatter "---\nagpm:\n  foo: bar\nother:\n  version: 1.2.3\n---\nb").1 =
      none :=
  ⟨rfl, rfl⟩

/-- Claim C9: a text artifact without a recognizable frontmatter block
yields no tag, no write-back, a warning, and contributes nothing to the
batch output. -/
theorem no_block_artifact_skipped
    (loads : String → Option JVal) (dumps : JVal → String)
    (te : String → Bool) (fs : String → Option String)
    (fp content bt : String) (dr : Bool) (ps : List String)
    (hfs : fs fp = some content)
    (hsuf : pathSuffixOf fp ≠ ".json")
    (hfm : fmMatch content.data = none) :
    process_artifact loads dumps te fs fp bt dr = .ok ⟨none, none, true⟩ ∧
    processBatch loads dumps te fs bt dr (fp :: ps) =
      processBatch loads dumps te fs bt dr ps := by
  have hbeq : (pathSuffixOf fp == ".json") = false := beq_eq_false_iff_ne.mpr hsuf
  have hparse : parse_frontmatter content = (none, "", content) := by
    simp [parse_frontmatter, parse_frontmatter_core, hfm]
  have hproc : process_artifact loads dumps te fs fp bt dr = .ok ⟨none, none, true⟩ := by
    simp [process_artifact, hfs, hbeq, hparse]
  exact ⟨hproc, processBatch_cons_skip _ _ _ _ _ _ _ _ _ _ hproc⟩

/-- Witness for C9 on a concrete delimiterless document. -/
theorem no_block_artifact_skipped_witness :
    process_artifact loadsNone dumpsEmpty oracleFalse
        (fsSingle "snippets/agents/foo.md" "plain text, no delimiters")
        "snippets/agents/foo.md" "patch" false = .ok ⟨none, none, true⟩ ∧
    processBatch loadsNone dumpsEmpty oracleFalse
        (fsSingle "snippets/agents/foo.md" "plain text, no delimiters")
        "patch" false ["snippets/agents/foo.md"] =
      processBatch loadsNone dumpsEmpty oracleFalse
        (fsSingle "snippets/agents/foo.md" "plain text, no delimiters")
        "patch" false [] :=
  no_block_artifact_skipped loadsNone dumpsEmpty oracleFalse
    (fsSingle "snippets/agents/foo.md" "plain text, no delimiters")
    "snippets/agents/foo.md" "plain text, no delimiters" "patch" false []
    rfl (by decide) rfl

/-- Claim C1: for every artifact — text (markdown) or structured (JSON) —
whose metadata parses with an existing version, when the tag-existence
oracle reports the current tag missing, processing keeps the version,
writes nothing back, warns nothing, and returns the tag of the current
version (so a re-run cannot increment the version further).  The first
conjunct is the markdown branch, the second the JSON branch. -/
theorem pending_release_keeps_version
    (loads : String → Option JVal) (dumps : JVal → String)
    (te : String → Bool) (fs : String → Option String)
    (bt : String) (dr : Bool) :
    (∀ fp content v ft body tool cat name,
      fs fp = some content →
      pathSuffixOf fp ≠ ".json" →
      parse_frontmatter content = (some v, ft, body) →
      parse_artifact_path fp = .ok (tool, cat, name) →
      te (tool ++ "-" ++ cat ++ "-" ++ name ++ "-v" ++ v) = false →
      process_artifact loads dumps te fs fp bt dr =
        .ok ⟨some (tool ++ "-" ++ cat ++ "-" ++ name ++ "-v" ++ v), none, false⟩) ∧
    (∀ fp content fields afields ev tool cat name,
      fs fp = some content →
      pathSuffixOf fp = ".json" →
      loads content = some (.obj fields) →
      lookupField fields "agpm" = some (.obj afields) →
      lookupField afields "version" = some ev →
      jTruthy ev = true →
      parse_artifact_path fp = .ok (tool, cat, name) →
      te (tool ++ "-" ++ cat ++ "-" ++ name ++ "-v" ++ jFormat ev) = false →
      process_artifact loads dumps te fs fp bt dr =
        .ok ⟨some (tool ++ "-" ++ cat ++ "-" ++ name ++ "-v" ++ jFormat ev),
             none, false⟩) := by
  constructor
  · intro fp content v ft body tool cat name hfs hsuf hpf hcl hor
    have hft : (ft == "") = false :=
      beq_eq_false_iff_ne.mpr (parse_frontmatter_some_ne_empty hpf)
    have hbeq : (pathSuffixOf fp == ".json") = false := beq_eq_false_iff_ne.mpr hsuf
    have htag := gen_tag_of_classify fp tool cat name v hcl
    simp [process_artifact, hfs, hbeq, hpf, hft, htag, hor, mdFinish]
  · intro fp content fields afields ev tool cat name hfs hsuf hld hag hver htr hcl hor
    have hbeq : (pathSuffixOf fp == ".json") = true := beq_iff_eq.mpr hsuf
    have htag := gen_tag_of_classify fp tool cat name (jFormat ev) hcl
    have hpj : parse_json_agpm_version loads content = (some ev, true) := by
      simp [parse_json_agpm_version, hld, hag, hver]
    simp [process_artifact, hfs, hbeq, hpj, htr, htag, hor, jsonFinish, hld,
      jsonUpdateVersion, hag]

/-- Witness for C1: Scenario A of the spec at a concrete markdown artifact
and at a concrete JSON hook artifact. -/
theorem pending_release_keeps_version_witness :
    (process_artifact loadsNone dumpsEmpty oracleFalse
        (fsSingle "snippets/agents/foo.md" mdDoc) "snippets/agents/foo.md" "patch" false =
      .ok ⟨some "snippet-agent-foo-v1.0.0", none, false⟩) ∧
    (process_artifact loadsHook dumpsEmpty oracleFalse
        (fsSingle "claude-code/hooks/x.json" hookDoc) "claude-code/hooks/x.json"
        "patch" false =
      .ok ⟨some "claude-code-hook-x-v1.0.0", none, false⟩) :=
  ⟨(pending_release_keeps_version loadsNone dumpsEmpty oracleFalse
      (fsSingle "snippets/agents/foo.md" mdDoc) "patch" false).1
    "snippets/agents/foo.md" mdDoc "1.0.0" "agpm:\n  version: 1.0.0" "body"
    "snippet" "agent" "foo" rfl (by decide) rfl rfl rfl,
   (pending_release_keeps_version loadsHook dumpsEmpty oracleFalse
      (fsSingle "claude-code/hooks/x.json" hookDoc) "patch" false).2
    "claude-code/hooks/x.json" hookDoc [("agpm", .obj [("version", .str "1.0.0")])]
    [("version", .str "1.0.0")] (.str "1.0.0")
    "claude-code" "hook" "x" rfl (by decide) rfl rfl rfl rfl rfl rfl⟩

/-- Claim C2: for every artifact — text (markdown) or structured (JSON) —
whose metadata parses with an existing version, when the oracle reports the
current tag as existing, processing bumps the version by the requested
kind, rewrites the file when not in dry-run, and returns the tag of the
bumped version.  The first conjunct is the markdown branch, the second the
JSON branch. -/
theorem released_version_bumps
    (loads : String → Option JVal) (dumps : JVal → String)
    (te : String → Bool) (fs : String → Option String)
    (bt : String) :
    (∀ fp content v ft body nv tool cat name,
      fs fp = some content →
      pathSuffixOf fp ≠ ".json" →
      parse_frontmatter content = (some v, ft, body) →
      parse_artifact_path fp = .ok (tool, cat, name) →
      te (tool ++ "-" ++ cat ++ "-" ++ name ++ "-v" ++ v) = true →
      bump_version v bt = .ok nv →
      process_artifact loads dumps te fs fp bt false =
        .ok ⟨some (tool ++ "-" ++ cat ++ "-" ++ name ++ "-v" ++ nv),
             some ("---\n" ++ update_frontmatter_version ft nv ++ "\n---\n" ++ body),
             false⟩) ∧
    (∀ fp content fields afields s nv tool cat name,
      fs fp = some content →
      pathSuffixOf fp = ".json" →
      loads content = some (.obj fields) →
      lookupField fields "agpm" = some (.obj afields) →
      lookupField afields "version" = some (.str s) →
      jTruthy (.str s) = true →
      parse_artifact_path fp = .ok (tool, cat, name) →
      te (tool ++ "-" ++ cat ++ "-" ++ name ++ "-v" ++ s) = true →
      bump_version s bt = .ok nv →
      process_artifact loads dumps te fs fp bt false =
        .ok ⟨some (tool ++ "-" ++ cat ++ "-" ++ name ++ "-v" ++ nv),
             some (dumps (.obj (setField fields "agpm"
               (.obj (setField afields "version" (.str nv))))) ++ "\n"),
             false⟩) := by
  constructor
  · intro fp content v ft body nv tool cat name hfs hsuf hpf hcl hor hb
    have hft : (ft == "") = false :=
      beq_eq_false_iff_ne.mpr (parse_frontmatter_some_ne_empty hpf)
    have hbeq : (pathSuffixOf fp == ".json") = false := beq_eq_false_iff_ne.mpr hsuf
    have htag := gen_tag_of_classify fp tool cat name v hcl
    have htag2 := gen_tag_of_classify fp tool cat name nv hcl
    simp [process_artifact, hfs, hbeq, hpf, hft, htag, htag2, hor, hb, mdFinish]
  · intro fp content fields afields s nv tool cat name hfs hsuf hld hag hver htr hcl hor hb
    have hbeq : (pathSuffixOf fp == ".json") = true := beq_iff_eq.mpr hsuf
    have htag := gen_tag_of_classify fp tool cat name s hcl
    have htag2 := gen_tag_of_classify fp tool cat name nv hcl
    have hpj : parse_json_agpm_version loads content = (some (.str s), true) := by
      simp [parse_json_agpm_version, hld, hag, hver]
    simp [process_artifact, hfs, hbeq, hpj, htr, htag, htag2, hor, hb, jBump,
      jFormat, jsonFinish, hld, jsonUpdateVersion, hag]

/-- Witness for C2: Scenario B of the spec — version 1.0.0, tag exists,
minor bump gives 1.1.0 and the file is rewritten — at a concrete markdown
artifact and at a concrete JSON hook artifact. -/
theorem released_version_bumps_witness :
    (process_artifact loadsNone dumpsEmpty oracleTrue
        (fsSingle "snippets/agents/foo.md" mdDoc) "snippets/agents/foo.md" "minor" false =
      .ok ⟨some "snippet-agent-foo-v1.1.0",
           some "---\nagpm:\n  version: \"1.1.0\"\n---\nbody", false⟩) ∧
    (process_artifact loadsHook dumpsEmpty oracleTrue
        (fsSingle "claude-code/hooks/x.json" hookDoc) "claude-code/hooks/x.json"
        "minor" false =
      .ok ⟨some "claude-code-hook-x-v1.1.0",
           some (dumpsEmpty (.obj [("agpm", .obj [("version", .str "1.1.0")])]) ++ "\n"),
           false⟩) :=
  ⟨(released_version_bumps loadsNone dumpsEmpty oracleTrue
      (fsSingle "snippets/agents/foo.md" mdDoc) "minor").1
    "snippets/agents/foo.md" mdDoc "1.0.0" "agpm:\n  version: 1.0.0" "body" "1.1.0"
    "snippet" "agent" "foo" rfl (by decide) rfl rfl rfl rfl,
   (released_version_bumps loadsHook dumpsEmpty oracleTrue
      (fsSingle "claude-code/hooks/x.json" hookDoc) "minor").2
    "claude-code/hooks/x.json" hookDoc [("agpm", .obj [("version", .str "1.0.0")])]
    [("version", .str "1.0.0")] "1.0.0" "1.1.0"
    "claude-code" "hook" "x" rfl (by decide) rfl rfl rfl rfl rfl rfl rfl⟩

/-- Claim C7 counterexample: inside the section, the last regex hit
overwrites earlier ones (the first matching line does not win), and a line
whose key is not exactly the version key still yields a version. -/
theorem section_scan_first_match_cx :
    (parse_frontmatter "---\nagpm:\n  version: 1.0.0\n  version: 2.0.0\n---\nb").1 =
      some "2.0.0" ∧
    (parse_frontmatter "---\nagpm:\n  xversion: 9.9.9\n---\nb").1 = some "9.9.9" :=
  ⟨rfl, rfl⟩

theorem scanVersion_eq_getLast (ls : List (List Char)) :
    ∀ (inA : Bool) (acc : Option (List Char)),
      scanVersion ls inA acc =
        match (sectionYields ls inA).getLast? with
        | some v => some v
        | none => acc := by
  induction ls with
  | nil => intro inA acc; rfl
  | cons line ls ih =>
    intro inA acc
    simp only [scanVersion, sectionYields]
    cases h1 : (stripWS line == agpmTok)
    · simp only [Bool.false_eq_true, if_false]
      cases h2 : inA
      · simp only [Bool.false_eq_true, if_false]
        exact ih false acc
      · simp only [if_true]
        cases h3 : (stripWS line != ([] : List Char) && !startsIndented line)
        · simp only [Bool.false_eq_true, if_false]
          cases h4 : hasSub versionTok (stripWS line)
          · simp only [Bool.false_eq_true, if_false]
            exact ih true acc
          · simp only [if_true]
            cases h5 : versionSearch (stripWS line) with
            | none => exact ih true acc
            | some g =>
              show scanVersion ls true (some g) =
                match (g :: sectionYields ls true).getLast? with
                | some v => some v
                | none => acc
              rw [ih true (some g), List.getLast?_cons]
              cases h6 : (sectionYields ls true).getLast? with
              | none => simp
              | some v => simp
        · simp only [if_true]
          exact ih false acc
    · simp only [if_true]
      exact ih true acc

/-- Claim C7 (corrected): over the lines of the metadata block, the
version the parser reports is the last value yielded by a `version:` regex
hit on a line scanned inside the `agpm:` section — later hits overwrite
earlier ones, and a hit only needs the stripped line to contain the token
followed by an optionally quoted digit triple. -/
theorem section_scan_last_match_wins (content ft body : List Char)
    (h : fmMatch content = some (ft, body)) :
    (parse_frontmatter_core content).1 = (sectionYields (splitNl ft) false).getLast? := by
  simp only [parse_frontmatter_core, h, scanVersion_eq_getLast]
  cases (sectionYields (splitNl ft) false).getLast? <;> rfl

/-- Witness for C7 (corrected) at a concrete two-version block. -/
theorem section_scan_last_match_wins_witness :
    (parse_frontmatter_core
        ("---\nagpm:\n  version: 1.0.0\n  version: 2.0.0\n---\nb" : String).data).1 =
      (sectionYields
        (splitNl ("agpm:\n  version: 1.0.0\n  version: 2.0.0" : String).data) false).getLast? :=
  section_scan_last_match_wins _ _ _ rfl

/-! ### C5 development: locality of the value-pattern scanners -/

theorem if_ttrue {α : Sort _} (a b : α) : (if true = true then a else b) = a := rfl

theorem if_ffalse {α : Sort _} (a b : α) : (if false = true then a else b) = b := rfl

theorem mem_of_mem_cons_of_ne {α : Type} {x c : α} {C : List α}
    (hx : x ∈ c :: C) (hne : x ≠ c) : x ∈ C := by
  rcases List.mem_cons.mp hx with h1 | h1
  · exact absurd h1 hne
  · exact h1

theorem wsRunLen_append_congr (C Y Y' : List Char) (h : ∃ x ∈ C, pyWS x = false) :
    wsRunLen (C ++ Y) = wsRunLen (C ++ Y') := by
  induction C with
  | nil => obtain ⟨x, hx, _⟩ := h; exact absurd hx (List.not_mem_nil x)
  | cons c C ih =>
    obtain ⟨x, hx, hxf⟩ := h
    simp only [List.cons_append, wsRunLen, List.append_eq]
    cases hc : pyWS c
    · simp only [if_ffalse]
    · have hxC : x ∈ C := mem_of_mem_cons_of_ne hx (by rintro rfl; rw [hc] at hxf; cases hxf)
      simp only [if_ttrue, ih ⟨x, hxC, hxf⟩]

theorem wsRunLen_allWS_append (W : List Char) (c : Char) (Z : List Char)
    (hW : ∀ x ∈ W, pyWS x = true) (hc : pyWS c = false) :
    wsRunLen (W ++ c :: Z) = W.length := by
  induction W with
  | nil => simp [wsRunLen, hc]
  | cons w W ih =>
    simp only [List.cons_append, wsRunLen, List.append_eq, hW w (by simp), if_ttrue]
    rw [ih (fun x hx => hW x (by simp [hx]))]
    simp

theorem wsRunLen_le (l : List Char) : wsRunLen l ≤ l.length := by
  induction l with
  | nil => simp [wsRunLen]
  | cons c t ih =>
    simp only [wsRunLen]
    cases hc : pyWS c
    · simp
    · simp only [if_ttrue, if_true, List.length_cons]
      omega

theorem take_wsRunLen_allWS (l : List Char) :
    ∀ x ∈ l.take (wsRunLen l), pyWS x = true := by
  induction l with
  | nil => simp
  | cons c t ih =>
    simp only [wsRunLen]
    cases hc : pyWS c
    · simp only [if_ffalse]; simp
    · simp only [if_ttrue, if_true]
      intro x hx
      rw [List.take_cons (by omega)] at hx
      rcases List.mem_cons.mp hx with h1 | h1
      · subst h1; exact hc
      · exact ih x h1

theorem wsRunLen_lt_of_blocker (C : List Char) (h : ∃ x ∈ C, pyWS x = false) :
    wsRunLen C < C.length := by
  obtain ⟨x, hx, hxf⟩ := h
  by_contra hlt
  have heq : wsRunLen C = C.length := le_antisymm (wsRunLen_le C) (by omega)
  have h2 := take_wsRunLen_allWS C
  rw [heq, List.take_length] at h2
  rw [h2 x hx] at hxf
  cases hxf

theorem lastNl_append_congr (C Y Y' : List Char) (h : ∃ x ∈ C, pyWS x = false) :
    lastNl (C ++ Y) = lastNl (C ++ Y') := by
  induction C with
  | nil => obtain ⟨x, hx, _⟩ := h; exact absurd hx (List.not_mem_nil x)
  | cons c C ih =>
    obtain ⟨x, hx, hxf⟩ := h
    simp only [List.cons_append, lastNl, List.append_eq]
    cases hc : pyWS c
    · simp only [if_ffalse]
    · have hxC : x ∈ C := mem_of_mem_cons_of_ne hx (by rintro rfl; rw [hc] at hxf; cases hxf)
      simp only [if_ttrue, ih ⟨x, hxC, hxf⟩]

theorem firstNl_append_congr (C Y Y' : List Char) (h : ∃ x ∈ C, pyWS x = false) :
    firstNl (C ++ Y) = firstNl (C ++ Y') := by
  induction C with
  | nil => obtain ⟨x, hx, _⟩ := h; exact absurd hx (List.not_mem_nil x)
  | cons c C ih =>
    obtain ⟨x, hx, hxf⟩ := h
    simp only [List.cons_append, firstNl, List.append_eq]
    cases hnl : (c == '\n')
    · cases hc : pyWS c
      · simp only [if_ffalse]
      · have hxC : x ∈ C := mem_of_mem_cons_of_ne hx (by rintro rfl; rw [hc] at hxf; cases hxf)
        simp only [if_ttrue, ih ⟨x, hxC, hxf⟩]
    · simp only [if_ttrue, if_true]

theorem lastNl_isSome_allWS_append (W Y : List Char)
    (hW : ∀ x ∈ W, pyWS x = true) (hY : (lastNl Y).isSome = true) :
    (lastNl (W ++ Y)).isSome = true := by
  induction W with
  | nil => simpa using hY
  | cons w W ih =>
    simp only [List.cons_append, lastNl, List.append_eq, hW w (by simp), if_ttrue]
    have := ih (fun x hx => hW x (by simp [hx]))
    cases h2 : lastNl (W ++ Y)
    · rw [h2] at this; cases this
    · simp

theorem digitRun_append_congr (C Y Y' : List Char) (h : ∃ x ∈ C, x.isDigit = false) :
    digitRun (C ++ Y) = digitRun (C ++ Y') := by
  induction C with
  | nil => obtain ⟨x, hx, _⟩ := h; exact absurd hx (List.not_mem_nil x)
  | cons c C ih =>
    obtain ⟨x, hx, hxf⟩ := h
    simp only [List.cons_append, digitRun, List.append_eq]
    cases hc : c.isDigit
    · simp only [if_ffalse]
    · have hxC : x ∈ C := mem_of_mem_cons_of_ne hx (by rintro rfl; rw [hc] at hxf; cases hxf)
      simp only [if_ttrue, ih ⟨x, hxC, hxf⟩]

theorem digitRun_le (l : List Char) : digitRun l ≤ l.length := by
  induction l with
  | nil => simp [digitRun]
  | cons c t ih =>
    simp only [digitRun]
    cases hc : c.isDigit
    · simp
    · simp only [if_ttrue, if_true, List.length_cons]
      omega

theorem take_digitRun_all_digits (l : List Char) :
    ∀ x ∈ l.take (digitRun l), x.isDigit = true := by
  induction l with
  | nil => simp
  | cons c t ih =>
    simp only [digitRun]
    cases hc : c.isDigit
    · simp only [if_ffalse]; simp
    · simp only [if_ttrue, if_true]
      intro x hx
      rw [List.take_cons (by omega)] at hx
      rcases List.mem_cons.mp hx with h1 | h1
      · subst h1; exact hc
      · exact ih x h1

theorem digitRun_lt_of_nondigit (C : List Char) (h : ∃ x ∈ C, x.isDigit = false) :
    digitRun C < C.length := by
  obtain ⟨x, hx, hxf⟩ := h
  by_contra hlt
  have heq : digitRun C = C.length := le_antisymm (digitRun_le C) (by omega)
  have h2 := take_digitRun_all_digits C
  rw [heq, List.take_length] at h2
  rw [h2 x hx] at hxf
  cases hxf

theorem digitRun_allDigits_append (D : List Char) (c : Char) (Z : List Char)
    (hD : ∀ x ∈ D, x.isDigit = true) (hc : c.isDigit = false) :
    digitRun (D ++ c :: Z) = D.length := by
  induction D with
  | nil => simp [digitRun, hc]
  | cons d D ih =>
    simp only [List.cons_append, digitRun, List.append_eq, hD d (by simp), if_ttrue]
    rw [ih (fun x hx => hD x (by simp [hx]))]
    simp

/-! ### Group 2: the digit-triple and value-core scanners -/

theorem pyWS_true_cases (c : Char) (h : pyWS c = true) :
    c = ' ' ∨ c = '\t' ∨ c = '\n' ∨ c = '\r' ∨ c = Char.ofNat 11 ∨ c = Char.ofNat 12 := by
  simp only [pyWS, Bool.or_eq_true, beq_iff_eq] at h
  tauto

theorem isDigit_pyWS (c : Char) (h : c.isDigit = true) : pyWS c = false := by
  cases hws : pyWS c
  · rfl
  · exfalso
    rcases pyWS_true_cases c hws with h1 | h1 | h1 | h1 | h1 | h1 <;>
      (subst h1; exact absurd h (by decide))

theorem dot_pyWS : pyWS '.' = false := by decide

theorem dq_pyWS : pyWS dq = false := by decide

theorem sq_pyWS : pyWS sq = false := by decide

theorem digitRun_allDigits (l : List Char) (h : ∀ x ∈ l, x.isDigit = true) :
    digitRun l = l.length := by
  induction l with
  | nil => rfl
  | cons c t ih =>
    simp only [digitRun, h c (by simp), if_ttrue, if_true, List.length_cons]
    rw [ih (fun x hx => h x (by simp [hx]))]

theorem digitRun_stop (l : List Char) (h : digitRun l < l.length) :
    ∃ c Z, l.drop (digitRun l) = c :: Z ∧ c.isDigit = false := by
  induction l with
  | nil => simp at h
  | cons c t ih =>
    cases hc : c.isDigit
    · refine ⟨c, t, ?_, hc⟩
      simp [digitRun, hc]
    · have hr : digitRun (c :: t) = digitRun t + 1 := by simp [digitRun, hc]
      rw [hr] at h ⊢
      simp only [List.length_cons] at h
      have := ih (by omega)
      simpa using this

theorem mem_drop_of_not_take {x : Char} {C : List Char} {n : Nat}
    (hx : x ∈ C) (h : x ∉ C.take n) : x ∈ C.drop n := by
  have h2 := List.take_append_drop n C
  rw [← h2] at hx
  rcases List.mem_append.mp hx with h3 | h3
  · exact absurd h3 h
  · exact h3

theorem runDot_append_congr (C Y Y' : List Char) (x : Char) (hx : x ∈ C)
    (hxd : x.isDigit = false) (hxdot : x ≠ '.') :
    (runDot (C ++ Y) = none ∧ runDot (C ++ Y') = none) ∨
    (∃ r C2, runDot (C ++ Y) = some (r, C2 ++ Y) ∧
      runDot (C ++ Y') = some (r, C2 ++ Y') ∧ x ∈ C2) := by
  have hbd : ∃ y ∈ C, y.isDigit = false := ⟨x, hx, hxd⟩
  have hr : digitRun (C ++ Y) = digitRun (C ++ Y') := digitRun_append_congr C Y Y' hbd
  have hrC : digitRun (C ++ Y) = digitRun C := by
    have := digitRun_append_congr C Y [] hbd
    rwa [List.append_nil] at this
  have hrlt : digitRun C < C.length := digitRun_lt_of_nondigit C hbd
  simp only [runDot]
  rw [hr] at *
  rw [hrC] at *
  cases hz : (digitRun C == 0)
  · simp only [if_ffalse]
    have hd1 : (C ++ Y).drop (digitRun C) = C.drop (digitRun C) ++ Y :=
      List.drop_append_of_le_length (le_of_lt hrlt)
    have hd2 : (C ++ Y').drop (digitRun C) = C.drop (digitRun C) ++ Y' :=
      List.drop_append_of_le_length (le_of_lt hrlt)
    obtain ⟨c, Z, hcz, hcd⟩ := digitRun_stop C hrlt
    rw [hd1, hd2, hcz]
    simp only [List.cons_append]
    cases hdot : (c == '.')
    · exact Or.inl ⟨rfl, rfl⟩
    · refine Or.inr ⟨digitRun C, Z, rfl, rfl, ?_⟩
      have hxd2 : x ∈ C.drop (digitRun C) := by
        refine mem_drop_of_not_take hx (fun hmem => ?_)
        have := take_digitRun_all_digits C x hmem
        rw [this] at hxd
        cases hxd
      rw [hcz] at hxd2
      refine mem_of_mem_cons_of_ne hxd2 (fun hxc => ?_)
      rw [hxc] at hxdot
      exact hxdot (by simpa using hdot)
  · simp only [if_ttrue]
    exact Or.inl ⟨rfl, rfl⟩

theorem runEnd_append_congr (C Y Y' : List Char) (x : Char) (hx : x ∈ C)
    (hxd : x.isDigit = false) : runEnd (C ++ Y) = runEnd (C ++ Y') := by
  have hbd : ∃ y ∈ C, y.isDigit = false := ⟨x, hx, hxd⟩
  simp only [runEnd]
  rw [digitRun_append_congr C Y Y' hbd]

theorem runDot_of_digits (d : List Char) (rest : List Char)
    (hne : d ≠ []) (hd : ∀ x ∈ d, x.isDigit = true) :
    runDot (d ++ '.' :: rest) = some (d.length, rest) := by
  have hrun : digitRun (d ++ '.' :: rest) = d.length :=
    digitRun_allDigits_append d '.' rest hd (by decide)
  have hz : (d.length == 0) = false := by
    cases d
    · exact absurd rfl hne
    · simp
  simp only [runDot, hrun, hz, if_ffalse]
  rw [List.drop_left]
  simp

theorem runEnd_of_digits (d : List Char) (rest : List Char)
    (hne : d ≠ []) (hd : ∀ x ∈ d, x.isDigit = true)
    (hrest : rest = [] ∨ ∃ c Z, rest = c :: Z ∧ c.isDigit = false) :
    runEnd (d ++ rest) = some d.length := by
  have hrun : digitRun (d ++ rest) = d.length := by
    rcases hrest with h1 | ⟨c, Z, hcz, hcd⟩
    · subst h1
      rw [List.append_nil]
      exact digitRun_allDigits d hd
    · subst hcz
      exact digitRun_allDigits_append d c Z hd hcd
  have hz : (d.length == 0) = false := by
    cases d
    · exact absurd rfl hne
    · simp
  simp only [runEnd, hrun, hz, if_ffalse]

theorem runDot_some_decomp (l : List Char) (r : Nat) (t : List Char)
    (h : runDot l = some (r, t)) :
    ∃ d, l = d ++ '.' :: t ∧ d.length = r ∧ d ≠ [] ∧ ∀ x ∈ d, x.isDigit = true := by
  simp only [runDot] at h
  cases hz : (digitRun l == 0)
  · rw [hz] at h
    simp only [if_ffalse] at h
    cases hdrop : l.drop (digitRun l) with
    | nil => rw [hdrop] at h; cases h
    | cons c Z =>
      rw [hdrop] at h
      cases hdot : (c == '.')
      · simp [hdot] at h
      · simp only [hdot, if_ttrue, if_true, Option.some.injEq, Prod.mk.injEq] at h
        obtain ⟨hr, ht⟩ := h
        refine ⟨l.take (digitRun l), ?_, ?_, ?_, take_digitRun_all_digits l⟩
        · have hc : c = '.' := by simpa using hdot
          rw [← ht, ← hc, ← hdrop]
          exact (List.take_append_drop (digitRun l) l).symm
        · rw [List.length_take, ← hr]
          have : digitRun l ≤ l.length := digitRun_le l
          omega
        · intro hniltake
          have : digitRun l = 0 := by
            have h2 := congrArg List.length hniltake
            simp only [List.length_take, List.length_nil] at h2
            have h3 : digitRun l ≤ l.length := digitRun_le l
            have h4 : digitRun l < l.length := by
              by_contra h5
              have h6 : digitRun l = l.length := by omega
              rw [h6, List.drop_length] at hdrop
              cases hdrop
            omega
          rw [this] at hz
          simp at hz
  · rw [hz] at h
    simp at h

theorem runEnd_some_decomp (l : List Char) (r : Nat) (h : runEnd l = some r) :
    ∃ d rest, l = d ++ rest ∧ d.length = r ∧ d ≠ [] ∧ (∀ x ∈ d, x.isDigit = true) ∧
      (rest = [] ∨ ∃ c Z, rest = c :: Z ∧ c.isDigit = false) := by
  simp only [runEnd] at h
  cases hz : (digitRun l == 0)
  · rw [hz] at h
    simp only [if_ffalse, Option.some.injEq] at h
    refine ⟨l.take (digitRun l), l.drop (digitRun l),
      (List.take_append_drop (digitRun l) l).symm, ?_, ?_, take_digitRun_all_digits l, ?_⟩
    · rw [List.length_take, ← h]
      have := digitRun_le l
      omega
    · intro hniltake
      have h2 := congrArg List.length hniltake
      simp only [List.length_take, List.length_nil] at h2
      have h3 := digitRun_le l
      have h4 : digitRun l = 0 := by omega
      rw [h4] at hz
      simp at hz
    · by_cases hlt : digitRun l < l.length
      · obtain ⟨c, Z, hcz, hcd⟩ := digitRun_stop l hlt
        exact Or.inr ⟨c, Z, hcz, hcd⟩
      · left
        have : digitRun l = l.length := by
          have := digitRun_le l
          omega
        rw [this, List.drop_length]
  · rw [hz] at h
    simp at h

theorem digitsTripleLen_append_congr (C Y Y' : List Char) (x : Char) (hx : x ∈ C)
    (hxd : x.isDigit = false) (hxdot : x ≠ '.') :
    digitsTripleLen (C ++ Y) = digitsTripleLen (C ++ Y') := by
  simp only [digitsTripleLen]
  rcases runDot_append_congr C Y Y' x hx hxd hxdot with ⟨h1, h2⟩ | ⟨r1, C2, h1, h2, hx2⟩
  · simp only [h1, h2]
  · simp only [h1, h2]
    rcases runDot_append_congr C2 Y Y' x hx2 hxd hxdot with ⟨h3, h4⟩ | ⟨r2, C4, h3, h4, hx4⟩
    · simp only [h3, h4]
    · simp only [h3, h4, runEnd_append_congr C4 Y Y' x hx4 hxd]

theorem digitsTripleLen_some_decomp (l : List Char) (n : Nat)
    (h : digitsTripleLen l = some n) :
    ∃ d1 d2 d3 rest,
      l = d1 ++ '.' :: d2 ++ '.' :: d3 ++ rest ∧
      d1 ≠ [] ∧ (∀ x ∈ d1, x.isDigit = true) ∧
      d2 ≠ [] ∧ (∀ x ∈ d2, x.isDigit = true) ∧
      d3 ≠ [] ∧ (∀ x ∈ d3, x.isDigit = true) ∧
      n = d1.length + 1 + d2.length + 1 + d3.length ∧
      (rest = [] ∨ ∃ c Z, rest = c :: Z ∧ c.isDigit = false) := by
  simp only [digitsTripleLen] at h
  cases h1 : runDot l with
  | none => rw [h1] at h; cases h
  | some rt =>
    obtain ⟨r1, t⟩ := rt
    simp only [h1] at h
    cases h2 : runDot t with
    | none => simp only [h2] at h; cases h
    | some rt2 =>
      obtain ⟨r2, t2⟩ := rt2
      simp only [h2] at h
      cases h3 : runEnd t2 with
      | none => simp only [h3] at h; cases h
      | some r3 =>
        simp only [h3, Option.some.injEq] at h
        obtain ⟨d1, hl1, hr1, hne1, hd1⟩ := runDot_some_decomp l r1 t h1
        obtain ⟨d2, hl2, hr2, hne2, hd2⟩ := runDot_some_decomp t r2 t2 h2
        obtain ⟨d3, rest, hl3, hr3, hne3, hd3, hrest⟩ := runEnd_some_decomp t2 r3 h3
        refine ⟨d1, d2, d3, rest, ?_, hne1, hd1, hne2, hd2, hne3, hd3, ?_, hrest⟩
        · rw [hl1, hl2, hl3]
          simp
        · omega

theorem digitsTripleLen_of_ver (v rest : List Char) (hv : IsVer v)
    (hrest : rest = [] ∨ ∃ c Z, rest = c :: Z ∧ c.isDigit = false) :
    digitsTripleLen (v ++ rest) = some v.length := by
  obtain ⟨d1, d2, d3, hne1, hd1, hne2, hd2, hne3, hd3, hveq⟩ := hv
  subst hveq
  have hassoc : (d1 ++ '.' :: d2 ++ '.' :: d3) ++ rest =
      d1 ++ '.' :: (d2 ++ '.' :: (d3 ++ rest)) := by simp
  rw [hassoc]
  simp only [digitsTripleLen]
  simp only [runDot_of_digits d1 (d2 ++ '.' :: (d3 ++ rest)) hne1 hd1,
    runDot_of_digits d2 (d3 ++ rest) hne2 hd2,
    runEnd_of_digits d3 rest hne3 hd3 hrest,
    Option.some.injEq, List.length_append, List.length_cons]
  omega

theorem digitsTripleLen_take_chars (l : List Char) (n : Nat)
    (h : digitsTripleLen l = some n) :
    ∀ x ∈ l.take n, x.isDigit = true ∨ x = '.' := by
  obtain ⟨d1, d2, d3, rest, hl, _, hd1, _, hd2, _, hd3, hn, _⟩ :=
    digitsTripleLen_some_decomp l n h
  have hlen : n = (d1 ++ '.' :: d2 ++ '.' :: d3).length := by
    simp only [List.length_append, List.length_cons]
    omega
  have htake : l.take n = d1 ++ '.' :: d2 ++ '.' :: d3 := by
    rw [hl, hlen]
    have : d1 ++ '.' :: d2 ++ '.' :: d3 ++ rest =
        (d1 ++ '.' :: d2 ++ '.' :: d3) ++ rest := by simp
    rw [this]
    exact List.take_left _ _
  rw [htake]
  intro x hx
  simp only [List.mem_append, List.mem_cons] at hx
  rcases hx with (h1 | h1 | h1) | h1 | h1
  · exact Or.inl (hd1 x h1)
  · exact Or.inr h1
  · exact Or.inl (hd2 x h1)
  · exact Or.inr h1
  · exact Or.inl (hd3 x h1)

theorem digitsTripleLen_le (l : List Char) (n : Nat)
    (h : digitsTripleLen l = some n) : n ≤ l.length := by
  obtain ⟨d1, d2, d3, rest, hl, _, _, _, _, _, _, hn, _⟩ :=
    digitsTripleLen_some_decomp l n h
  rw [hl]
  simp only [List.length_append, List.length_cons]
  omega

theorem digitsTripleLen_lt_of_blocker (C Y : List Char) (n : Nat) (x : Char)
    (hx : x ∈ C) (hxd : x.isDigit = false) (hxdot : x ≠ '.')
    (h : digitsTripleLen (C ++ Y) = some n) : n < C.length := by
  by_contra hge
  have hCle : C.length ≤ n := by omega
  have hmem : x ∈ (C ++ Y).take n := by
    rw [List.take_append_eq_append_take]
    exact List.mem_append.mpr (Or.inl (by
      rw [List.take_of_length_le hCle]
      exact hx))
  rcases digitsTripleLen_take_chars (C ++ Y) n h x hmem with h1 | h1
  · rw [h1] at hxd; cases hxd
  · exact hxdot h1

theorem quoteLen_cons_congr (e : Char) (A B : List Char) :
    quoteLen (e :: A) = quoteLen (e :: B) := rfl

theorem quoteLen_le_length (A : List Char) : quoteLen A ≤ A.length := by
  cases A with
  | nil => simp [quoteLen]
  | cons c t =>
    simp only [quoteLen, List.length_cons]
    cases h : (c == dq || c == sq)
    · simp
    · simp only [if_ttrue, if_true]
      omega

theorem quoteLen_eq_one (A : List Char) (h : quoteLen A = 1) :
    ∃ e Z, A = e :: Z ∧ (e = dq ∨ e = sq) := by
  cases A with
  | nil => simp [quoteLen] at h
  | cons c t =>
    simp only [quoteLen] at h
    cases hq : (c == dq || c == sq)
    · rw [hq] at h; simp at h
    · refine ⟨c, t, rfl, ?_⟩
      have := hq
      simp only [Bool.or_eq_true, beq_iff_eq] at this
      exact this

theorem quoteLen_cases (A : List Char) : quoteLen A = 0 ∨ quoteLen A = 1 := by
  cases A with
  | nil => simp [quoteLen]
  | cons c t =>
    simp only [quoteLen]
    cases hq : (c == dq || c == sq)
    · simp
    · simp

theorem valueCore_append_congr (C Y Y' : List Char) (x : Char) (hx : x ∈ C)
    (hb : blockChar x) : valueCore (C ++ Y) = valueCore (C ++ Y') := by
  obtain ⟨hbw, hbd, hbdot, hbdq, hbsq⟩ := hb
  cases C with
  | nil => exact absurd hx (List.not_mem_nil x)
  | cons c C1 =>
    simp only [List.cons_append, valueCore]
    cases hq : (c == dq || c == sq)
    · simp only [if_ffalse]
      have hcongr := digitsTripleLen_append_congr (c :: C1) Y Y' x hx hbd hbdot
      simp only [List.cons_append] at hcongr
      rw [hcongr]
      cases hval : digitsTripleLen (c :: (C1 ++ Y')) with
      | none => simp [hval]
      | some n =>
        simp only [Option.map_some']
        have hlt : n < (c :: C1).length := by
          refine digitsTripleLen_lt_of_blocker (c :: C1) Y' n x hx hbd hbdot ?_
          simpa using hval
        have hd1 : (c :: (C1 ++ Y)).drop n = (c :: C1).drop n ++ Y := by
          have : (c :: (C1 ++ Y)) = (c :: C1) ++ Y := by simp
          rw [this]
          exact List.drop_append_of_le_length (le_of_lt hlt)
        have hd2 : (c :: (C1 ++ Y')).drop n = (c :: C1).drop n ++ Y' := by
          have : (c :: (C1 ++ Y')) = (c :: C1) ++ Y' := by simp
          rw [this]
          exact List.drop_append_of_le_length (le_of_lt hlt)
        obtain ⟨hdc⟩ : ∃ _ : (c :: C1).drop n = (c :: C1).drop n, True := ⟨rfl, trivial⟩
        rw [hd1, hd2]
        rcases hcons : (c :: C1).drop n with _ | ⟨e, C2⟩
        · exfalso
          have := congrArg List.length hcons
          simp only [List.length_drop, List.length_nil] at this
          omega
        · simp only [List.cons_append, if_true, quoteLen_cons_congr e (C2 ++ Y) (C2 ++ Y')]
    · simp only [if_ttrue]
      have hcq : c = dq ∨ c = sq := by
        have := hq
        simp only [Bool.or_eq_true, beq_iff_eq] at this
        exact this
      have hxC1 : x ∈ C1 := by
        refine mem_of_mem_cons_of_ne hx (fun hxc => ?_)
        rcases hcq with h1 | h1
        · rw [h1] at hxc; exact hbdq hxc
        · rw [h1] at hxc; exact hbsq hxc
      have hcongr := digitsTripleLen_append_congr C1 Y Y' x hxC1 hbd hbdot
      rw [hcongr]
      cases hval : digitsTripleLen (C1 ++ Y') with
      | none => simp [hval]
      | some n =>
        simp only [Option.map_some']
        have hlt : n < C1.length :=
          digitsTripleLen_lt_of_blocker C1 Y' n x hxC1 hbd hbdot hval
        have hd1 : (C1 ++ Y).drop n = C1.drop n ++ Y :=
          List.drop_append_of_le_length (le_of_lt hlt)
        have hd2 : (C1 ++ Y').drop n = C1.drop n ++ Y' :=
          List.drop_append_of_le_length (le_of_lt hlt)
        rw [hd1, hd2]
        rcases hcons : C1.drop n with _ | ⟨e, C2⟩
        · exfalso
          have := congrArg List.length hcons
          simp only [List.length_drop, List.length_nil] at this
          omega
        · simp only [List.cons_append, if_true, quoteLen_cons_congr e (C2 ++ Y) (C2 ++ Y')]

theorem valueCore_some_head (l : List Char) (n : Nat) (h : valueCore l = some n) :
    ∃ c Z, l = c :: Z ∧ (c = dq ∨ c = sq ∨ c.isDigit = true) := by
  cases l with
  | nil => simp [valueCore] at h
  | cons c t =>
    refine ⟨c, t, rfl, ?_⟩
    simp only [valueCore] at h
    cases hq : (c == dq || c == sq)
    · rw [hq] at h
      simp only [if_ffalse] at h
      cases hval : digitsTripleLen (c :: t) with
      | none => rw [hval] at h; cases h
      | some m =>
        obtain ⟨d1, d2, d3, rest, hl, hne1, hd1, _⟩ :=
          digitsTripleLen_some_decomp (c :: t) m hval
        rcases hd1e : d1 with _ | ⟨e, d1'⟩
        · rw [hd1e] at hne1; exact absurd rfl hne1
        · rw [hd1e] at hl
          simp only [List.cons_append, List.cons.injEq] at hl
          right; right
          rw [hl.1]
          exact hd1 e (by rw [hd1e]; simp)
    · have := hq
      simp only [Bool.or_eq_true, beq_iff_eq] at this
      rcases this with h1 | h1
      · exact Or.inl h1
      · exact Or.inr (Or.inl h1)

theorem valueCore_some_head_not_ws (l : List Char) (n : Nat) (h : valueCore l = some n) :
    ∃ c Z, l = c :: Z ∧ pyWS c = false := by
  obtain ⟨c, Z, hl, hc⟩ := valueCore_some_head l n h
  refine ⟨c, Z, hl, ?_⟩
  rcases hc with h1 | h1 | h1
  · rw [h1]; decide
  · rw [h1]; decide
  · exact isDigit_pyWS c h1

theorem valueCore_le (l : List Char) (n : Nat) (h : valueCore l = some n) :
    n ≤ l.length := by
  cases l with
  | nil => simp [valueCore] at h
  | cons c t =>
    simp only [valueCore] at h
    cases hq : (c == dq || c == sq)
    · rw [hq] at h
      simp only [if_ffalse] at h
      cases hval : digitsTripleLen (c :: t) with
      | none => rw [hval] at h; cases h
      | some m =>
        rw [hval] at h
        simp only [Option.map_some', Option.some.injEq] at h
        have h1 := digitsTripleLen_le (c :: t) m hval
        have h2 := quoteLen_le_length ((c :: t).drop m)
        simp only [List.length_drop] at h2
        omega
    · rw [hq] at h
      simp only [if_ttrue] at h
      cases hval : digitsTripleLen t with
      | none => rw [hval] at h; simp at h
      | some m =>
        rw [hval] at h
        simp only [if_ttrue, if_true, Option.map_some', Option.some.injEq] at h
        have h1 := digitsTripleLen_le t m hval
        have h2 := quoteLen_le_length (t.drop m)
        simp only [List.length_drop] at h2
        simp only [List.length_cons]
        omega

theorem IsVer_chars (v : List Char) (hv : IsVer v) :
    ∀ x ∈ v, x.isDigit = true ∨ x = '.' := by
  obtain ⟨d1, d2, d3, hne1, hd1, hne2, hd2, hne3, hd3, hveq⟩ := hv
  subst hveq
  intro x hx
  simp only [List.mem_append, List.mem_cons] at hx
  rcases hx with (h1 | h1 | h1) | h1 | h1
  · exact Or.inl (hd1 x h1)
  · exact Or.inr h1
  · exact Or.inl (hd2 x h1)
  · exact Or.inr h1
  · exact Or.inl (hd3 x h1)

theorem IsVer_ne_nil (v : List Char) (hv : IsVer v) : v ≠ [] := by
  obtain ⟨d1, d2, d3, hne1, _, _, _, _, _, hveq⟩ := hv
  subst hveq
  rcases d1 with _ | ⟨e, d1'⟩
  · exact absurd rfl hne1
  · simp

theorem IsVer_head_digit (v : List Char) (hv : IsVer v) :
    ∃ c Z, v = c :: Z ∧ c.isDigit = true := by
  obtain ⟨d1, d2, d3, hne1, hd1, _, _, _, _, hveq⟩ := hv
  subst hveq
  rcases hd1e : d1 with _ | ⟨e, d1'⟩
  · exact absurd hd1e hne1
  · subst hd1e
    exact ⟨e, d1' ++ '.' :: d2 ++ '.' :: d3, by simp, hd1 e (by simp)⟩

theorem valueCore_quote_canonical (v S : List Char) (hv : IsVer v) :
    valueCore (dq :: (v ++ dq :: S)) = some (v.length + 2) := by
  have hdqq : ((dq : Char) == dq || (dq : Char) == sq) = true := by decide
  simp only [valueCore, hdqq, if_ttrue]
  have htr : digitsTripleLen (v ++ dq :: S) = some v.length :=
    digitsTripleLen_of_ver v (dq :: S) hv (Or.inr ⟨dq, S, rfl, by decide⟩)
  rw [htr]
  simp only [Option.map_some', Option.some.injEq]
  rw [List.drop_left]
  simp only [quoteLen]
  rw [hdqq]
  simp only [if_ttrue, if_true]
  exact congrArg some (by omega)

theorem valueMatch_append_congr (C Y Y' : List Char) (x : Char) (hx : x ∈ C)
    (hb : blockChar x) : valueMatch (C ++ Y) = valueMatch (C ++ Y') := by
  have hbw : pyWS x = false := hb.1
  have hws : ∃ y ∈ C, pyWS y = false := ⟨x, hx, hbw⟩
  have hkC : wsRunLen (C ++ Y) = wsRunLen C := by
    have := wsRunLen_append_congr C Y [] hws
    rwa [List.append_nil] at this
  have hkC2 : wsRunLen (C ++ Y') = wsRunLen C := by
    have := wsRunLen_append_congr C Y' [] hws
    rwa [List.append_nil] at this
  have hklt : wsRunLen C < C.length := wsRunLen_lt_of_blocker C hws
  have hd1 : (C ++ Y).drop (wsRunLen C) = C.drop (wsRunLen C) ++ Y :=
    List.drop_append_of_le_length (le_of_lt hklt)
  have hd2 : (C ++ Y').drop (wsRunLen C) = C.drop (wsRunLen C) ++ Y' :=
    List.drop_append_of_le_length (le_of_lt hklt)
  have hxd : x ∈ C.drop (wsRunLen C) := by
    refine mem_drop_of_not_take hx (fun hmem => ?_)
    have := take_wsRunLen_allWS C x hmem
    rw [this] at hbw
    cases hbw
  simp only [valueMatch, hkC, hkC2, hd1, hd2,
    valueCore_append_congr (C.drop (wsRunLen C)) Y Y' x hxd hb]

theorem valueMatch_ws_canonical (W v S : List Char)
    (hW : ∀ x ∈ W, pyWS x = true) (hv : IsVer v) :
    valueMatch (W ++ dq :: (v ++ dq :: S)) = some (W.length, v.length + 2) := by
  have hk : wsRunLen (W ++ dq :: (v ++ dq :: S)) = W.length :=
    wsRunLen_allWS_append W dq (v ++ dq :: S) hW (by decide)
  simp only [valueMatch, hk]
  rw [List.drop_left]
  rw [valueCore_quote_canonical v S hv]
  rfl

/-! ### Group 3: take-chars, tokens, lines -/

theorem tripleQuote_take_chars (L : List Char) (m : Nat)
    (hm : digitsTripleLen L = some m) :
    ∀ x ∈ L.take (m + quoteLen (L.drop m)), valChar x := by
  have hm_le : m ≤ L.length := digitsTripleLen_le L m hm
  rcases quoteLen_cases (L.drop m) with hq0 | hq1
  · rw [hq0]
    intro x hx
    rcases digitsTripleLen_take_chars L m hm x hx with h1 | h1
    · exact Or.inl h1
    · exact Or.inr (Or.inl h1)
  · rw [hq1]
    obtain ⟨e, Z, hdrop, he⟩ := quoteLen_eq_one _ hq1
    have hL : L = L.take m ++ e :: Z := by
      conv_lhs => rw [← List.take_append_drop m L]
      rw [hdrop]
    have hlen : (L.take m).length = m := by
      rw [List.length_take]
      omega
    have htake : L.take (m + 1) = L.take m ++ [e] := by
      have h2 : (L.take m ++ e :: Z).take (m + 1) = L.take m ++ [e] := by
        rw [List.take_append_eq_append_take, hlen]
        rw [List.take_of_length_le (by omega : (L.take m).length ≤ m + 1)]
        have h3 : m + 1 - m = 1 := by omega
        rw [h3]
        rfl
      calc L.take (m + 1) = (L.take m ++ e :: Z).take (m + 1) := by rw [← hL]
        _ = L.take m ++ [e] := h2
    rw [htake]
    intro x hx
    rcases List.mem_append.mp hx with h1 | h1
    · rcases digitsTripleLen_take_chars L m hm x h1 with h2 | h2
      · exact Or.inl h2
      · exact Or.inr (Or.inl h2)
    · have hxe : x = e := by simpa using h1
      subst hxe
      rcases he with h2 | h2
      · exact Or.inr (Or.inr (Or.inl h2))
      · exact Or.inr (Or.inr (Or.inr h2))

theorem valueCore_take_chars (l : List Char) (n : Nat) (h : valueCore l = some n) :
    ∀ x ∈ l.take n, valChar x := by
  cases l with
  | nil => simp [valueCore] at h
  | cons c t =>
    simp only [valueCore] at h
    cases hq : (c == dq || c == sq)
    · rw [hq] at h
      simp only [if_ffalse] at h
      cases hval : digitsTripleLen (c :: t) with
      | none => rw [hval] at h; cases h
      | some m =>
        rw [hval] at h
        simp only [Option.map_some', Option.some.injEq] at h
        rw [← h]
        exact tripleQuote_take_chars (c :: t) m hval
    · rw [hq] at h
      simp only [if_ttrue] at h
      cases hval : digitsTripleLen t with
      | none => rw [hval] at h; simp at h
      | some m =>
        rw [hval] at h
        simp only [if_ttrue, if_true, Option.map_some', Option.some.injEq] at h
        rw [← h]
        intro x hx
        rw [List.take_cons (by omega)] at hx
        rcases List.mem_cons.mp hx with h1 | h1
        · subst h1
          have hcq := hq
          simp only [Bool.or_eq_true, beq_iff_eq] at hcq
          rcases hcq with h2 | h2
          · exact Or.inr (Or.inr (Or.inl h2))
          · exact Or.inr (Or.inr (Or.inr h2))
        · have heq : 1 + m + quoteLen (t.drop m) - 1 = m + quoteLen (t.drop m) := by omega
          rw [heq] at h1
          exact tripleQuote_take_chars t m hval x h1

theorem valChar_ne (c x : Char) (hx : valChar x) (h1 : c.isDigit = false)
    (h2 : c ≠ '.') (h3 : c ≠ dq) (h4 : c ≠ sq) : x ≠ c := by
  rintro rfl
  rcases hx with h | h | h | h
  · rw [h] at h1; cases h1
  · exact h2 h
  · exact h3 h
  · exact h4 h

theorem isTok_decomp (l : List Char) (q : Nat) (h : (l.drop q).take 8 = versionTok) :
    l.drop q = versionTok ++ l.drop (q + 8) := by
  conv_lhs => rw [← List.take_append_drop 8 (l.drop q)]
  rw [h, List.drop_drop, Nat.add_comm q 8]

theorem take8_ne_tok_of_head (c : Char) (Z : List Char) (hc : c ≠ 'v') :
    ¬ ((c :: Z).take 8 = versionTok) := by
  intro h
  rw [show (c :: Z).take 8 = c :: Z.take 7 from rfl] at h
  simp only [versionTok, List.cons.injEq] at h
  exact hc h.1

theorem take5_ne_agpm_of_head (c : Char) (Z : List Char) (hc : c ≠ 'a') :
    ¬ ((c :: Z).take 5 = agpmTok) := by
  intro h
  rw [show (c :: Z).take 5 = c :: Z.take 4 from rfl] at h
  simp only [agpmTok, List.cons.injEq] at h
  exact hc h.1

theorem not_tok_of_head (l : List Char) (q : Nat) (c : Char) (Z : List Char)
    (hd : l.drop q = c :: Z) (hc : c ≠ 'v') : ¬ (l.drop q).take 8 = versionTok := by
  rw [hd]
  exact take8_ne_tok_of_head c Z hc

theorem versionTok_no_overlap (d : Nat) (Z : List Char) (h1 : 0 < d) (h2 : d < 8) :
    ¬ ((versionTok.drop d ++ Z).take 8 = versionTok) := by
  interval_cases d
  · exact take8_ne_tok_of_head 'e' _ (by decide)
  · exact take8_ne_tok_of_head 'r' _ (by decide)
  · exact take8_ne_tok_of_head 's' _ (by decide)
  · exact take8_ne_tok_of_head 'i' _ (by decide)
  · exact take8_ne_tok_of_head 'o' _ (by decide)
  · exact take8_ne_tok_of_head 'n' _ (by decide)
  · exact take8_ne_tok_of_head ':' _ (by decide)

theorem agpmTok_no_overlap (d : Nat) (Z : List Char) (h1 : 0 < d) (h2 : d < 5) :
    ¬ ((agpmTok.drop d ++ Z).take 5 = agpmTok) := by
  interval_cases d
  · exact take5_ne_agpm_of_head 'g' _ (by decide)
  · exact take5_ne_agpm_of_head 'p' _ (by decide)
  · exact take5_ne_agpm_of_head 'm' _ (by decide)
  · exact take5_ne_agpm_of_head ':' _ (by decide)

theorem lineLen_le (l : List Char) : lineLen l ≤ l.length := by
  induction l with
  | nil => simp [lineLen]
  | cons c t ih =>
    simp only [lineLen]
    cases hc : (c == '\n')
    · simp only [if_ffalse, List.length_cons]
      omega
    · simp only [if_ttrue, if_true]
      omega

theorem take_lineLen_no_nl (l : List Char) :
    ∀ x ∈ l.take (lineLen l), x ≠ '\n' := by
  induction l with
  | nil => simp
  | cons c t ih =>
    simp only [lineLen]
    cases hc : (c == '\n')
    · simp only [if_ffalse]
      intro x hx
      rw [List.take_cons (by omega)] at hx
      rcases List.mem_cons.mp hx with h1 | h1
      · subst h1
        intro hxn
        rw [hxn] at hc
        simp at hc
      · have heq : lineLen t + 1 - 1 = lineLen t := by omega
        rw [heq] at h1
        exact ih x h1
    · simp only [if_ttrue, if_true]
      simp

theorem drop_lineLen_nl (l : List Char) (h : lineLen l < l.length) :
    ∃ Z, l.drop (lineLen l) = '\n' :: Z := by
  induction l with
  | nil => simp at h
  | cons c t ih =>
    simp only [lineLen] at h ⊢
    cases hc : (c == '\n')
    · rw [hc] at h
      simp only [if_ffalse, List.length_cons] at h ⊢
      exact ih (by omega)
    · rw [hc] at h
      simp only [if_ttrue, if_true] at h ⊢
      refine ⟨t, ?_⟩
      have : c = '\n' := by simpa using hc
      rw [this]
      rfl

theorem nlIdx_zero_of_le (r : List Char) (q : Nat) (hq : q ≤ lineLen r) :
    nlIdx r q = 0 := by
  rw [nlIdx, List.count_eq_zero]
  intro hmem
  have h1 : r.take q = (r.take (lineLen r)).take q := by
    rw [List.take_take]
    congr 1
    omega
  rw [h1] at hmem
  exact take_lineLen_no_nl r '\n' (List.take_subset q (r.take (lineLen r)) hmem) rfl

theorem nlIdx_pos_of_gt (r : List Char) (q : Nat) (hb : lineLen r < r.length)
    (hq : lineLen r < q) : 0 < nlIdx r q := by
  rw [nlIdx, List.count_pos_iff]
  obtain ⟨Z, hZ⟩ := drop_lineLen_nl r hb
  have h1 : r.take q = r.take (lineLen r) ++ ('\n' :: Z).take (q - lineLen r) := by
    conv_lhs => rw [← List.take_append_drop (lineLen r) r]
    rw [List.take_append_eq_append_take, hZ]
    congr 1
    · rw [List.take_take]
      congr 1
      omega
    · congr 1
      rw [List.length_take]
      omega
  rw [h1]
  refine List.mem_append.mpr (Or.inr ?_)
  have h2 : ('\n' :: Z).take (q - lineLen r) = '\n' :: Z.take (q - lineLen r - 1) := by
    have h3 : q - lineLen r = (q - lineLen r - 1) + 1 := by omega
    rw [h3]
    rfl
  rw [h2]
  simp

theorem nlIdx_shift (r : List Char) (hb : lineLen r < r.length) (p : Nat) :
    nlIdx r (lineLen r + 1 + p) = 1 + nlIdx (r.drop (lineLen r + 1)) p := by
  obtain ⟨Z, hZ⟩ := drop_lineLen_nl r hb
  simp only [nlIdx]
  rw [List.take_add r (lineLen r + 1) p, List.count_append]
  have hc : (r.take (lineLen r + 1)).count '\n' = 1 := by
    rw [List.take_add r (lineLen r) 1, List.count_append, hZ]
    have h2 : (r.take (lineLen r)).count '\n' = 0 :=
      List.count_eq_zero.mpr (fun hmem => take_lineLen_no_nl r '\n' hmem rfl)
    rw [h2]
    rfl
  rw [hc]

theorem viab_nil (q : Nat) : ¬ viab [] q := by
  intro h
  obtain ⟨h1, _⟩ := h
  simp [versionTok] at h1

theorem viab_shift (r : List Char) (b q : Nat) :
    viab (r.drop (b + 1)) q ↔ viab r (b + 1 + q) := by
  have hd1 : (r.drop (b + 1)).drop q = r.drop (b + 1 + q) := by
    rw [List.drop_drop]
  have hd2 : (r.drop (b + 1)).drop (q + 8) = r.drop (b + 1 + q + 8) := by
    rw [List.drop_drop]
    have harith : b + 1 + (q + 8) = b + 1 + q + 8 := by omega
    rw [harith]
  simp only [viab, hd1, hd2]

theorem viab_not_at_len (r : List Char) (q : Nat) (hq : r.length ≤ q) : ¬ viab r q := by
  intro h
  obtain ⟨h1, _⟩ := h
  rw [List.drop_eq_nil_of_le hq] at h1
  simp [versionTok] at h1

theorem findLastTok_succ (r : List Char) (b : Nat) :
    findLastTok r (b + 1) =
      if (r.drop b).take 8 = versionTok then
        (valueMatch (r.drop (b + 8))).elim (findLastTok r b) (fun sv => some (b, sv.1, sv.2))
      else findLastTok r b := by
  simp only [findLastTok]
  by_cases h : (r.drop b).take 8 = versionTok
  · have hb2 : ((r.drop b).take 8 == versionTok) = true := by simpa using h
    rw [hb2, if_pos h]
    simp only [if_ttrue, if_true]
    cases valueMatch (r.drop (b + 8)) <;> rfl
  · have hb2 : ((r.drop b).take 8 == versionTok) = false := by simpa using h
    rw [hb2, if_neg h]
    simp only [if_ffalse]

theorem findLastTok_none_iff (r : List Char) (b : Nat) :
    findLastTok r b = none ↔ ∀ p, p < b → ¬ viab r p := by
  induction b with
  | zero => simp [findLastTok]
  | succ b ih =>
    rw [findLastTok_succ]
    by_cases htok : (r.drop b).take 8 = versionTok
    · rw [if_pos htok]
      cases hvm : valueMatch (r.drop (b + 8)) with
      | some sv =>
        simp only [Option.elim]
        constructor
        · intro h; cases h
        · intro h
          exfalso
          refine h b (by omega) ⟨htok, ?_⟩
          rw [hvm]
          rfl
      | none =>
        simp only [Option.elim]
        rw [ih]
        constructor
        · intro h p hp
          rcases Nat.lt_succ_iff_lt_or_eq.mp hp with h1 | h1
          · exact h p h1
          · subst h1
            intro hv
            have hv2 := hv.2
            rw [hvm] at hv2
            simp at hv2
        · intro h p hp
          exact h p (by omega)
    · rw [if_neg htok, ih]
      constructor
      · intro h p hp
        rcases Nat.lt_succ_iff_lt_or_eq.mp hp with h1 | h1
        · exact h p h1
        · subst h1
          intro hv
          exact htok hv.1
      · intro h p hp
        exact h p (by omega)

theorem findLastTok_some_elim (r : List Char) (b p s vl : Nat)
    (h : findLastTok r b = some (p, s, vl)) :
    p < b ∧ (r.drop p).take 8 = versionTok ∧ valueMatch (r.drop (p + 8)) = some (s, vl) ∧
      ∀ q, p < q → q < b → ¬ viab r q := by
  induction b with
  | zero => cases h
  | succ b ih =>
    rw [findLastTok_succ] at h
    by_cases htok : (r.drop b).take 8 = versionTok
    · rw [if_pos htok] at h
      cases hvm : valueMatch (r.drop (b + 8)) with
      | some sv =>
        rw [hvm] at h
        simp only [Option.elim, Option.some.injEq, Prod.mk.injEq] at h
        obtain ⟨hp, hs, hvl⟩ := h
        subst hp
        refine ⟨by omega, htok, ?_, fun q hq1 hq2 => by omega⟩
        rw [hvm, ← hs, ← hvl]
      | none =>
        rw [hvm] at h
        simp only [Option.elim] at h
        obtain ⟨h1, h2, h3, h4⟩ := ih h
        refine ⟨by omega, h2, h3, fun q hq1 hq2 => ?_⟩
        rcases Nat.lt_succ_iff_lt_or_eq.mp hq2 with h5 | h5
        · exact h4 q hq1 h5
        · subst h5
          intro hv
          have hv2 := hv.2
          rw [hvm] at hv2
          simp at hv2
    · rw [if_neg htok] at h
      obtain ⟨h1, h2, h3, h4⟩ := ih h
      refine ⟨by omega, h2, h3, fun q hq1 hq2 => ?_⟩
      rcases Nat.lt_succ_iff_lt_or_eq.mp hq2 with h5 | h5
      · exact h4 q hq1 h5
      · subst h5
        intro hv
        exact htok hv.1

theorem findLastTok_some_intro (r : List Char) (b p s vl : Nat)
    (hp : p < b) (htok : (r.drop p).take 8 = versionTok)
    (hvm : valueMatch (r.drop (p + 8)) = some (s, vl))
    (hmax : ∀ q, p < q → q < b → ¬ viab r q) :
    findLastTok r b = some (p, s, vl) := by
  induction b with
  | zero => omega
  | succ b ih =>
    rw [findLastTok_succ]
    rcases Nat.lt_succ_iff_lt_or_eq.mp hp with h1 | h1
    · have hnb : ¬ viab r b := hmax b h1 (by omega)
      by_cases htokb : (r.drop b).take 8 = versionTok
      · rw [if_pos htokb]
        cases hvmb : valueMatch (r.drop (b + 8)) with
        | some sv =>
          exfalso
          refine hnb ⟨htokb, ?_⟩
          rw [hvmb]
          rfl
        | none =>
          simp only [Option.elim]
          exact ih h1 (fun q hq1 hq2 => hmax q hq1 (by omega))
      · rw [if_neg htokb]
        exact ih h1 (fun q hq1 hq2 => hmax q hq1 (by omega))
    · subst h1
      rw [if_pos htok, hvm]
      rfl

theorem scanLinesGo_succ (fuel : Nat) (r : List Char) (hr : r ≠ []) :
    scanLinesGo (fuel + 1) r =
      (findLastTok r (lineLen r)).elim
        (if lineLen r < r.length then
          (scanLinesGo fuel (r.drop (lineLen r + 1))).map
            (fun x => (lineLen r + 1 + x.1, x.2.1, x.2.2))
        else none)
        some := by
  rcases r with _ | ⟨c, t⟩
  · exact absurd rfl hr
  · simp only [scanLinesGo]
    cases findLastTok (c :: t) (lineLen (c :: t)) <;> rfl

theorem drop_shift_eq (r : List Char) (b q : Nat) :
    (r.drop (b + 1)).drop q = r.drop (b + 1 + q) := by
  rw [List.drop_drop]

theorem drop_shift_eq8 (r : List Char) (b q : Nat) :
    (r.drop (b + 1)).drop (q + 8) = r.drop (b + 1 + q + 8) := by
  rw [List.drop_drop]
  have harith : b + 1 + (q + 8) = b + 1 + q + 8 := by omega
  rw [harith]

theorem viab_head_nl (r : List Char) (hlt : lineLen r < r.length) :
    ¬ viab r (lineLen r) := by
  obtain ⟨Z, hZ⟩ := drop_lineLen_nl r hlt
  intro hv
  exact not_tok_of_head r (lineLen r) '\n' Z hZ (by decide) hv.1

theorem viab_lt_length (r : List Char) (q : Nat) (hv : viab r q) : q < r.length := by
  by_contra h
  exact viab_not_at_len r q (by omega) hv

theorem scanLinesGo_none_iff (fuel : Nat) : ∀ (r : List Char), r.length ≤ fuel →
    (scanLinesGo fuel r = none ↔ ∀ q, ¬ viab r q) := by
  induction fuel with
  | zero =>
    intro r hr
    have hnil : r = [] := List.eq_nil_of_length_eq_zero (by omega)
    subst hnil
    constructor
    · intro _ q; exact viab_nil q
    · intro _; rfl
  | succ fuel ih =>
    intro r hr
    by_cases hnil : r = []
    · subst hnil
      constructor
      · intro _ q; exact viab_nil q
      · intro _; rfl
    · rw [scanLinesGo_succ fuel r hnil]
      cases hflt : findLastTok r (lineLen r) with
      | some x =>
        simp only [Option.elim]
        constructor
        · intro h; cases h
        · intro h
          exfalso
          obtain ⟨p0, s0, vl0⟩ := x
          obtain ⟨hp0, htok0, hvm0, _⟩ := findLastTok_some_elim r (lineLen r) p0 s0 vl0 hflt
          exact (h p0) ⟨htok0, by rw [hvm0]; rfl⟩
      | none =>
        simp only [Option.elim]
        have hall : ∀ p, p < lineLen r → ¬ viab r p :=
          (findLastTok_none_iff r (lineLen r)).mp hflt
        by_cases hlt : lineLen r < r.length
        · rw [if_pos hlt]
          have hlen2 : (r.drop (lineLen r + 1)).length ≤ fuel := by
            rw [List.length_drop]
            omega
          constructor
          · intro h q hq
            have hmap : scanLinesGo fuel (r.drop (lineLen r + 1)) = none := by
              cases hsc : scanLinesGo fuel (r.drop (lineLen r + 1))
              · rfl
              · rw [hsc] at h; cases h
            have hall2 := (ih (r.drop (lineLen r + 1)) hlen2).mp hmap
            rcases Nat.lt_or_ge q (lineLen r) with h1 | h1
            · exact hall q h1 hq
            · rcases Nat.eq_or_lt_of_le h1 with h2 | h2
              · rw [← h2] at hq
                exact viab_head_nl r hlt hq
              · have hq2 : q = lineLen r + 1 + (q - (lineLen r + 1)) := by omega
                rw [hq2] at hq
                exact hall2 (q - (lineLen r + 1))
                  ((viab_shift r (lineLen r) (q - (lineLen r + 1))).mpr hq)
          · intro h
            have hrec : scanLinesGo fuel (r.drop (lineLen r + 1)) = none := by
              rw [ih (r.drop (lineLen r + 1)) hlen2]
              intro q2 hq2
              exact h (lineLen r + 1 + q2) ((viab_shift r (lineLen r) q2).mp hq2)
            rw [hrec]
            rfl
        · rw [if_neg hlt]
          constructor
          · intro _ q hq
            rcases Nat.lt_or_ge q (lineLen r) with h1 | h1
            · exact hall q h1 hq
            · refine viab_not_at_len r q ?_ hq
              have := lineLen_le r
              omega
          · intro _; rfl

theorem scanLinesGo_some_elim (fuel : Nat) : ∀ (r : List Char), r.length ≤ fuel →
    ∀ p s vl, scanLinesGo fuel r = some (p, s, vl) →
    (r.drop p).take 8 = versionTok ∧ valueMatch (r.drop (p + 8)) = some (s, vl) ∧
      ∀ q, viab r q → nlIdx r p < nlIdx r q ∨ (nlIdx r p = nlIdx r q ∧ q ≤ p) := by
  induction fuel with
  | zero =>
    intro r hr p s vl h
    have hnil : r = [] := List.eq_nil_of_length_eq_zero (by omega)
    subst hnil
    cases h
  | succ fuel ih =>
    intro r hr p s vl h
    by_cases hnil : r = []
    · subst hnil; cases h
    · rw [scanLinesGo_succ fuel r hnil] at h
      cases hflt : findLastTok r (lineLen r) with
      | some x =>
        rw [hflt] at h
        simp only [Option.elim, Option.some.injEq] at h
        obtain ⟨p0, s0, vl0⟩ := x
        obtain ⟨h1, h2, h3⟩ : p = p0 ∧ s = s0 ∧ vl = vl0 := by
          have h4 := h
          simp only [Prod.mk.injEq] at h4
          exact ⟨h4.1.symm, h4.2.1.symm, h4.2.2.symm⟩
        subst h1; subst h2; subst h3
        obtain ⟨hp0, htok0, hvm0, hmax0⟩ := findLastTok_some_elim r (lineLen r) p s vl hflt
        refine ⟨htok0, hvm0, fun q hq => ?_⟩
        have hnp : nlIdx r p = 0 := nlIdx_zero_of_le r p (by omega)
        have hqlen : q < r.length := viab_lt_length r q hq
        rcases Nat.lt_or_ge q (lineLen r) with h1 | h1
        · rcases Nat.lt_or_ge p q with h2 | h2
          · exact absurd hq (hmax0 q h2 h1)
          · exact Or.inr ⟨by rw [hnp, nlIdx_zero_of_le r q (by omega)], h2⟩
        · rcases Nat.eq_or_lt_of_le h1 with h2 | h2
          · exfalso
            have hlt : lineLen r < r.length := by omega
            rw [← h2] at hq
            exact viab_head_nl r hlt hq
          · left
            rw [hnp]
            exact nlIdx_pos_of_gt r q (by omega) h2
      | none =>
        rw [hflt] at h
        simp only [Option.elim] at h
        have hall : ∀ p2, p2 < lineLen r → ¬ viab r p2 :=
          (findLastTok_none_iff r (lineLen r)).mp hflt
        by_cases hlt : lineLen r < r.length
        · rw [if_pos hlt] at h
          cases hsc : scanLinesGo fuel (r.drop (lineLen r + 1)) with
          | none => rw [hsc] at h; cases h
          | some x2 =>
            rw [hsc] at h
            obtain ⟨p2, s2, vl2⟩ := x2
            simp only [Option.map_some', Option.some.injEq, Prod.mk.injEq] at h
            obtain ⟨hpp, hss, hvv⟩ := h
            have hss2 : s = s2 := hss.symm
            have hvv2 : vl = vl2 := hvv.symm
            subst hss2; subst hvv2
            have hlen2 : (r.drop (lineLen r + 1)).length ≤ fuel := by
              rw [List.length_drop]; omega
            obtain ⟨htok2, hvm2, hmin2⟩ :=
              ih (r.drop (lineLen r + 1)) hlen2 p2 s vl hsc
            rw [drop_shift_eq r (lineLen r) p2] at htok2
            rw [drop_shift_eq8 r (lineLen r) p2] at hvm2
            rw [hpp] at htok2 hvm2
            refine ⟨htok2, hvm2, fun q hq => ?_⟩
            have hnshift := nlIdx_shift r hlt
            rcases Nat.lt_or_ge q (lineLen r) with h1 | h1
            · exact absurd hq (hall q h1)
            · rcases Nat.eq_or_lt_of_le h1 with h2 | h2
              · exfalso
                rw [← h2] at hq
                exact viab_head_nl r hlt hq
              · have hq2 : q = lineLen r + 1 + (q - (lineLen r + 1)) := by omega
                have hqv : viab (r.drop (lineLen r + 1)) (q - (lineLen r + 1)) := by
                  rw [viab_shift r (lineLen r) (q - (lineLen r + 1)), ← hq2]
                  exact hq
                have e1 : nlIdx r p = 1 + nlIdx (r.drop (lineLen r + 1)) p2 := by
                  rw [← hpp]
                  exact hnshift p2
                have e2 : nlIdx r q =
                    1 + nlIdx (r.drop (lineLen r + 1)) (q - (lineLen r + 1)) := by
                  have e3 := hnshift (q - (lineLen r + 1))
                  rw [← hq2] at e3
                  exact e3
                rcases hmin2 (q - (lineLen r + 1)) hqv with h3 | ⟨h3, h4⟩
                · left
                  omega
                · right
                  exact ⟨by omega, by omega⟩
        · rw [if_neg hlt] at h
          cases h

theorem scanLinesGo_some_intro (fuel : Nat) : ∀ (r : List Char), r.length ≤ fuel →
    ∀ p s vl, (r.drop p).take 8 = versionTok →
    valueMatch (r.drop (p + 8)) = some (s, vl) →
    (∀ q, viab r q → nlIdx r p < nlIdx r q ∨ (nlIdx r p = nlIdx r q ∧ q ≤ p)) →
    scanLinesGo fuel r = some (p, s, vl) := by
  induction fuel with
  | zero =>
    intro r hr p s vl htok hvm hmin
    have hnil : r = [] := List.eq_nil_of_length_eq_zero (by omega)
    subst hnil
    simp [versionTok] at htok
  | succ fuel ih =>
    intro r hr p s vl htok hvm hmin
    have hvp : viab r p := ⟨htok, by rw [hvm]; rfl⟩
    have hplen : p < r.length := viab_lt_length r p hvp
    by_cases hnil : r = []
    · subst hnil; simp at hplen
    · rw [scanLinesGo_succ fuel r hnil]
      cases hflt : findLastTok r (lineLen r) with
      | some x =>
        simp only [Option.elim]
        obtain ⟨p0, s0, vl0⟩ := x
        obtain ⟨hp0, htok0, hvm0, hmax0⟩ := findLastTok_some_elim r (lineLen r) p0 s0 vl0 hflt
        have hv0 : viab r p0 := ⟨htok0, by rw [hvm0]; rfl⟩
        have hn0 : nlIdx r p0 = 0 := nlIdx_zero_of_le r p0 (by omega)
        rcases hmin p0 hv0 with h1 | ⟨h1, h2⟩
        · exfalso
          rw [hn0] at h1
          omega
        · have hnp : nlIdx r p = 0 := by omega
          have hplb : p < lineLen r := by
            by_contra hge
            rcases Nat.eq_or_lt_of_le (Nat.le_of_not_lt hge) with h3 | h3
            · have hlt2 : lineLen r < r.length := by omega
              rw [← h3] at hvp
              exact viab_head_nl r hlt2 hvp
            · have hlt2 : lineLen r < r.length := by omega
              have := nlIdx_pos_of_gt r p hlt2 h3
              omega
          have hpeq : p = p0 := by
            rcases Nat.eq_or_lt_of_le h2 with h3 | h3
            · omega
            · exact absurd hvp (hmax0 p h3 hplb)
          subst hpeq
          rw [hvm0] at hvm
          simp only [Option.some.injEq, Prod.mk.injEq] at hvm
          rw [hvm.1, hvm.2]
      | none =>
        simp only [Option.elim]
        have hall : ∀ p2, p2 < lineLen r → ¬ viab r p2 :=
          (findLastTok_none_iff r (lineLen r)).mp hflt
        have hpgt : lineLen r < p := by
          rcases Nat.lt_or_ge p (lineLen r) with h1 | h1
          · exact absurd hvp (hall p h1)
          · rcases Nat.eq_or_lt_of_le h1 with h2 | h2
            · exfalso
              have hlt2 : lineLen r < r.length := by omega
              rw [← h2] at hvp
              exact viab_head_nl r hlt2 hvp
            · exact h2
        have hlt : lineLen r < r.length := by omega
        rw [if_pos hlt]
        have hlen2 : (r.drop (lineLen r + 1)).length ≤ fuel := by
          rw [List.length_drop]; omega
        have hp2 : p = lineLen r + 1 + (p - (lineLen r + 1)) := by omega
        have hrec : scanLinesGo fuel (r.drop (lineLen r + 1)) =
            some (p - (lineLen r + 1), s, vl) := by
          refine ih (r.drop (lineLen r + 1)) hlen2 (p - (lineLen r + 1)) s vl ?_ ?_ ?_
          · rw [drop_shift_eq r (lineLen r) (p - (lineLen r + 1)), ← hp2]
            exact htok
          · rw [drop_shift_eq8 r (lineLen r) (p - (lineLen r + 1)), ← hp2]
            exact hvm
          · intro q2 hq2
            have hqv : viab r (lineLen r + 1 + q2) :=
              (viab_shift r (lineLen r) q2).mp hq2
            have hnshift := nlIdx_shift r hlt
            rcases hmin (lineLen r + 1 + q2) hqv with h3 | ⟨h3, h4⟩
            · left
              rw [hp2, hnshift (p - (lineLen r + 1)), hnshift q2] at h3
              omega
            · right
              constructor
              · rw [hp2, hnshift (p - (lineLen r + 1)), hnshift q2] at h3
                omega
              · omega
        rw [hrec]
        simp only [Option.map_some']
        rw [← hp2]

theorem scanLines_none_iff (r : List Char) :
    scanLines r = none ↔ ∀ q, ¬ viab r q :=
  scanLinesGo_none_iff r.length r (le_refl _)

theorem scanLines_some_elim (r : List Char) (p s vl : Nat)
    (h : scanLines r = some (p, s, vl)) :
    (r.drop p).take 8 = versionTok ∧ valueMatch (r.drop (p + 8)) = some (s, vl) ∧
      ∀ q, viab r q → nlIdx r p < nlIdx r q ∨ (nlIdx r p = nlIdx r q ∧ q ≤ p) :=
  scanLinesGo_some_elim r.length r (le_refl _) p s vl h

theorem scanLines_some_intro (r : List Char) (p s vl : Nat)
    (htok : (r.drop p).take 8 = versionTok)
    (hvm : valueMatch (r.drop (p + 8)) = some (s, vl))
    (hmin : ∀ q, viab r q → nlIdx r p < nlIdx r q ∨ (nlIdx r p = nlIdx r q ∧ q ≤ p)) :
    scanLines r = some (p, s, vl) :=
  scanLinesGo_some_intro r.length r (le_refl _) p s vl htok hvm hmin

theorem scanLines_ne_none_of_viab (r : List Char) (q : Nat) (hq : viab r q) :
    ¬ scanLines r = none := by
  intro h
  exact (scanLines_none_iff r).mp h q hq

theorem matchAt_none_of_take5 (l : List Char) (h : ¬ l.take 5 = agpmTok) :
    matchAt l = none := by
  simp only [matchAt]
  rw [if_neg (by simp only [beq_iff_eq]; exact h)]

theorem matchAt_none_of_lastNl (l : List Char) (h5 : l.take 5 = agpmTok)
    (hn : lastNl (l.drop 5) = none) : matchAt l = none := by
  simp only [matchAt, h5, beq_self_eq_true, if_ttrue, if_true, hn]

theorem matchAt_some_intro (l : List Char) (j p s vl : Nat)
    (h5 : l.take 5 = agpmTok) (hj : lastNl (l.drop 5) = some j)
    (hs : scanLines ((l.drop 5).drop (j + 1)) = some (p, s, vl)) :
    matchAt l = some (5 + (j + 1) + p + 8 + s, vl) := by
  simp only [matchAt, h5, beq_self_eq_true, if_ttrue, if_true, hj, hs, Option.map_some']

theorem matchAt_some_elim (l : List Char) (g vl : Nat) (h : matchAt l = some (g, vl)) :
    l.take 5 = agpmTok ∧ ∃ j p s, lastNl (l.drop 5) = some j ∧
      scanLines ((l.drop 5).drop (j + 1)) = some (p, s, vl) ∧
      g = 5 + (j + 1) + p + 8 + s := by
  by_cases h5 : l.take 5 = agpmTok
  · refine ⟨h5, ?_⟩
    simp only [matchAt, h5, beq_self_eq_true, if_ttrue, if_true] at h
    cases hj : lastNl (l.drop 5) with
    | none => simp only [hj] at h; cases h
    | some j =>
      simp only [hj] at h
      cases hs : scanLines ((l.drop 5).drop (j + 1)) with
      | none => simp only [hs, Option.map_none'] at h; cases h
      | some x =>
        obtain ⟨p, s, vl2⟩ := x
        simp only [hs, Option.map_some', Option.some.injEq, Prod.mk.injEq] at h
        refine ⟨j, p, s, rfl, ?_, h.1.symm⟩
        rw [hs, h.2]
  · rw [matchAt_none_of_take5 l h5] at h; cases h

theorem matchAt_none_elim (l : List Char) (h : matchAt l = none)
    (h5 : l.take 5 = agpmTok) :
    lastNl (l.drop 5) = none ∨
      ∃ j, lastNl (l.drop 5) = some j ∧ scanLines ((l.drop 5).drop (j + 1)) = none := by
  cases hj : lastNl (l.drop 5) with
  | none => exact Or.inl rfl
  | some j =>
    right
    refine ⟨j, rfl, ?_⟩
    cases hs : scanLines ((l.drop 5).drop (j + 1)) with
    | none => rfl
    | some x =>
      obtain ⟨p, s, vl⟩ := x
      rw [matchAt_some_intro l j p s vl h5 hj hs] at h
      cases h

theorem findR2_some_elim : ∀ (l : List Char) (i g vl : Nat),
    findR2 l = some (i, g, vl) →
    matchAt (l.drop i) = some (g, vl) ∧ ∀ q, q < i → matchAt (l.drop q) = none := by
  intro l
  induction l with
  | nil => intro i g vl h; cases h
  | cons c t ih =>
    intro i g vl h
    simp only [findR2] at h
    cases hm : matchAt (c :: t) with
    | some gv =>
      obtain ⟨g0, vl0⟩ := gv
      simp only [hm] at h
      simp only [Option.some.injEq, Prod.mk.injEq] at h
      obtain ⟨hi, hg, hvl⟩ := h
      subst hg; subst hvl
      rw [← hi]
      exact ⟨by simpa using hm, fun q hq => absurd hq (by omega)⟩
    | none =>
      simp only [hm] at h
      cases hr : findR2 t with
      | none => rw [hr] at h; cases h
      | some x =>
        obtain ⟨i0, g0, vl0⟩ := x
        rw [hr] at h
        simp only [Option.map_some', Option.some.injEq, Prod.mk.injEq] at h
        obtain ⟨hi, hg, hvl⟩ := h
        have hg2 : g = g0 := hg.symm
        have hvl2 : vl = vl0 := hvl.symm
        subst hg2; subst hvl2
        obtain ⟨hma, hall⟩ := ih i0 g vl hr
        constructor
        · rw [← hi]
          simpa using hma
        · intro q hq
          cases q with
          | zero => simpa using hm
          | succ q2 =>
            have hq2 : q2 < i0 := by omega
            simpa using hall q2 hq2

theorem findR2_some_intro : ∀ (l : List Char) (i g vl : Nat),
    (∀ q, q < i → matchAt (l.drop q) = none) →
    matchAt (l.drop i) = some (g, vl) →
    findR2 l = some (i, g, vl) := by
  intro l
  induction l with
  | nil =>
    intro i g vl _ hm
    rw [List.drop_nil, matchAt_none_of_take5 [] (by decide)] at hm
    cases hm
  | cons c t ih =>
    intro i g vl hall hm
    cases i with
    | zero =>
      rw [List.drop_zero] at hm
      simp only [findR2, hm]
    | succ i2 =>
      have h0 : matchAt (c :: t) = none := by simpa using hall 0 (by omega)
      simp only [findR2, h0]
      have hmt : matchAt (t.drop i2) = some (g, vl) := by simpa using hm
      have hallt : ∀ q, q < i2 → matchAt (t.drop q) = none := by
        intro q hq
        simpa using hall (q + 1) (by omega)
      rw [ih i2 g vl hallt hmt]
      rfl

theorem findR3_some_elim : ∀ (l : List Char) (i j : Nat),
    findR3 l = some (i, j) →
    (l.drop i).take 5 = agpmTok ∧ lastNl ((l.drop i).drop 5) = some j ∧
      ∀ q, q < i →
        ¬ ((l.drop q).take 5 = agpmTok ∧ (lastNl ((l.drop q).drop 5)).isSome = true) := by
  intro l
  induction l with
  | nil => intro i j h; cases h
  | cons c t ih =>
    intro i j h
    simp only [findR3] at h
    cases h5 : ((c :: t).take 5 == agpmTok) with
    | true =>
      simp only [h5, if_ttrue, if_true] at h
      cases hj : lastNl ((c :: t).drop 5) with
      | some j0 =>
        simp only [hj, Option.some.injEq, Prod.mk.injEq] at h
        obtain ⟨hi, hjj⟩ := h
        have hi2 : i = 0 := hi.symm
        have hjj2 : j = j0 := hjj.symm
        subst hi2; subst hjj2
        refine ⟨by simpa using (beq_iff_eq.mp h5), by simpa using hj,
          fun q hq => absurd hq (by omega)⟩
      | none =>
        simp only [hj] at h
        cases hr : findR3 t with
        | none => rw [hr] at h; cases h
        | some x =>
          obtain ⟨i0, j0⟩ := x
          rw [hr] at h
          simp only [Option.map_some', Option.some.injEq, Prod.mk.injEq] at h
          obtain ⟨hi, hjj⟩ := h
          have hjj2 : j = j0 := hjj.symm
          subst hjj2
          obtain ⟨ht5, htj, hall⟩ := ih i0 j hr
          refine ⟨?_, ?_, ?_⟩
          · rw [← hi]; simpa using ht5
          · rw [← hi]; simpa using htj
          · intro q hq
            cases q with
            | zero =>
              rw [List.drop_zero]
              intro hc
              have h6 := hc.2
              rw [hj] at h6
              cases h6
            | succ q2 =>
              have hq2 : q2 < i0 := by omega
              simpa using hall q2 hq2
    | false =>
      simp only [h5, if_ffalse] at h
      cases hr : findR3 t with
      | none => rw [hr] at h; cases h
      | some x =>
        obtain ⟨i0, j0⟩ := x
        rw [hr] at h
        simp only [Option.map_some', Option.some.injEq, Prod.mk.injEq] at h
        obtain ⟨hi, hjj⟩ := h
        have hjj2 : j = j0 := hjj.symm
        subst hjj2
        obtain ⟨ht5, htj, hall⟩ := ih i0 j hr
        refine ⟨?_, ?_, ?_⟩
        · rw [← hi]; simpa using ht5
        · rw [← hi]; simpa using htj
        · intro q hq
          cases q with
          | zero =>
            rw [List.drop_zero]
            intro hc
            rw [hc.1] at h5
            simp at h5
          | succ q2 =>
            have hq2 : q2 < i0 := by omega
            simpa using hall q2 hq2

theorem searchR1_intro : ∀ (l : List Char) (i : Nat), i < l.length →
    r1At (l.drop i) = true → searchR1 l = true := by
  intro l
  induction l with
  | nil => intro i hi; simp at hi
  | cons c t ih =>
    intro i hi hr
    cases i with
    | zero =>
      rw [List.drop_zero] at hr
      simp only [searchR1, hr, Bool.true_or]
    | succ i2 =>
      simp only [searchR1]
      rw [ih i2 (by simpa using hi) (by simpa using hr)]
      simp

theorem hasSub_intro (pat : List Char) : ∀ (l : List Char) (q : Nat),
    (l.drop q).take pat.length = pat → hasSub pat l = true := by
  intro l
  induction l with
  | nil =>
    intro q h
    rw [List.drop_nil, List.take_nil] at h
    subst h
    rfl
  | cons c t ih =>
    intro q h
    cases q with
    | zero =>
      rw [List.drop_zero] at h
      simp only [hasSub, h, beq_self_eq_true, Bool.true_or]
    | succ q2 =>
      simp only [hasSub]
      rw [ih q2 (by simpa using h)]
      simp

theorem hasSub_false_elim (pat l : List Char) (q : Nat)
    (h : hasSub pat l = false) : ¬ (l.drop q).take pat.length = pat := by
  intro hc
  rw [hasSub_intro pat l q hc] at h
  cases h

theorem lastNl_some_elim : ∀ (m : List Char) (j : Nat), lastNl m = some j →
    (j < m.length ∧ ∃ Z, m.drop j = '\n' :: Z) ∧ ∀ x ∈ m.take j, pyWS x = true := by
  intro m
  induction m with
  | nil => intro j h; cases h
  | cons c t ih =>
    intro j h
    simp only [lastNl] at h
    cases hw : pyWS c with
    | false => rw [hw] at h; simp at h
    | true =>
      rw [hw] at h
      simp only [if_ttrue, if_true] at h
      cases ht : lastNl t with
      | some j2 =>
        rw [ht] at h
        simp only [Option.some.injEq] at h
        obtain ⟨⟨h1, Z, h2⟩, h3⟩ := ih j2 ht
        subst h
        refine ⟨⟨by simp; omega, Z, by simpa using h2⟩, ?_⟩
        intro x hx
        rw [List.take_cons (by omega)] at hx
        rcases List.mem_cons.mp hx with h4 | h4
        · subst h4; exact hw
        · exact h3 x (by simpa using h4)
      | none =>
        rw [ht] at h
        cases hc : (c == '\n') with
        | false => rw [hc] at h; simp at h
        | true =>
          rw [hc] at h
          simp only [if_ttrue, if_true, Option.some.injEq] at h
          have hj : j = 0 := h.symm
          subst hj
          exact ⟨⟨by simp, t, by rw [List.drop_zero, beq_iff_eq.mp hc]⟩, by simp⟩

theorem firstNl_of_lastNl : ∀ (m : List Char) (j : Nat), lastNl m = some j →
    ∃ f, firstNl m = some f ∧ f ≤ j := by
  intro m
  induction m with
  | nil => intro j h; cases h
  | cons c t ih =>
    intro j h
    simp only [lastNl] at h
    simp only [firstNl]
    cases hw : pyWS c with
    | false => rw [hw] at h; simp at h
    | true =>
      rw [hw] at h
      simp only [if_ttrue, if_true] at h
      cases hc : (c == '\n') with
      | true =>
        refine ⟨0, ?_, by omega⟩
        rfl
      | false =>
        simp only [if_ffalse, if_ttrue, if_true]
        cases ht : lastNl t with
        | none =>
          rw [ht, hc] at h
          simp at h
        | some j2 =>
          rw [ht] at h
          simp only [Option.some.injEq] at h
          obtain ⟨f, hf, hfle⟩ := ih j2 ht
          refine ⟨f + 1, ?_, by omega⟩
          rw [hf]
          rfl

theorem get_of_drop_cons {l : List Char} {m : Nat} {c : Char} {Z : List Char}
    (h : l.drop m = c :: Z) : l.get? m = some c := by
  have h2 : (l.drop m).get? 0 = l.get? (m + 0) := List.get?_drop l m 0
  rw [h] at h2
  simpa using h2.symm

theorem viab_of_drop_eq (r1 r2 : List Char) (q1 q2 : Nat)
    (h : r1.drop q1 = r2.drop q2) : viab r1 q1 ↔ viab r2 q2 := by
  have h8 : r1.drop (q1 + 8) = r2.drop (q2 + 8) := by
    rw [← List.drop_drop, ← List.drop_drop, h]
  rw [viab, viab, h, h8]

theorem mem_take_of_drop_cons (l : List Char) (a k n : Nat) (c : Char) (Z : List Char)
    (h : l.drop (a + k) = c :: Z) (hk : k < n) : c ∈ (l.drop a).take n := by
  have h1 : (l.drop a).get? k = some c := by
    rw [List.get?_drop]
    exact get_of_drop_cons h
  have h2 : ((l.drop a).take n).get? k = some c := by
    rw [List.get?_take hk]
    exact h1
  exact List.get?_mem h2

theorem take_pat_get (l pat : List Char) (q k : Nat)
    (h : (l.drop q).take pat.length = pat) (hk : k < pat.length) :
    l.get? (q + k) = pat.get? k := by
  conv_rhs => rw [← h]
  rw [List.get?_take hk, List.get?_drop]

theorem not_tok_of_char_at (r : List Char) (q k : Nat) (c : Char) (hk : k < 8)
    (hc : r.get? (q + k) = some c) (hmem : c ∉ versionTok) :
    ¬ (r.drop q).take 8 = versionTok := by
  intro h
  have h8 : (8 : Nat) = versionTok.length := by decide
  rw [h8] at h hk
  have h2 := take_pat_get r versionTok q k h hk
  rw [hc] at h2
  exact hmem (List.get?_mem h2.symm)

theorem not_agpm_of_char_at (r : List Char) (q k : Nat) (c : Char) (hk : k < 5)
    (hc : r.get? (q + k) = some c) (hmem : c ∉ agpmTok) :
    ¬ (r.drop q).take 5 = agpmTok := by
  intro h
  have h5 : (5 : Nat) = agpmTok.length := by decide
  rw [h5] at h hk
  have h2 := take_pat_get r agpmTok q k h hk
  rw [hc] at h2
  exact hmem (List.get?_mem h2.symm)

theorem pyWS_not_in_tok (c : Char) (h : pyWS c = true) : c ∉ versionTok := by
  intro hmem
  simp only [versionTok, List.mem_cons, List.not_mem_nil, or_false] at hmem
  rcases hmem with rfl | rfl | rfl | rfl | rfl | rfl | rfl | rfl <;>
    exact absurd h (by decide)

theorem valChar_not_in_tok (c : Char) (h : valChar c) : c ∉ versionTok := by
  intro hmem
  simp only [versionTok, List.mem_cons, List.not_mem_nil, or_false] at hmem
  rcases hmem with rfl | rfl | rfl | rfl | rfl | rfl | rfl | rfl <;>
    rcases h with h1 | h1 | h1 | h1 <;> exact absurd h1 (by decide)

theorem pyWS_not_in_agpm (c : Char) (h : pyWS c = true) : c ∉ agpmTok := by
  intro hmem
  simp only [agpmTok, List.mem_cons, List.not_mem_nil, or_false] at hmem
  rcases hmem with rfl | rfl | rfl | rfl | rfl <;> exact absurd h (by decide)

theorem valChar_not_in_agpm (c : Char) (h : valChar c) : c ∉ agpmTok := by
  intro hmem
  simp only [agpmTok, List.mem_cons, List.not_mem_nil, or_false] at hmem
  rcases hmem with rfl | rfl | rfl | rfl | rfl <;>
    rcases h with h1 | h1 | h1 | h1 <;> exact absurd h1 (by decide)

theorem digit_dot_not_in_tok (c : Char) (h : c.isDigit = true ∨ c = '.') :
    c ∉ versionTok := by
  refine valChar_not_in_tok c ?_
  rcases h with h1 | h1
  · exact Or.inl h1
  · exact Or.inr (Or.inl h1)

theorem no_nl_of_valChars (V : List Char) (h : ∀ x ∈ V, valChar x) :
    V.count '\n' = 0 := by
  rw [List.count_eq_zero]
  intro hmem
  rcases h '\n' hmem with h1 | h1 | h1 | h1 <;> exact absurd h1 (by decide)

theorem nlIdx_append_left (A B : List Char) (q : Nat) (hq : q ≤ A.length) :
    nlIdx (A ++ B) q = nlIdx A q := by
  rw [nlIdx, nlIdx, List.take_append_of_le_length hq]

theorem drop_append_plus (A B : List Char) (r : Nat) :
    (A ++ B).drop (A.length + r) = B.drop r := by
  rw [← List.drop_drop, List.drop_left]

theorem take_append_plus (A B : List Char) (r : Nat) :
    (A ++ B).take (A.length + r) = A ++ B.take r := by
  have h1 : A.length + r - A.length = r := by omega
  rw [List.take_append_eq_append_take, h1, List.take_of_length_le (by omega)]

theorem nlIdx_append_right (A B : List Char) (r : Nat) :
    nlIdx (A ++ B) (A.length + r) = A.count '\n' + nlIdx B r := by
  rw [nlIdx, nlIdx, take_append_plus, List.count_append]

theorem lineLen_nl_head (Z : List Char) : lineLen ('\n' :: Z) = 0 := by
  simp [lineLen]

theorem lineLen_append_no_nl (A B : List Char) (hA : '\n' ∉ A) :
    lineLen (A ++ B) = A.length + lineLen B := by
  induction A with
  | nil => simp
  | cons c t ih =>
    simp only [List.cons_append, lineLen, List.append_eq]
    have hc : (c == '\n') = false := by
      cases hcc : (c == '\n')
      · rfl
      · exact absurd (by rw [beq_iff_eq.mp hcc] at hA ⊢; exact List.mem_cons_self '\n' t) hA
    rw [hc]
    simp only [if_ffalse]
    rw [ih (fun hm => hA (List.mem_cons_of_mem c hm))]
    simp only [List.length_cons]
    omega

theorem v_block : blockChar 'v' :=
  ⟨by decide, by decide, by decide, by decide, by decide⟩

theorem ws_ne_v (c : Char) (h : pyWS c = true) : c ≠ 'v' := by
  rintro rfl
  exact absurd h (by decide)

theorem valChar_ne_v (c : Char) (h : valChar c) : c ≠ 'v' :=
  valChar_ne 'v' c h (by decide) (by decide) (by decide) (by decide)

theorem drop_head_mem (l : List Char) (k : Nat) (hk : k < l.length) :
    ∃ c Z, l.drop k = c :: Z ∧ c ∈ l := by
  cases hd : l.drop k with
  | nil =>
    have := List.drop_eq_nil_iff_le.mp hd
    omega
  | cons c Z =>
    refine ⟨c, Z, rfl, ?_⟩
    have hm : c ∈ l.drop k := by rw [hd]; exact List.mem_cons_self c Z
    exact List.mem_of_mem_drop hm

theorem valueMatch_some_elim (x : List Char) (s vl : Nat)
    (h : valueMatch x = some (s, vl)) :
    wsRunLen x = s ∧ valueCore (x.drop s) = some vl := by
  simp only [valueMatch] at h
  cases hvc : valueCore (x.drop (wsRunLen x)) with
  | none => rw [hvc] at h; cases h
  | some n =>
    rw [hvc] at h
    simp only [Option.map_some', Option.some.injEq, Prod.mk.injEq] at h
    obtain ⟨h1, h2⟩ := h
    refine ⟨h1, ?_⟩
    rw [← h1, hvc, h2]

theorem valueMatch_some_intro (x : List Char) (s vl : Nat)
    (hws : wsRunLen x = s) (hvc : valueCore (x.drop s) = some vl) :
    valueMatch x = some (s, vl) := by
  simp only [valueMatch, hws, hvc, Option.map_some']

theorem repl_assoc (X Q N S : List Char) :
    X ++ Q ++ N ++ S = X ++ (Q ++ (N ++ S)) := by
  simp [List.append_assoc]

theorem repl_tok_at (X W N S : List Char) :
    ((X ++ versionTok ++ W ++ N ++ S).drop X.length).take 8 = versionTok := by
  have h1 : X ++ versionTok ++ W ++ N ++ S = X ++ (versionTok ++ (W ++ (N ++ S))) := by
    simp [List.append_assoc]
  rw [h1, List.drop_left]
  have h2 : (8 : Nat) = versionTok.length := by decide
  rw [h2, List.take_left]

theorem repl_drop_tok (X W N S : List Char) (q : Nat) (hq : q ≤ X.length) :
    (X ++ versionTok ++ W ++ N ++ S).drop q =
      X.drop q ++ (versionTok ++ (W ++ (N ++ S))) := by
  have h1 : X ++ versionTok ++ W ++ N ++ S = X ++ (versionTok ++ (W ++ (N ++ S))) := by
    simp [List.append_assoc]
  rw [h1, List.drop_append_of_le_length hq]

theorem repl_drop_after (X W N S : List Char) :
    (X ++ versionTok ++ W ++ N ++ S).drop (X.length + 8) = W ++ (N ++ S) := by
  have h1 : X ++ versionTok ++ W ++ N ++ S = (X ++ versionTok) ++ (W ++ (N ++ S)) := by
    simp [List.append_assoc]
  have h2 : (X ++ versionTok).length = X.length + 8 := by simp [versionTok]
  rw [h1, ← h2, List.drop_left]

theorem len_XTW (X W : List Char) :
    (X ++ versionTok ++ W).length = X.length + 8 + W.length := by
  simp only [List.length_append, versionTok, List.length_cons, List.length_nil]

theorem viab_replace_zone (X W N S : List Char) (q : Nat)
    (hW : ∀ x ∈ W, pyWS x = true) (hN : ∀ x ∈ N, valChar x)
    (hq : viab (X ++ versionTok ++ W ++ N ++ S) q) :
    q + 8 ≤ X.length ∨ q = X.length ∨
      X.length + 8 + W.length + N.length ≤ q := by
  have htokp := repl_tok_at X W N S
  by_contra hcon
  push_neg at hcon
  obtain ⟨h1, h2, h3⟩ := hcon
  rcases Nat.lt_or_ge q X.length with h4 | h4
  · have hd : (X ++ versionTok ++ W ++ N ++ S).drop q =
        versionTok ++ (X ++ versionTok ++ W ++ N ++ S).drop (q + 8) :=
      isTok_decomp _ q hq.1
    have hdp : (X ++ versionTok ++ W ++ N ++ S).drop X.length =
        versionTok.drop (X.length - q) ++ (X ++ versionTok ++ W ++ N ++ S).drop (q + 8) := by
      have h5 : X.length = q + (X.length - q) := by omega
      conv_lhs => rw [h5, ← List.drop_drop, hd]
      rw [List.drop_append_of_le_length]
      simp only [versionTok, List.length_cons, List.length_nil]
      omega
    rw [hdp] at htokp
    exact versionTok_no_overlap (X.length - q) _ (by omega) (by omega) htokp
  · have h5 : X.length < q := by omega
    rcases Nat.lt_or_ge q (X.length + 8) with h6 | h6
    · have hd : (X ++ versionTok ++ W ++ N ++ S).drop X.length =
          versionTok ++ (X ++ versionTok ++ W ++ N ++ S).drop (X.length + 8) :=
        isTok_decomp _ X.length htokp
      have hdq : (X ++ versionTok ++ W ++ N ++ S).drop q =
          versionTok.drop (q - X.length) ++
            (X ++ versionTok ++ W ++ N ++ S).drop (X.length + 8) := by
        have h7 : q = X.length + (q - X.length) := by omega
        conv_lhs => rw [h7, ← List.drop_drop, hd]
        rw [List.drop_append_of_le_length]
        simp only [versionTok, List.length_cons, List.length_nil]
        omega
      have hq1 := hq.1
      rw [hdq] at hq1
      exact versionTok_no_overlap (q - X.length) _ (by omega) (by omega) hq1
    · rcases Nat.lt_or_ge q (X.length + 8 + W.length) with h7 | h7
      · obtain ⟨c, Z, hcz, hcm⟩ := drop_head_mem W (q - (X.length + 8)) (by omega)
        have hdq : (X ++ versionTok ++ W ++ N ++ S).drop q =
            c :: (Z ++ (N ++ S)) := by
          have h8 : q = (X.length + 8) + (q - (X.length + 8)) := by omega
          rw [h8, ← List.drop_drop, repl_drop_after,
            List.drop_append_of_le_length (by omega), hcz]
          rfl
        exact not_tok_of_head _ q c _ hdq (ws_ne_v c (hW c hcm)) hq.1
      · obtain ⟨c, Z, hcz, hcm⟩ := drop_head_mem N (q - (X.length + 8 + W.length)) (by omega)
        have hdq : (X ++ versionTok ++ W ++ N ++ S).drop q =
            c :: (Z ++ S) := by
          have h8 : q = (X.length + 8) + (W.length + (q - (X.length + 8 + W.length))) := by
            omega
          rw [h8, ← List.drop_drop, repl_drop_after, drop_append_plus,
            List.drop_append_of_le_length (by omega), hcz]
          rfl
        exact not_tok_of_head _ q c _ hdq (valChar_ne_v c (hN c hcm)) hq.1

theorem viab_replace_left (X W N N' S : List Char) (q : Nat)
    (hq8 : q + 8 ≤ X.length) :
    viab (X ++ versionTok ++ W ++ N ++ S) q ↔
      viab (X ++ versionTok ++ W ++ N' ++ S) q := by
  have hd1 := repl_drop_tok X W N S q (by omega)
  have hd2 := repl_drop_tok X W N' S q (by omega)
  have hd18 := repl_drop_tok X W N S (q + 8) (by omega)
  have hd28 := repl_drop_tok X W N' S (q + 8) (by omega)
  have hxlen : 8 ≤ (X.drop q).length := by
    rw [List.length_drop]; omega
  have hC : X.drop (q + 8) ++ (versionTok ++ (W ++ (N ++ S))) =
      (X.drop (q + 8) ++ versionTok ++ W) ++ (N ++ S) := by
    simp [List.append_assoc]
  have hC2 : X.drop (q + 8) ++ (versionTok ++ (W ++ (N' ++ S))) =
      (X.drop (q + 8) ++ versionTok ++ W) ++ (N' ++ S) := by
    simp [List.append_assoc]
  have hvmem : 'v' ∈ X.drop (q + 8) ++ versionTok ++ W := by
    simp [versionTok]
  rw [viab, viab, hd1, hd2, hd18, hd28, hC, hC2]
  rw [List.take_append_of_le_length hxlen, List.take_append_of_le_length hxlen]
  rw [valueMatch_append_congr (X.drop (q + 8) ++ versionTok ++ W) (N ++ S) (N' ++ S)
    'v' hvmem v_block]

theorem repl_len4 (X W N : List Char) :
    (X ++ versionTok ++ W ++ N).length = X.length + 8 + W.length + N.length := by
  simp only [List.length_append, versionTok, List.length_cons, List.length_nil]

theorem repl_drop_S (X W N S : List Char) (r0 : Nat) :
    (X ++ versionTok ++ W ++ N ++ S).drop (X.length + 8 + W.length + N.length + r0) =
      S.drop r0 := by
  rw [← repl_len4 X W N, drop_append_plus]

theorem viab_replace_S (X W N N' S : List Char) (r0 : Nat) :
    viab (X ++ versionTok ++ W ++ N ++ S) (X.length + 8 + W.length + N.length + r0) ↔
      viab (X ++ versionTok ++ W ++ N' ++ S) (X.length + 8 + W.length + N'.length + r0) := by
  apply viab_of_drop_eq
  rw [repl_drop_S, repl_drop_S]

theorem nlIdx_replace_left (X W N N' S : List Char) (x : Nat)
    (hx : x ≤ X.length + 8 + W.length) :
    nlIdx (X ++ versionTok ++ W ++ N ++ S) x =
      nlIdx (X ++ versionTok ++ W ++ N' ++ S) x := by
  have h3 := len_XTW X W
  have g1 : X ++ versionTok ++ W ++ N ++ S = (X ++ versionTok ++ W) ++ (N ++ S) :=
    List.append_assoc _ N S
  have g2 : X ++ versionTok ++ W ++ N' ++ S = (X ++ versionTok ++ W) ++ (N' ++ S) :=
    List.append_assoc _ N' S
  have e1 : nlIdx ((X ++ versionTok ++ W) ++ (N ++ S)) x =
      nlIdx (X ++ versionTok ++ W) x :=
    nlIdx_append_left _ _ x (by omega)
  have e2 : nlIdx ((X ++ versionTok ++ W) ++ (N' ++ S)) x =
      nlIdx (X ++ versionTok ++ W) x :=
    nlIdx_append_left _ _ x (by omega)
  rw [g1, g2, e1, e2]

theorem nlIdx_replace_S (X W N N' S : List Char) (r0 : Nat)
    (hN : N.count '\n' = 0) (hN' : N'.count '\n' = 0) :
    nlIdx (X ++ versionTok ++ W ++ N ++ S) (X.length + 8 + W.length + N.length + r0) =
      nlIdx (X ++ versionTok ++ W ++ N' ++ S) (X.length + 8 + W.length + N'.length + r0) := by
  have h3 := len_XTW X W
  have e1 : nlIdx ((X ++ versionTok ++ W) ++ (N ++ S))
      ((X ++ versionTok ++ W).length + (N.length + r0)) =
      (X ++ versionTok ++ W).count '\n' + nlIdx (N ++ S) (N.length + r0) :=
    nlIdx_append_right _ _ _
  have e2 : nlIdx ((X ++ versionTok ++ W) ++ (N' ++ S))
      ((X ++ versionTok ++ W).length + (N'.length + r0)) =
      (X ++ versionTok ++ W).count '\n' + nlIdx (N' ++ S) (N'.length + r0) :=
    nlIdx_append_right _ _ _
  have f1 : nlIdx (N ++ S) (N.length + r0) = N.count '\n' + nlIdx S r0 :=
    nlIdx_append_right N S r0
  have f2 : nlIdx (N' ++ S) (N'.length + r0) = N'.count '\n' + nlIdx S r0 :=
    nlIdx_append_right N' S r0
  have g1 : X ++ versionTok ++ W ++ N ++ S = (X ++ versionTok ++ W) ++ (N ++ S) :=
    List.append_assoc _ N S
  have g2 : X ++ versionTok ++ W ++ N' ++ S = (X ++ versionTok ++ W) ++ (N' ++ S) :=
    List.append_assoc _ N' S
  have i1 : X.length + 8 + W.length + N.length + r0 =
      (X ++ versionTok ++ W).length + (N.length + r0) := by omega
  have i2 : X.length + 8 + W.length + N'.length + r0 =
      (X ++ versionTok ++ W).length + (N'.length + r0) := by omega
  rw [g1, g2, i1, i2, e1, e2, f1, f2, hN, hN']

theorem nlIdx_mono (r : List Char) (q p : Nat) (h : q ≤ p) : nlIdx r q ≤ nlIdx r p := by
  rw [nlIdx, nlIdx]
  have h1 : r.take q = (r.take p).take q := by rw [List.take_take, Nat.min_eq_left h]
  rw [h1]
  exact List.Sublist.count_le (List.take_sublist q (r.take p)) '\n'

theorem scanLines_value_replace (X W V N S : List Char) (vl nvl : Nat)
    (hW : ∀ x ∈ W, pyWS x = true)
    (hVvc : valueCore (V ++ S) = some vl) (hVlen : V.length = vl)
    (hNvc : valueCore (N ++ S) = some nvl) (hNlen : N.length = nvl)
    (hmin : ∀ q, viab (X ++ versionTok ++ W ++ V ++ S) q →
        nlIdx (X ++ versionTok ++ W ++ V ++ S) X.length <
            nlIdx (X ++ versionTok ++ W ++ V ++ S) q ∨
          (nlIdx (X ++ versionTok ++ W ++ V ++ S) X.length =
              nlIdx (X ++ versionTok ++ W ++ V ++ S) q ∧ q ≤ X.length)) :
    scanLines (X ++ versionTok ++ W ++ N ++ S) = some (X.length, W.length, nvl) := by
  have hVchars : ∀ x ∈ V, valChar x := by
    intro x hx
    have h1 : (V ++ S).take vl = V := by rw [← hVlen, List.take_left]
    exact valueCore_take_chars (V ++ S) vl hVvc x (by rw [h1]; exact hx)
  have hNchars : ∀ x ∈ N, valChar x := by
    intro x hx
    have h1 : (N ++ S).take nvl = N := by rw [← hNlen, List.take_left]
    exact valueCore_take_chars (N ++ S) nvl hNvc x (by rw [h1]; exact hx)
  have hVcnt : V.count '\n' = 0 := no_nl_of_valChars V hVchars
  have hNcnt : N.count '\n' = 0 := no_nl_of_valChars N hNchars
  have hvmN : valueMatch ((X ++ versionTok ++ W ++ N ++ S).drop (X.length + 8)) =
      some (W.length, nvl) := by
    rw [repl_drop_after]
    refine valueMatch_some_intro _ W.length nvl ?_ ?_
    · obtain ⟨c, Z, hcz, hc⟩ := valueCore_some_head_not_ws (N ++ S) nvl hNvc
      rw [hcz]
      exact wsRunLen_allWS_append W c Z hW hc
    · rw [List.drop_left]
      exact hNvc
  refine scanLines_some_intro _ X.length W.length nvl (repl_tok_at X W N S) hvmN ?_
  intro q hq
  rcases viab_replace_zone X W N S q hW hNchars hq with hz | hz | hz
  · have hqO : viab (X ++ versionTok ++ W ++ V ++ S) q :=
      (viab_replace_left X W N V S q hz).mp hq
    rcases hmin q hqO with h1 | ⟨h1, h2⟩
    · exfalso
      have hm := nlIdx_mono (X ++ versionTok ++ W ++ V ++ S) q X.length (by omega)
      omega
    · right
      refine ⟨?_, by omega⟩
      rw [nlIdx_replace_left X W N V S X.length (by omega),
        nlIdx_replace_left X W N V S q (by omega)]
      exact h1
  · exact Or.inr ⟨by rw [hz], by omega⟩
  · have hzq : q = X.length + 8 + W.length + N.length + (q - (X.length + 8 + W.length + N.length)) := by
      omega
    have hqN : viab (X ++ versionTok ++ W ++ N ++ S)
        (X.length + 8 + W.length + N.length + (q - (X.length + 8 + W.length + N.length))) := by
      rw [← hzq]
      exact hq
    have hqO : viab (X ++ versionTok ++ W ++ V ++ S)
        (X.length + 8 + W.length + V.length + (q - (X.length + 8 + W.length + N.length))) :=
      (viab_replace_S X W N V S (q - (X.length + 8 + W.length + N.length))).mp hqN
    rcases hmin _ hqO with h1 | ⟨h1, h2⟩
    · left
      have e1 : nlIdx (X ++ versionTok ++ W ++ N ++ S) X.length =
          nlIdx (X ++ versionTok ++ W ++ V ++ S) X.length :=
        nlIdx_replace_left X W N V S X.length (by omega)
      have e2 := nlIdx_replace_S X W N V S
        (q - (X.length + 8 + W.length + N.length)) hNcnt hVcnt
      rw [hzq, e1, e2]
      exact h1
    · exfalso
      omega

theorem tok_bound (l : List Char) (T : Nat) (h : (l.drop T).take 8 = versionTok) :
    T + 8 ≤ l.length := by
  have h1 := congrArg List.length h
  rw [List.length_take, List.length_drop] at h1
  have h2 : versionTok.length = 8 := by decide
  rw [h2] at h1
  omega

theorem agpm_bound (l : List Char) (q : Nat) (h : (l.drop q).take 5 = agpmTok) :
    q + 5 ≤ l.length := by
  have h1 := congrArg List.length h
  rw [List.length_take, List.length_drop] at h1
  have h2 : agpmTok.length = 5 := by decide
  rw [h2] at h1
  omega

theorem isAgpm_decomp (l : List Char) (q : Nat) (h : (l.drop q).take 5 = agpmTok) :
    l.drop q = agpmTok ++ l.drop (q + 5) := by
  conv_lhs => rw [← List.take_append_drop 5 (l.drop q)]
  rw [h, List.drop_drop]

theorem agpm_no_overlap_pos (l : List Char) (q i : Nat) (hq : q < i)
    (h1 : (l.drop q).take 5 = agpmTok) (h2 : (l.drop i).take 5 = agpmTok) :
    q + 5 ≤ i := by
  by_contra hcon
  have hd : l.drop q = agpmTok ++ l.drop (q + 5) := isAgpm_decomp l q h1
  have hdi : l.drop i = agpmTok.drop (i - q) ++ l.drop (q + 5) := by
    have h3 : i = q + (i - q) := by omega
    conv_lhs => rw [h3, ← List.drop_drop, hd]
    rw [List.drop_append_of_le_length]
    simp only [agpmTok, List.length_cons, List.length_nil]
    omega
  rw [hdi] at h2
  exact agpmTok_no_overlap (i - q) _ (by omega) (by omega) h2

theorem tok_no_overlap_pos (l : List Char) (q T : Nat) (hq : q < T)
    (h1 : (l.drop q).take 8 = versionTok) (h2 : (l.drop T).take 8 = versionTok) :
    q + 8 ≤ T := by
  by_contra hcon
  have hd : l.drop q = versionTok ++ l.drop (q + 8) := isTok_decomp l q h1
  have hdi : l.drop T = versionTok.drop (T - q) ++ l.drop (q + 8) := by
    have h3 : T = q + (T - q) := by omega
    conv_lhs => rw [h3, ← List.drop_drop, hd]
    rw [List.drop_append_of_le_length]
    simp only [versionTok, List.length_cons, List.length_nil]
    omega
  rw [hdi] at h2
  exact versionTok_no_overlap (T - q) _ (by omega) (by omega) h2

theorem drop_take_append (l Q : List Char) (B m0 : Nat) (h1 : m0 ≤ B) (h2 : B ≤ l.length) :
    (l.take B ++ Q).drop m0 = (l.drop m0).take (B - m0) ++ Q := by
  rw [List.drop_append_of_le_length (by rw [List.length_take]; omega)]
  rw [List.drop_take]

theorem take_of_decomp (A B : List Char) (n : Nat) (hA : A.length = n) (l : List Char)
    (h : l = A ++ B) : l.take n = A := by
  rw [h, ← hA, List.take_left]

theorem decomp_at (l : List Char) (m0 p s vl : Nat)
    (htok : (l.drop (m0 + p)).take 8 = versionTok)
    (hws : wsRunLen (l.drop (m0 + p + 8)) = s)
    (hvc : valueCore (l.drop (m0 + p + 8 + s)) = some vl) :
    l.drop m0 =
      (l.drop m0).take p ++ versionTok ++ (l.drop (m0 + p + 8)).take s ++
        (l.drop (m0 + p + 8 + s)).take vl ++ l.drop (m0 + p + 8 + s + vl) := by
  have e1 : l.drop m0 = (l.drop m0).take p ++ l.drop (m0 + p) := by
    conv_lhs => rw [← List.take_append_drop p (l.drop m0)]
    rw [List.drop_drop]
  have e2 : l.drop (m0 + p) = versionTok ++ l.drop (m0 + p + 8) :=
    isTok_decomp l (m0 + p) htok
  have e3 : l.drop (m0 + p + 8) = (l.drop (m0 + p + 8)).take s ++ l.drop (m0 + p + 8 + s) := by
    conv_lhs => rw [← List.take_append_drop s (l.drop (m0 + p + 8))]
    rw [List.drop_drop]
  have e4 : l.drop (m0 + p + 8 + s) =
      (l.drop (m0 + p + 8 + s)).take vl ++ l.drop (m0 + p + 8 + s + vl) := by
    conv_lhs => rw [← List.take_append_drop vl (l.drop (m0 + p + 8 + s))]
    rw [List.drop_drop]
  conv_lhs => rw [e1, e2, e3, e4]
  simp [List.append_assoc]

theorem r1At_intro (m : List Char) (f : Nat) (h5 : m.take 5 = agpmTok)
    (hf : firstNl (m.drop 5) = some f)
    (hs : hasSub versionTok ((m.drop 5).drop (f + 1)) = true) : r1At m = true := by
  simp only [r1At, h5, beq_self_eq_true, Bool.true_and, hf, hs]

theorem findR2_after_subR2 (l v1 : List Char) (i g vl : Nat) (hv1 : IsVer v1)
    (h : findR2 l = some (i, g, vl)) :
    findR2 (subR2 l v1) = some (i, g, v1.length + 2) ∧
      searchR1 (subR2 l v1) = true ∧
      (subR2 l v1).take (i + g) = l.take (i + g) ∧
      (subR2 l v1).drop (i + g + (v1.length + 2)) = l.drop (i + g + vl) := by
  obtain ⟨hma, hleft⟩ := findR2_some_elim l i g vl h
  obtain ⟨h5, j, p, s, hj0, hsc0, hg⟩ := matchAt_some_elim (l.drop i) g vl hma
  rw [List.drop_drop] at hj0
  rw [List.drop_drop, List.drop_drop] at hsc0
  have hidxsc : i + (5 + (j + 1)) = i + 5 + (j + 1) := by omega
  rw [hidxsc] at hsc0
  obtain ⟨htok0, hvm0, hmin0⟩ := scanLines_some_elim _ p s vl hsc0
  rw [List.drop_drop] at htok0
  rw [List.drop_drop] at hvm0
  have hidxvm : i + 5 + (j + 1) + (p + 8) = i + 5 + (j + 1) + p + 8 := by omega
  rw [hidxvm] at hvm0
  obtain ⟨hws0, hvc0⟩ := valueMatch_some_elim _ s vl hvm0
  rw [List.drop_drop] at hvc0
  -- bounds
  have hT8 : i + 5 + (j + 1) + p + 8 ≤ l.length := tok_bound l _ htok0
  have hsle : s ≤ (l.drop (i + 5 + (j + 1) + p + 8)).length := by
    rw [← hws0]; exact wsRunLen_le _
  rw [List.length_drop] at hsle
  have hvle : vl ≤ (l.drop (i + 5 + (j + 1) + p + 8 + s)).length := valueCore_le _ vl hvc0
  rw [List.length_drop] at hvle
  have hBeq : i + g = i + 5 + (j + 1) + p + 8 + s := by omega
  -- opaque decomposition pieces
  obtain ⟨X, hX⟩ : ∃ X, (l.drop (i + 5 + (j + 1))).take p = X := ⟨_, rfl⟩
  obtain ⟨W, hWd⟩ : ∃ W, (l.drop (i + 5 + (j + 1) + p + 8)).take s = W := ⟨_, rfl⟩
  obtain ⟨V, hVd⟩ : ∃ V, (l.drop (i + 5 + (j + 1) + p + 8 + s)).take vl = V := ⟨_, rfl⟩
  obtain ⟨S, hSd⟩ : ∃ S, l.drop (i + 5 + (j + 1) + p + 8 + s + vl) = S := ⟨_, rfl⟩
  have hXlen : X.length = p := by
    rw [← hX, List.length_take, List.length_drop]; omega
  have hWlen : W.length = s := by
    rw [← hWd, List.length_take, List.length_drop]; omega
  have hVlen : V.length = vl := by
    rw [← hVd, List.length_take, List.length_drop]; omega
  have hDecO : l.drop (i + 5 + (j + 1)) = X ++ versionTok ++ W ++ V ++ S := by
    have hd := decomp_at l (i + 5 + (j + 1)) p s vl htok0 hws0 hvc0
    rw [hX, hWd, hVd, hSd] at hd
    exact hd
  -- transported minimality
  rw [hDecO] at hmin0
  rw [← hXlen] at hmin0
  -- whitespace of W
  have hWallws : ∀ x ∈ W, pyWS x = true := by
    rw [← hWd, ← hws0]
    exact take_wsRunLen_allWS _
  -- valueCore facts
  have hVS : V ++ S = l.drop (i + 5 + (j + 1) + p + 8 + s) := by
    rw [← hVd, ← hSd]
    conv_rhs => rw [← List.take_append_drop vl (l.drop (i + 5 + (j + 1) + p + 8 + s))]
    rw [List.drop_drop]
  have hVvc : valueCore (V ++ S) = some vl := by rw [hVS]; exact hvc0
  have hNS : (dq :: (v1 ++ [dq])) ++ S = dq :: (v1 ++ dq :: S) := by simp
  have hNvc : valueCore ((dq :: (v1 ++ [dq])) ++ S) = some (v1.length + 2) := by
    rw [hNS]
    exact valueCore_quote_canonical v1 S hv1
  have hN1len : (dq :: (v1 ++ [dq])).length = v1.length + 2 := by simp
  -- the core replacement
  have hCORE := scanLines_value_replace X W V (dq :: (v1 ++ [dq])) S vl (v1.length + 2)
    hWallws hVvc hVlen hNvc hN1len hmin0
  rw [hXlen, hWlen] at hCORE
  -- t and its decompositions
  have ht : subR2 l v1 = l.take (i + g) ++ dq :: (v1 ++ [dq]) ++ l.drop (i + g + vl) := by
    simp only [subR2, h]
  have ht2 : subR2 l v1 =
      l.take (i + g) ++ ((dq :: (v1 ++ [dq])) ++ l.drop (i + g + vl)) := by
    rw [ht]; simp [List.append_assoc]
  have hglow : 14 ≤ g := by omega
  have hSd2 : l.drop (i + g + vl) = S := by
    have hix : i + g + vl = i + 5 + (j + 1) + p + 8 + s + vl := by omega
    rw [hix]; exact hSd
  have hDecO2 : l.drop (i + 5 + (j + 1)) = (X ++ versionTok ++ W) ++ (V ++ S) := by
    rw [hDecO]; simp [List.append_assoc]
  have hXTWlen : (X ++ versionTok ++ W).length = p + 8 + s := by
    rw [len_XTW, hXlen, hWlen]
  have htake_m0 : (l.drop (i + 5 + (j + 1))).take (p + 8 + s) = X ++ versionTok ++ W :=
    take_of_decomp _ _ _ hXTWlen _ hDecO2
  have hDecN : (subR2 l v1).drop (i + 5 + (j + 1)) =
      X ++ versionTok ++ W ++ (dq :: (v1 ++ [dq])) ++ S := by
    rw [ht2, drop_take_append l _ (i + g) (i + 5 + (j + 1)) (by omega) (by omega)]
    have hidx : i + g - (i + 5 + (j + 1)) = p + 8 + s := by omega
    rw [hidx, htake_m0, hSd2]
    simp [List.append_assoc]
  -- take-5 at i in t
  have hti : (subR2 l v1).drop i =
      (l.drop i).take (i + g - i) ++ ((dq :: (v1 ++ [dq])) ++ l.drop (i + g + vl)) := by
    rw [ht2]; exact drop_take_append l _ (i + g) i (by omega) (by omega)
  have ht5 : ((subR2 l v1).drop i).take 5 = agpmTok := by
    rw [hti, List.take_append_of_le_length (by rw [List.length_take, List.length_drop]; omega),
      List.take_take]
    have hm5 : min 5 (i + g - i) = 5 := by omega
    rw [hm5]
    exact h5
  -- lastNl at i+5 in t
  have hti5 : (subR2 l v1).drop (i + 5) =
      (l.drop (i + 5)).take (i + g - (i + 5)) ++
        ((dq :: (v1 ++ [dq])) ++ l.drop (i + g + vl)) := by
    rw [ht2]; exact drop_take_append l _ (i + g) (i + 5) (by omega) (by omega)
  have hCold : l.drop (i + 5) =
      (l.drop (i + 5)).take (i + g - (i + 5)) ++ l.drop (i + g) := by
    conv_lhs => rw [← List.take_append_drop (i + g - (i + 5)) (l.drop (i + 5))]
    rw [List.drop_drop]
    have hidx : i + 5 + (i + g - (i + 5)) = i + g := by omega
    rw [hidx]
  have hdT : l.drop (i + 5 + ((j + 1) + p)) =
      'v' :: (['e', 'r', 's', 'i', 'o', 'n', ':'] ++ l.drop (i + 5 + (j + 1) + p + 8)) := by
    have hidx : i + 5 + ((j + 1) + p) = i + 5 + (j + 1) + p := by omega
    rw [hidx, isTok_decomp l _ htok0]
    rfl
  have hvC : 'v' ∈ (l.drop (i + 5)).take (i + g - (i + 5)) :=
    mem_take_of_drop_cons l (i + 5) ((j + 1) + p) (i + g - (i + 5)) 'v' _ hdT (by omega)
  have hjN5 : lastNl ((subR2 l v1).drop (i + 5)) = some j := by
    rw [hti5, lastNl_append_congr _ _ (l.drop (i + g)) ⟨'v', hvC, by decide⟩, ← hCold]
    exact hj0
  -- scanLines at i+5+(j+1) in t
  have hscN : scanLines ((subR2 l v1).drop (i + 5 + (j + 1))) = some (p, s, v1.length + 2) := by
    rw [hDecN]
    exact hCORE
  -- matchAt at i in t
  have hmA : matchAt ((subR2 l v1).drop i) = some (g, v1.length + 2) := by
    have hin := matchAt_some_intro ((subR2 l v1).drop i) j p s (v1.length + 2) ht5
      (by rw [List.drop_drop]; exact hjN5)
      (by rw [List.drop_drop, List.drop_drop]
          have hidx : i + (5 + (j + 1)) = i + 5 + (j + 1) := by omega
          rw [hidx]
          exact hscN)
    rw [← hg] at hin
    exact hin
  -- leftmost none in t
  have hdA : ∀ q2, q2 + 5 ≤ i → l.drop (q2 + 5 + (i - (q2 + 5))) =
      'a' :: (['g', 'p', 'm', ':'] ++ l.drop (i + 5)) := by
    intro q2 hq2
    have hidx : q2 + 5 + (i - (q2 + 5)) = i := by omega
    rw [hidx, isAgpm_decomp l i h5]
    rfl
  have hleftN : ∀ q, q < i → matchAt ((subR2 l v1).drop q) = none := by
    intro q hq
    have htiq : (subR2 l v1).drop q =
        (l.drop q).take (i + g - q) ++ ((dq :: (v1 ++ [dq])) ++ l.drop (i + g + vl)) := by
      rw [ht2]; exact drop_take_append l _ (i + g) q (by omega) (by omega)
    have hq5 : ((subR2 l v1).drop q).take 5 = (l.drop q).take 5 := by
      rw [htiq,
        List.take_append_of_le_length (by rw [List.length_take, List.length_drop]; omega),
        List.take_take]
      have hm5 : min 5 (i + g - q) = 5 := by omega
      rw [hm5]
    by_cases hq5a : (l.drop q).take 5 = agpmTok
    · have hqi : q + 5 ≤ i := agpm_no_overlap_pos l q i hq hq5a h5
      have hdAq := hdA q hqi
      rcases matchAt_none_elim (l.drop q) (hleft q hq) hq5a with hnl | ⟨j2, hj2, hscn2⟩
      · -- lastNl none transfers
        rw [List.drop_drop] at hnl
        have haC : 'a' ∈ (l.drop (q + 5)).take (i + g - (q + 5)) :=
          mem_take_of_drop_cons l (q + 5) (i - (q + 5)) (i + g - (q + 5)) 'a' _ hdAq
            (by omega)
        have htiq5 : (subR2 l v1).drop (q + 5) =
            (l.drop (q + 5)).take (i + g - (q + 5)) ++
              ((dq :: (v1 ++ [dq])) ++ l.drop (i + g + vl)) := by
          rw [ht2]; exact drop_take_append l _ (i + g) (q + 5) (by omega) (by omega)
        have hCold2 : l.drop (q + 5) =
            (l.drop (q + 5)).take (i + g - (q + 5)) ++ l.drop (i + g) := by
          conv_lhs => rw [← List.take_append_drop (i + g - (q + 5)) (l.drop (q + 5))]
          rw [List.drop_drop]
          have hidx : q + 5 + (i + g - (q + 5)) = i + g := by omega
          rw [hidx]
        have hnlN : lastNl (((subR2 l v1).drop q).drop 5) = none := by
          rw [List.drop_drop, htiq5,
            lastNl_append_congr _ _ (l.drop (i + g)) ⟨'a', haC, by decide⟩, ← hCold2]
          exact hnl
        exact matchAt_none_of_lastNl _ (by rw [hq5]; exact hq5a) hnlN
      · -- lastNl some j2 with scanLines none contradicts viability at the main token
        exfalso
        rw [List.drop_drop] at hj2
        obtain ⟨⟨hj2len, Z2, hj2nl⟩, hj2ws⟩ := lastNl_some_elim _ j2 hj2
        have hbound : q + 5 + j2 < i := by
          by_contra hcon
          rcases Nat.lt_or_ge (i - (q + 5)) j2 with hlt | hge
          · have ham : 'a' ∈ (l.drop (q + 5)).take j2 :=
              mem_take_of_drop_cons l (q + 5) (i - (q + 5)) j2 'a' _ hdAq hlt
            exact absurd (hj2ws 'a' ham) (by decide)
          · have heq : i - (q + 5) = j2 := by omega
            rw [← heq] at hj2nl
            rw [List.drop_drop, hdAq] at hj2nl
            simp at hj2nl
        have hviab : viab (l.drop (q + 5 + (j2 + 1)))
            (i + 5 + (j + 1) + p - (q + 5 + (j2 + 1))) := by
          constructor
          · rw [List.drop_drop]
            have hidx : q + 5 + (j2 + 1) + (i + 5 + (j + 1) + p - (q + 5 + (j2 + 1))) =
                i + 5 + (j + 1) + p := by omega
            rw [hidx]
            exact htok0
          · rw [List.drop_drop]
            have hidx : q + 5 + (j2 + 1) +
                (i + 5 + (j + 1) + p - (q + 5 + (j2 + 1)) + 8) =
                i + 5 + (j + 1) + p + 8 := by omega
            rw [hidx, hvm0]
            rfl
        rw [List.drop_drop, List.drop_drop] at hscn2
        have hidx2 : q + (5 + (j2 + 1)) = q + 5 + (j2 + 1) := by omega
        rw [hidx2] at hscn2
        exact scanLines_ne_none_of_viab _ _ hviab hscn2
    · refine matchAt_none_of_take5 _ ?_
      rw [hq5]
      exact hq5a
  -- findR2 of t
  have hfind : findR2 (subR2 l v1) = some (i, g, v1.length + 2) :=
    findR2_some_intro _ i g (v1.length + 2) hleftN hmA
  -- searchR1 of t
  obtain ⟨f, hf0, hfle⟩ := firstNl_of_lastNl _ j hj0
  have hfN : firstNl ((subR2 l v1).drop (i + 5)) = some f := by
    rw [hti5, firstNl_append_congr _ _ (l.drop (i + g)) ⟨'v', hvC, by decide⟩, ← hCold]
    exact hf0
  have htiT : (subR2 l v1).drop (i + 5 + (j + 1) + p) =
      (l.drop (i + 5 + (j + 1) + p)).take (i + g - (i + 5 + (j + 1) + p)) ++
        ((dq :: (v1 ++ [dq])) ++ l.drop (i + g + vl)) := by
    rw [ht2]; exact drop_take_append l _ (i + g) _ (by omega) (by omega)
  have hsub : hasSub versionTok ((subR2 l v1).drop (i + 5 + (f + 1))) = true := by
    refine hasSub_intro versionTok _ ((j - f) + p) ?_
    rw [List.drop_drop]
    have hidx : i + 5 + (f + 1) + ((j - f) + p) = i + 5 + (j + 1) + p := by omega
    rw [hidx]
    have hvlen8 : versionTok.length = 8 := by decide
    rw [hvlen8, htiT,
      List.take_append_of_le_length (by rw [List.length_take, List.length_drop]; omega),
      List.take_take]
    have hm8 : min 8 (i + g - (i + 5 + (j + 1) + p)) = 8 := by omega
    rw [hm8]
    exact htok0
  have hr1 : r1At ((subR2 l v1).drop i) = true := by
    refine r1At_intro _ f ht5 ?_ ?_
    · rw [List.drop_drop]; exact hfN
    · rw [List.drop_drop, List.drop_drop]
      have hidx : i + (5 + (f + 1)) = i + 5 + (f + 1) := by omega
      rw [hidx]
      exact hsub
  have htlen : i < (subR2 l v1).length := by
    rw [ht2, List.length_append, List.length_take]
    omega
  have hsrch : searchR1 (subR2 l v1) = true := searchR1_intro _ i htlen hr1
  -- take and drop of t around the splice
  have hPlen : (l.take (i + g)).length = i + g := by
    rw [List.length_take]; omega
  have httake : (subR2 l v1).take (i + g) = l.take (i + g) :=
    take_of_decomp _ _ _ hPlen _ ht2
  have hPN : (l.take (i + g) ++ dq :: (v1 ++ [dq])).length = i + g + (v1.length + 2) := by
    rw [List.length_append, hPlen, hN1len]
  have httdrop : (subR2 l v1).drop (i + g + (v1.length + 2)) = l.drop (i + g + vl) := by
    rw [ht, ← hPN, List.drop_left]
  exact ⟨hfind, hsrch, httake, httdrop⟩

theorem update_case1b (l v1 v2 : List Char) (i g vl : Nat) (hv1 : IsVer v1) (hv2 : IsVer v2)
    (h : findR2 l = some (i, g, vl)) :
    update_frontmatter_version_core (subR2 l v1) v2 = subR2 l v2 := by
  obtain ⟨hf, hs, htk, hdr⟩ := findR2_after_subR2 l v1 i g vl hv1 h
  obtain ⟨u, hu⟩ : ∃ u, subR2 l v1 = u := ⟨_, rfl⟩
  rw [hu] at hf hs htk hdr ⊢
  simp only [update_frontmatter_version_core, hs, if_ttrue, if_true]
  simp only [subR2, hf, h]
  rw [htk, hdr]

theorem lastNl_ins2 (X : List Char) :
    lastNl ('\n' :: ' ' :: ' ' :: (versionTok ++ X)) = some 0 := by
  simp [lastNl, versionTok, pyWS]

theorem firstNl_nl (X : List Char) : firstNl ('\n' :: X) = some 0 := by
  simp [firstNl]

theorem lineLen_cons_ne (c : Char) (X : List Char) (hc : (c == '\n') = false) :
    lineLen (c :: X) = lineLen X + 1 := by
  simp only [lineLen, hc, if_ffalse]

theorem scanLines_ins (v rest : List Char) (hv : IsVer v)
    (hrest : rest = [] ∨ ∃ Z, rest = '\n' :: Z) :
    scanLines (' ' :: ' ' :: (versionTok ++ (' ' :: dq :: (v ++ dq :: rest)))) =
      some (2, 1, v.length + 2) := by
  have hvnl : '\n' ∉ v := by
    intro hm
    rcases IsVer_chars v hv '\n' hm with h1 | h1
    · exact absurd h1 (by decide)
    · exact absurd h1 (by decide)
  have hd2 : (' ' :: ' ' :: (versionTok ++ (' ' :: dq :: (v ++ dq :: rest)))).drop 2 =
      versionTok ++ (' ' :: dq :: (v ++ dq :: rest)) := rfl
  have htok : ((' ' :: ' ' :: (versionTok ++ (' ' :: dq :: (v ++ dq :: rest)))).drop 2).take 8 =
      versionTok := by
    rw [hd2]
    have h8 : (8 : Nat) = versionTok.length := by decide
    rw [h8, List.take_left]
  have hd10 : (' ' :: ' ' :: (versionTok ++ (' ' :: dq :: (v ++ dq :: rest)))).drop 10 =
      ' ' :: dq :: (v ++ dq :: rest) := rfl
  have hvm : valueMatch
      ((' ' :: ' ' :: (versionTok ++ (' ' :: dq :: (v ++ dq :: rest)))).drop (2 + 8)) =
      some (1, v.length + 2) := by
    have hd : (2 : Nat) + 8 = 10 := rfl
    rw [hd, hd10]
    have he : ' ' :: dq :: (v ++ dq :: rest) = [' '] ++ dq :: (v ++ dq :: rest) := rfl
    rw [he, valueMatch_ws_canonical [' '] v rest (by decide) hv]
    rfl
  have hlen : (' ' :: ' ' :: (versionTok ++ (' ' :: dq :: (v ++ dq :: rest)))).length =
      13 + v.length + rest.length := by
    simp only [List.length_cons, List.length_append, List.length_nil, versionTok]
    omega
  have hrest0 : lineLen (dq :: rest) = 1 := by
    rcases hrest with hr | ⟨Z, hr⟩ <;> rw [hr]
    · rw [lineLen_cons_ne dq [] (by decide)]
      rfl
    · rw [lineLen_cons_ne dq _ (by decide), lineLen_nl_head]
  have hv2 : lineLen (v ++ dq :: rest) = v.length + 1 := by
    rw [lineLen_append_no_nl v _ hvnl, hrest0]
  have hline : lineLen (' ' :: ' ' :: (versionTok ++ (' ' :: dq :: (v ++ dq :: rest)))) =
      13 + v.length := by
    rw [show (' ' :: ' ' :: (versionTok ++ (' ' :: dq :: (v ++ dq :: rest)))) =
      ' ' :: ' ' :: 'v' :: 'e' :: 'r' :: 's' :: 'i' :: 'o' :: 'n' :: ':' :: ' ' :: dq ::
        (v ++ dq :: rest) from rfl]
    rw [lineLen_cons_ne ' ' _ (by decide), lineLen_cons_ne ' ' _ (by decide),
      lineLen_cons_ne 'v' _ (by decide), lineLen_cons_ne 'e' _ (by decide),
      lineLen_cons_ne 'r' _ (by decide), lineLen_cons_ne 's' _ (by decide),
      lineLen_cons_ne 'i' _ (by decide), lineLen_cons_ne 'o' _ (by decide),
      lineLen_cons_ne 'n' _ (by decide), lineLen_cons_ne ':' _ (by decide),
      lineLen_cons_ne ' ' _ (by decide), lineLen_cons_ne dq _ (by decide), hv2]
    omega
  refine scanLines_some_intro _ 2 1 (v.length + 2) htok hvm ?_
  intro q hq
  rcases le_or_lt q 2 with h1 | h1
  · right
    refine ⟨?_, h1⟩
    rw [nlIdx_zero_of_le _ 2 (by omega), nlIdx_zero_of_le _ q (by omega)]
  · rcases Nat.lt_or_ge q 10 with h2 | h2
    · exfalso
      have := tok_no_overlap_pos _ 2 q h1 htok hq.1
      omega
    · rcases Nat.lt_or_ge q 12 with h3 | h3
      · exfalso
        rcases Nat.eq_or_lt_of_le h2 with h4 | h4
        · have hdq : (' ' :: ' ' :: (versionTok ++ (' ' :: dq :: (v ++ dq :: rest)))).drop q =
              ' ' :: dq :: (v ++ dq :: rest) := by rw [← h4]; exact hd10
          exact not_tok_of_head _ q ' ' _ hdq (by decide) hq.1
        · have h11 : q = 11 := by omega
          have hdq : (' ' :: ' ' :: (versionTok ++ (' ' :: dq :: (v ++ dq :: rest)))).drop q =
              dq :: (v ++ dq :: rest) := by rw [h11]; rfl
          exact not_tok_of_head _ q dq _ hdq (by decide) hq.1
      · rcases Nat.lt_or_ge q (12 + v.length) with h4 | h4
        · exfalso
          obtain ⟨c, Z, hcz, hcm⟩ := drop_head_mem v (q - 12) (by omega)
          have hdq : (' ' :: ' ' :: (versionTok ++ (' ' :: dq :: (v ++ dq :: rest)))).drop q =
              c :: (Z ++ dq :: rest) := by
            have hidx : q = 12 + (q - 12) := by omega
            rw [hidx, ← List.drop_drop,
              show (' ' :: ' ' :: (versionTok ++ (' ' :: dq :: (v ++ dq :: rest)))).drop 12 =
                v ++ dq :: rest from rfl,
              List.drop_append_of_le_length (by omega), hcz]
            rfl
          have hne : c ≠ 'v' := by
            rcases IsVer_chars v hv c hcm with h5 | h5
            · rintro rfl; exact absurd h5 (by decide)
            · rintro rfl; exact absurd h5 (by decide)
          exact not_tok_of_head _ q c _ hdq hne hq.1
        · rcases Nat.eq_or_lt_of_le h4 with h5 | h5
          · exfalso
            have hdq : (' ' :: ' ' :: (versionTok ++ (' ' :: dq :: (v ++ dq :: rest)))).drop q =
                dq :: rest := by
              rw [← h5, ← List.drop_drop,
                show (' ' :: ' ' :: (versionTok ++ (' ' :: dq :: (v ++ dq :: rest)))).drop 12 =
                  v ++ dq :: rest from rfl,
                List.drop_left]
            exact not_tok_of_head _ q dq _ hdq (by decide) hq.1
          · rcases hrest with hr | ⟨Z, hr⟩
            · exfalso
              subst hr
              refine viab_not_at_len _ q ?_ hq
              rw [hlen]
              simp only [List.length_nil]
              omega
            · subst hr
              rcases Nat.eq_or_lt_of_le (show 13 + v.length ≤ q by omega) with h6 | h6
              · exfalso
                have hq2 := hq
                rw [← h6] at hq2
                refine viab_head_nl _ ?_ (by rw [hline]; exact hq2)
                rw [hline, hlen]
                simp only [List.length_cons]
                omega
              · left
                rw [nlIdx_zero_of_le _ 2 (by omega)]
                refine nlIdx_pos_of_gt _ q ?_ (by omega)
                rw [hline, hlen]
                simp only [List.length_cons]
                omega

theorem update_case2b (l v1 v2 : List Char) (i j : Nat) (hv1 : IsVer v1) (hv2 : IsVer v2)
    (h3 : findR3 l = some (i, j)) :
    update_frontmatter_version_core (subR3 l v1) v2 = subR3 l v2 := by
  obtain ⟨h5i, hjl, hallq⟩ := findR3_some_elim l i j h3
  rw [List.drop_drop] at hjl
  have hi5 : i + 5 ≤ l.length := agpm_bound l i h5i
  have ht : subR3 l v1 = l.take (i + 5) ++ insText v1 ++ l.drop (i + 5 + j + 1) := by
    simp only [subR3, h3]
  have ht2 : subR3 l v1 = l.take (i + 5) ++ (insText v1 ++ l.drop (i + 5 + j + 1)) := by
    rw [ht]; simp [List.append_assoc]
  have htdropi : (subR3 l v1).drop i =
      agpmTok ++ (insText v1 ++ l.drop (i + 5 + j + 1)) := by
    rw [ht2, drop_take_append l _ (i + 5) i (by omega) (by omega)]
    have hidx : i + 5 - i = 5 := by omega
    rw [hidx, h5i]
  have ht5 : ((subR3 l v1).drop i).take 5 = agpmTok := by
    rw [htdropi]
    have h5l : (5 : Nat) = agpmTok.length := by decide
    rw [h5l, List.take_left]
  have hIN : insText v1 ++ l.drop (i + 5 + j + 1) =
      '\n' :: ' ' :: ' ' :: (versionTok ++
        (' ' :: dq :: (v1 ++ dq :: ('\n' :: l.drop (i + 5 + j + 1))))) := by
    simp [insText]
  have hdrop5 : ((subR3 l v1).drop i).drop 5 = insText v1 ++ l.drop (i + 5 + j + 1) := by
    rw [htdropi]
    have h5l : (5 : Nat) = agpmTok.length := by decide
    rw [h5l, List.drop_left]
  have hlastN : lastNl (((subR3 l v1).drop i).drop 5) = some 0 := by
    rw [hdrop5, hIN]
    exact lastNl_ins2 _
  have hscanN : scanLines ((((subR3 l v1).drop i).drop 5).drop (0 + 1)) =
      some (2, 1, v1.length + 2) := by
    rw [hdrop5, hIN]
    show scanLines (' ' :: ' ' :: (versionTok ++
      (' ' :: dq :: (v1 ++ dq :: ('\n' :: l.drop (i + 5 + j + 1)))))) = _
    exact scanLines_ins v1 ('\n' :: l.drop (i + 5 + j + 1)) hv1 (Or.inr ⟨_, rfl⟩)
  have hmA : matchAt ((subR3 l v1).drop i) = some (17, v1.length + 2) := by
    have hin := matchAt_some_intro ((subR3 l v1).drop i) 0 2 1 (v1.length + 2) ht5 hlastN hscanN
    have hidx : 5 + (0 + 1) + 2 + 8 + 1 = 17 := rfl
    rw [hidx] at hin
    exact hin
  have hleftN : ∀ q, q < i → matchAt ((subR3 l v1).drop q) = none := by
    intro q hq
    have htiq : (subR3 l v1).drop q =
        (l.drop q).take (i + 5 - q) ++ (insText v1 ++ l.drop (i + 5 + j + 1)) := by
      rw [ht2]; exact drop_take_append l _ (i + 5) q (by omega) (by omega)
    have hq5 : ((subR3 l v1).drop q).take 5 = (l.drop q).take 5 := by
      rw [htiq,
        List.take_append_of_le_length (by rw [List.length_take, List.length_drop]; omega),
        List.take_take]
      have hm5 : min 5 (i + 5 - q) = 5 := by omega
      rw [hm5]
    by_cases hq5a : (l.drop q).take 5 = agpmTok
    · have hqi : q + 5 ≤ i := agpm_no_overlap_pos l q i hq hq5a h5i
      have hnone : lastNl (l.drop (q + 5)) = none := by
        cases hln : lastNl (l.drop (q + 5)) with
        | none => rfl
        | some j2 =>
          exfalso
          refine hallq q hq ⟨hq5a, ?_⟩
          rw [List.drop_drop, hln]
          rfl
      have hdAq : l.drop (q + 5 + (i - (q + 5))) =
          'a' :: (['g', 'p', 'm', ':'] ++ l.drop (i + 5)) := by
        have hidx : q + 5 + (i - (q + 5)) = i := by omega
        rw [hidx, isAgpm_decomp l i h5i]
        rfl
      have haC : 'a' ∈ (l.drop (q + 5)).take (i + 5 - (q + 5)) :=
        mem_take_of_drop_cons l (q + 5) (i - (q + 5)) (i + 5 - (q + 5)) 'a' _ hdAq (by omega)
      have htiq5 : (subR3 l v1).drop (q + 5) =
          (l.drop (q + 5)).take (i + 5 - (q + 5)) ++
            (insText v1 ++ l.drop (i + 5 + j + 1)) := by
        rw [ht2]; exact drop_take_append l _ (i + 5) (q + 5) (by omega) (by omega)
      have hCold2 : l.drop (q + 5) =
          (l.drop (q + 5)).take (i + 5 - (q + 5)) ++ l.drop (i + 5) := by
        conv_lhs => rw [← List.take_append_drop (i + 5 - (q + 5)) (l.drop (q + 5))]
        rw [List.drop_drop]
        have hidx : q + 5 + (i + 5 - (q + 5)) = i + 5 := by omega
        rw [hidx]
      have hnlN : lastNl (((subR3 l v1).drop q).drop 5) = none := by
        rw [List.drop_drop, htiq5,
          lastNl_append_congr _ _ (l.drop (i + 5)) ⟨'a', haC, by decide⟩, ← hCold2]
        exact hnone
      exact matchAt_none_of_lastNl _ (by rw [hq5]; exact hq5a) hnlN
    · refine matchAt_none_of_take5 _ ?_
      rw [hq5]
      exact hq5a
  have hfind : findR2 (subR3 l v1) = some (i, 17, v1.length + 2) :=
    findR2_some_intro _ i 17 (v1.length + 2) hleftN hmA
  have hfN : firstNl (((subR3 l v1).drop i).drop 5) = some 0 := by
    rw [hdrop5, hIN]
    exact firstNl_nl _
  have hsubN : hasSub versionTok ((((subR3 l v1).drop i).drop 5).drop (0 + 1)) = true := by
    rw [hdrop5, hIN]
    refine hasSub_intro versionTok _ 2 ?_
    show ((' ' :: ' ' :: (versionTok ++ (' ' :: dq :: (v1 ++ dq ::
      ('\n' :: l.drop (i + 5 + j + 1)))))).drop 2).take versionTok.length = versionTok
    rw [show (' ' :: ' ' :: (versionTok ++ (' ' :: dq :: (v1 ++ dq ::
      ('\n' :: l.drop (i + 5 + j + 1)))))).drop 2 = versionTok ++ (' ' :: dq :: (v1 ++ dq ::
      ('\n' :: l.drop (i + 5 + j + 1)))) from rfl]
    exact List.take_left versionTok _
  have hr1 : r1At ((subR3 l v1).drop i) = true :=
    r1At_intro _ 0 ht5 hfN hsubN
  have htlen : i < (subR3 l v1).length := by
    rw [ht2, List.length_append, List.length_take]
    omega
  have hsrch : searchR1 (subR3 l v1) = true := searchR1_intro _ i htlen hr1
  have hA2 : subR3 l v1 =
      (l.take (i + 5) ++ ('\n' :: ' ' :: ' ' :: (versionTok ++ [' ']))) ++
        (dq :: (v1 ++ [dq]) ++ ('\n' :: l.drop (i + 5 + j + 1))) := by
    rw [ht]
    simp [insText, List.append_assoc]
  have hA2len : (l.take (i + 5) ++ ('\n' :: ' ' :: ' ' :: (versionTok ++ [' ']))).length =
      i + 17 := by
    rw [List.length_append, List.length_take]
    simp only [List.length_cons, List.length_append, List.length_nil, versionTok]
    omega
  have httake : (subR3 l v1).take (i + 17) =
      l.take (i + 5) ++ ('\n' :: ' ' :: ' ' :: (versionTok ++ [' '])) :=
    take_of_decomp _ _ _ hA2len _ hA2
  have hA3 : subR3 l v1 =
      ((l.take (i + 5) ++ ('\n' :: ' ' :: ' ' :: (versionTok ++ [' ']))) ++
        dq :: (v1 ++ [dq])) ++ ('\n' :: l.drop (i + 5 + j + 1)) := by
    rw [ht]
    simp [insText, List.append_assoc]
  have hA3len : ((l.take (i + 5) ++ ('\n' :: ' ' :: ' ' :: (versionTok ++ [' ']))) ++
      dq :: (v1 ++ [dq])).length = i + 17 + (v1.length + 2) := by
    rw [List.length_append, hA2len]
    simp only [List.length_cons, List.length_append, List.length_nil]
  have htdrop : (subR3 l v1).drop (i + 17 + (v1.length + 2)) =
      '\n' :: l.drop (i + 5 + j + 1) := by
    rw [hA3, ← hA3len, List.drop_left]
  obtain ⟨u, hu⟩ : ∃ u, subR3 l v1 = u := ⟨_, rfl⟩
  rw [hu] at hfind hsrch httake htdrop ⊢
  simp only [update_frontmatter_version_core, hsrch, if_ttrue, if_true]
  simp only [subR2, hfind]
  rw [httake, htdrop]
  simp only [subR3, h3]
  simp [insText, List.append_assoc]

theorem update_case3 (l v1 v2 : List Char) (hv1 : IsVer v1) (hv2 : IsVer v2)
    (hns : hasSub agpmTok l = false) :
    update_frontmatter_version_core (l ++ appText v1) v2 = l ++ appText v2 := by
  have happ : l ++ appText v1 = (l ++ ['\n']) ++
      (agpmTok ++ ('\n' :: ' ' :: ' ' :: (versionTok ++ (' ' :: dq :: (v1 ++ dq :: []))))) := by
    simp [appText, List.append_assoc]
  have hlen1 : (l ++ ['\n']).length = l.length + 1 := by
    simp
  have htdropI : (l ++ appText v1).drop (l.length + 1) =
      agpmTok ++ ('\n' :: ' ' :: ' ' :: (versionTok ++ (' ' :: dq :: (v1 ++ dq :: [])))) := by
    rw [happ, ← hlen1, List.drop_left]
  have ht5 : ((l ++ appText v1).drop (l.length + 1)).take 5 = agpmTok := by
    rw [htdropI]
    have h5l : (5 : Nat) = agpmTok.length := by decide
    rw [h5l, List.take_left]
  have hdrop5 : (((l ++ appText v1).drop (l.length + 1)).drop 5) =
      '\n' :: ' ' :: ' ' :: (versionTok ++ (' ' :: dq :: (v1 ++ dq :: []))) := by
    rw [htdropI]
    have h5l : (5 : Nat) = agpmTok.length := by decide
    rw [h5l, List.drop_left]
  have hlastN : lastNl (((l ++ appText v1).drop (l.length + 1)).drop 5) = some 0 := by
    rw [hdrop5]
    exact lastNl_ins2 _
  have hscanN : scanLines ((((l ++ appText v1).drop (l.length + 1)).drop 5).drop (0 + 1)) =
      some (2, 1, v1.length + 2) := by
    rw [hdrop5]
    show scanLines (' ' :: ' ' :: (versionTok ++ (' ' :: dq :: (v1 ++ dq :: [])))) = _
    exact scanLines_ins v1 [] hv1 (Or.inl rfl)
  have hmA : matchAt ((l ++ appText v1).drop (l.length + 1)) = some (17, v1.length + 2) := by
    have hin := matchAt_some_intro ((l ++ appText v1).drop (l.length + 1)) 0 2 1
      (v1.length + 2) ht5 hlastN hscanN
    have hidx : 5 + (0 + 1) + 2 + 8 + 1 = 17 := rfl
    rw [hidx] at hin
    exact hin
  have hdropL : (l ++ appText v1).drop l.length = '\n' ::
      (agpmTok ++ ('\n' :: ' ' :: ' ' :: (versionTok ++ (' ' :: dq :: (v1 ++ dq :: []))))) := by
    rw [List.drop_left]
    simp [appText]
  have hleftN : ∀ q, q < l.length + 1 → matchAt ((l ++ appText v1).drop q) = none := by
    intro q hq
    rcases Nat.lt_or_ge (q + 5) (l.length + 1) with h1 | h1
    · have hq5 : ((l ++ appText v1).drop q).take 5 = (l.drop q).take 5 := by
        rw [List.drop_append_of_le_length (by omega),
          List.take_append_of_le_length (by rw [List.length_drop]; omega)]
      refine matchAt_none_of_take5 _ ?_
      rw [hq5]
      have hno := hasSub_false_elim agpmTok l q hns
      rw [show agpmTok.length = 5 from rfl] at hno
      exact hno
    · refine matchAt_none_of_take5 _ ?_
      refine not_agpm_of_char_at _ q (l.length - q) '\n' (by omega) ?_ (by decide)
      have hidx : q + (l.length - q) = l.length := by omega
      rw [hidx]
      exact get_of_drop_cons hdropL
  have hfind : findR2 (l ++ appText v1) = some (l.length + 1, 17, v1.length + 2) :=
    findR2_some_intro _ (l.length + 1) 17 (v1.length + 2) hleftN hmA
  have hfN : firstNl (((l ++ appText v1).drop (l.length + 1)).drop 5) = some 0 := by
    rw [hdrop5]
    exact firstNl_nl _
  have hsubN : hasSub versionTok
      ((((l ++ appText v1).drop (l.length + 1)).drop 5).drop (0 + 1)) = true := by
    rw [hdrop5]
    refine hasSub_intro versionTok _ 2 ?_
    show ((' ' :: ' ' :: (versionTok ++ (' ' :: dq :: (v1 ++ dq :: [])))).drop 2).take
      versionTok.length = versionTok
    rw [show (' ' :: ' ' :: (versionTok ++ (' ' :: dq :: (v1 ++ dq :: [])))).drop 2 =
      versionTok ++ (' ' :: dq :: (v1 ++ dq :: [])) from rfl]
    exact List.take_left versionTok _
  have hr1 : r1At ((l ++ appText v1).drop (l.length + 1)) = true :=
    r1At_intro _ 0 ht5 hfN hsubN
  have htlen : l.length + 1 < (l ++ appText v1).length := by
    rw [List.length_append]
    simp only [appText, List.length_cons, List.length_append, List.length_nil, versionTok,
      agpmTok]
    omega
  have hsrch : searchR1 (l ++ appText v1) = true := searchR1_intro _ (l.length + 1) htlen hr1
  have hA3 : l ++ appText v1 =
      (l ++ ('\n' :: agpmTok ++ ('\n' :: ' ' :: ' ' :: (versionTok ++ [' '])))) ++
        dq :: (v1 ++ [dq]) := by
    simp [appText, List.append_assoc]
  have hA3len : (l ++ ('\n' :: agpmTok ++ ('\n' :: ' ' :: ' ' :: (versionTok ++ [' '])))).length =
      l.length + 1 + 17 := by
    simp only [List.length_append, List.length_cons, List.length_nil, versionTok, agpmTok]
  have httake : (l ++ appText v1).take (l.length + 1 + 17) =
      l ++ ('\n' :: agpmTok ++ ('\n' :: ' ' :: ' ' :: (versionTok ++ [' ']))) :=
    take_of_decomp _ _ _ hA3len _ hA3
  have htdrop : (l ++ appText v1).drop (l.length + 1 + 17 + (v1.length + 2)) = [] := by
    refine List.drop_eq_nil_of_le ?_
    rw [List.length_append]
    simp only [appText, List.length_cons, List.length_append, List.length_nil, versionTok,
      agpmTok]
    omega
  obtain ⟨u, hu⟩ : ∃ u, l ++ appText v1 = u := ⟨_, rfl⟩
  rw [hu] at hfind hsrch httake htdrop ⊢
  simp only [update_frontmatter_version_core, hsrch, if_ttrue, if_true]
  simp only [subR2, hfind]
  rw [httake, htdrop]
  simp [appText, List.append_assoc]

theorem update_absorbs (l v1 v2 : List Char) (hv1 : IsVer v1) (hv2 : IsVer v2) :
    update_frontmatter_version_core (update_frontmatter_version_core l v1) v2 =
      update_frontmatter_version_core l v2 := by
  cases hsb : searchR1 l with
  | true =>
    have h1 : update_frontmatter_version_core l v1 = subR2 l v1 := by
      simp only [update_frontmatter_version_core, hsb, if_ttrue, if_true]
    have h2 : update_frontmatter_version_core l v2 = subR2 l v2 := by
      simp only [update_frontmatter_version_core, hsb, if_ttrue, if_true]
    rw [h1, h2]
    cases hf : findR2 l with
    | none =>
      have he : subR2 l v1 = l := by simp only [subR2, hf]
      rw [he, ← h2]
    | some x =>
      obtain ⟨i, g, vl⟩ := x
      exact update_case1b l v1 v2 i g vl hv1 hv2 hf
  | false =>
    cases hhb : hasSub agpmTok l with
    | true =>
      have h1 : update_frontmatter_version_core l v1 = subR3 l v1 := by
        simp only [update_frontmatter_version_core, hsb, hhb, if_ffalse, if_ttrue, if_true]
      have h2 : update_frontmatter_version_core l v2 = subR3 l v2 := by
        simp only [update_frontmatter_version_core, hsb, hhb, if_ffalse, if_ttrue, if_true]
      rw [h1, h2]
      cases hf3 : findR3 l with
      | none =>
        have he : subR3 l v1 = l := by simp only [subR3, hf3]
        rw [he, ← h2]
      | some x =>
        obtain ⟨i, j⟩ := x
        exact update_case2b l v1 v2 i j hv1 hv2 hf3
    | false =>
      have h1 : update_frontmatter_version_core l v1 = l ++ appText v1 := by
        simp only [update_frontmatter_version_core, hsb, hhb, if_ffalse]
      have h2 : update_frontmatter_version_core l v2 = l ++ appText v2 := by
        simp only [update_frontmatter_version_core, hsb, hhb, if_ffalse]
      rw [h1, h2]
      exact update_case3 l v1 v2 hv1 hv2 hhb

/-- C5: for every frontmatter block text and any two version strings of the
canonical digit-triple shape the program produces and matches
(`[0-9]+\.[0-9]+\.[0-9]+`), a second `update_frontmatter_version` absorbs the
first: `update(update(block, v1), v2) = update(block, v2)`, so no duplicate
version lines accumulate and updating twice with the same version is a no-op
on the second call. -/
theorem update_frontmatter_version_absorbs (text w1 w2 : String)
    (h1 : IsVer w1.data) (h2 : IsVer w2.data) :
    update_frontmatter_version (update_frontmatter_version text w1) w2 =
      update_frontmatter_version text w2 := by
  show String.mk (update_frontmatter_version_core
      (update_frontmatter_version_core text.data w1.data) w2.data) =
    String.mk (update_frontmatter_version_core text.data w2.data)
  exact congrArg String.mk (update_absorbs text.data w1.data w2.data h1 h2)

theorem update_frontmatter_version_absorbs_witness :
    update_frontmatter_version
        (update_frontmatter_version "agpm:\n  version: 1.2.3\nother: x" "9.9.9") "4.5.6" =
      update_frontmatter_version "agpm:\n  version: 1.2.3\nother: x" "4.5.6" :=
  update_frontmatter_version_absorbs "agpm:\n  version: 1.2.3\nother: x" "9.9.9" "4.5.6"
    ⟨['9'], ['9'], ['9'], by decide, by decide, by decide, by decide, by decide, by decide,
      by decide⟩
    ⟨['4'], ['5'], ['6'], by decide, by decide, by decide, by decide, by decide, by decide,
      by decide⟩

end AGPM
